import Mathlib

/-!
# The game-logic engine of `src/code/main.c`

A shallow embedding of the engine part of `main.c` (board, tetromino catalog,
collision, merge, line detection and collapse, drop timing, scoring, the phase
state machine) followed by theorems about it.

Conventions of the embedding.

* C `int` and `char` values are `Int`, `unsigned char` values are `Nat`.  Every
  value the engine stores in an `unsigned char` is below 256, so no reduction
  modulo 256 is written out except at the one explicit cast in `spawn_piece`.
  The products and sums of `compute_points` and `get_lines_for_next_level` are
  32-bit: each is reduced with `int_wrap`, the wrap-around of the compiled program.
  The sums stored in the fields of the game state (`line_count`, `points`, the two
  levels) are not reduced.
* C arrays are lists.  An access outside the array is undefined behaviour in C;
  here it ends the run with `Fault.out_of_range`, so that "never indexed out of
  range" is a statement about the result of a function.
* `float` clock values are rationals.  In the functions that carry the source's
  names arithmetic on time is exact.  Rounding decides one thing, whether the
  gravity loop is left, so the drop functions and the PLAY tick are embedded a
  second time with every operation on time rounded to binary32 (`float_round`,
  names ending in `_f32`).
* `rand()` is a stream of natural numbers carried next to the game state.
* `while` loops take a step budget; a loop that needs more steps than its
  budget ends with `Fault.out_of_fuel`.
* The calls into the sound mixer do not touch the game state and are left out.
-/

namespace Tetris

/-! ## Runs that can go wrong -/

/-- The ways a run of the embedded code can stop without a result. -/
inductive Fault where
  /-- An array was read or written outside its bounds. -/
  | out_of_range
  /-- The two regions handed to `memcpy` overlap. -/
  | overlap
  /-- A `while` loop used up its step budget. -/
  | out_of_fuel
deriving DecidableEq, Repr

deriving instance DecidableEq for Except

/-- A computation of the engine: a result or a fault. -/
abbrev Run (α : Type) : Type := Except Fault α

/-- Read `a[i]`. -/
def array_get (a : List Nat) (i : Int) : Run Nat :=
  if 0 ≤ i ∧ i < (a.length : Int) then .ok (a.getD i.toNat 0) else .error .out_of_range

/-- Write `a[i] = v`. -/
def array_set (a : List Nat) (i : Int) (v : Nat) : Run (List Nat) :=
  if 0 ≤ i ∧ i < (a.length : Int) then .ok (a.set i.toNat v) else .error .out_of_range

/-- The values `0, 1, ..., n-1` of a counting loop `for (int i = 0; i < n; ++i)`. -/
def int_range (n : Int) : List Int :=
  (List.range n.toNat).map (fun (i : Nat) => (i : Int))

/-- A counting loop whose body may leave the enclosing function with `return r`
(`some r`) or fall through to the next iteration (`none`). -/
def for_return {β : Type} : List Int → (Int → Run (Option β)) → Run (Option β)
  | [], _ => .ok none
  | i :: rest, body =>
    match body i with
    | .error e => .error e
    | .ok (some r) => .ok (some r)
    | .ok none => for_return rest body

/-- A loop `while (c) body`: `step` evaluates the condition and, when it holds,
the body; it answers whether the loop goes on.  A budget of `n + 1` allows `n`
passes through the body and the closing evaluation of the condition. -/
def while_loop {σ : Type} (step : σ → Run (Bool × σ)) : Nat → σ → Run σ
  | 0, _ => .error .out_of_fuel
  | n + 1, s =>
    match step s with
    | .error e => .error e
    | .ok (true, s1) => while_loop step n s1
    | .ok (false, s1) => .ok s1

/-- The library call `memset(mem + dst, v, n)`. -/
def memset (mem : List Nat) (dst : Int) (v : Nat) (n : Int) : Run (List Nat) :=
  (int_range n).foldlM (fun m i => array_set m (dst + i) v) mem

/-- The library call `memcpy(mem + dst, mem + src, n)`; the regions must not overlap. -/
def memcpy (mem : List Nat) (dst src n : Int) : Run (List Nat) :=
  if dst < src + n ∧ src < dst + n ∧ 0 < n then .error .overlap
  else (int_range n).foldlM (fun m i => do
    let v ← array_get mem (src + i)
    array_set m (dst + i) v) mem

/-! ## Constants and tables -/

/-- Board width, `#define WIDTH 10`. -/
abbrev WIDTH : Int := 10
/-- Board height, `#define HEIGHT 22`. -/
abbrev HEIGHT : Int := 22

/-- Frames per gravity step for the levels 0..29. -/
def FRAMES_PER_DROP : List Nat :=
  [48, 43, 38, 33, 28, 23, 18, 13, 8, 6, 5, 5, 5, 4, 4, 4, 3, 3, 3,
   2, 2, 2, 2, 2, 2, 2, 2, 2, 2, 1]

/-- Duration of a frame in seconds, `1.f / 60.f`, as the exact quotient; the `float`
it is in the program is `TARGET_SECONDS_PER_FRAME_f32`. -/
def TARGET_SECONDS_PER_FRAME : ℚ := 1 / 60

/-- A shape: its orientation-0 template, row-major, and the side of the square. -/
structure Tetrino where
  data : List Nat
  side : Int
deriving DecidableEq, Repr

def TETRINO_1 : List Nat :=
  [0, 0, 0, 0,
   1, 1, 1, 1,
   0, 0, 0, 0,
   0, 0, 0, 0]

def TETRINO_2 : List Nat :=
  [2, 2,
   2, 2]

def TETRINO_3 : List Nat :=
  [0, 0, 0,
   3, 3, 3,
   0, 3, 0]

def TETRINO_4 : List Nat :=
  [0, 4, 4,
   4, 4, 0,
   0, 0, 0]

def TETRINO_5 : List Nat :=
  [5, 5, 0,
   0, 5, 5,
   0, 0, 0]

def TETRINO_6 : List Nat :=
  [6, 0, 0,
   6, 6, 6,
   0, 0, 0]

def TETRINO_7 : List Nat :=
  [0, 0, 7,
   7, 7, 7,
   0, 0, 0]

/-- The catalog of the seven shapes. -/
def TETRINOS : List Tetrino :=
  [⟨TETRINO_1, 4⟩, ⟨TETRINO_2, 2⟩, ⟨TETRINO_3, 3⟩, ⟨TETRINO_4, 3⟩,
   ⟨TETRINO_5, 3⟩, ⟨TETRINO_6, 3⟩, ⟨TETRINO_7, 3⟩]

/-- The pointer `TETRINOS + index`, dereferenced: a fault outside the catalog. -/
def tetrino_at (index : Nat) : Run Tetrino :=
  match TETRINOS.get? index with
  | some t => .ok t
  | none => .error .out_of_range

/-! ## State -/

inductive Game_Phase where
  | GAME_PHASE_START
  | GAME_PHASE_PLAY
  | GAME_PHASE_LINE
  | GAME_PHASE_GAMEOVER
deriving DecidableEq, Repr

open Game_Phase

structure Piece_State where
  tetrino_index : Nat
  offset_row : Int
  offset_col : Int
  rotation : Int
deriving DecidableEq, Repr

structure Game_State where
  board : List Nat
  lines : List Nat
  pending_line_count : Int
  piece : Piece_State
  phase : Game_Phase
  paused : Bool
  start_level : Int
  level : Int
  line_count : Int
  points : Int
  next_drop_time : ℚ
  highlight_end_time : ℚ
  time : ℚ
deriving DecidableEq

structure Input_State where
  left : Nat
  right : Nat
  up : Nat
  down : Nat
  a : Nat
  dleft : Int
  dright : Int
  dup : Int
  ddown : Int
  da : Int
deriving DecidableEq, Repr

/-- The game state together with the results of the coming calls of `rand()`. -/
structure World where
  game : Game_State
  rand : Nat → Nat

/-! ## Board and catalog accessors -/

def matrix_get (values : List Nat) (width row col : Int) : Run Nat :=
  let index := row * width + col
  array_get values index

def matrix_set (values : List Nat) (width row col : Int) (value : Nat) : Run (List Nat) :=
  let index := row * width + col
  array_set values index value

def tetrino_get (tetrino : Tetrino) (row col rotation : Int) : Run Nat :=
  let side := tetrino.side
  if rotation = 0 then array_get tetrino.data (row * side + col)
  else if rotation = 1 then array_get tetrino.data ((side - col - 1) * side + row)
  else if rotation = 2 then array_get tetrino.data ((side - row - 1) * side + (side - col - 1))
  else if rotation = 3 then array_get tetrino.data (col * side + (side - row - 1))
  else .ok 0

def check_row_filled (values : List Nat) (width row : Int) : Run Nat := do
  let r ← for_return (int_range width) (fun col => do
    let v ← matrix_get values width row col
    if v = 0 then pure (some 0) else pure none)
  match r with
  | some x => pure x
  | none => pure 1

def check_row_empty (values : List Nat) (width row : Int) : Run Nat := do
  let r ← for_return (int_range width) (fun col => do
    let v ← matrix_get values width row col
    if v ≠ 0 then pure (some 0) else pure none)
  match r with
  | some x => pure x
  | none => pure 1

/-- Returns the updated `lines_out` array and the count. -/
def find_lines (values : List Nat) (width height : Int) (lines_out : List Nat) :
    Run (List Nat × Int) :=
  (int_range height).foldlM (fun (st : List Nat × Int) row => do
    let filled ← check_row_filled values width row
    let lines_out ← array_set st.1 row filled
    pure (lines_out, st.2 + (filled : Int))) (lines_out, 0)

/-- One evaluation of `src_row >= 0 && lines[src_row]` followed, when it holds,
by `--src_row`. -/
def clear_lines_skip (lines : List Nat) (src_row : Int) : Run (Bool × Int) :=
  if src_row ≥ 0 then do
    let l ← array_get lines src_row
    if l ≠ 0 then pure (true, src_row - 1) else pure (false, src_row)
  else pure (false, src_row)

/-- The body of the `dst_row` loop of `clear_lines`, on the pair of the board
and the source cursor. -/
def clear_lines_row (width : Int) (lines : List Nat) (st : List Nat × Int) (dst_row : Int) :
    Run (List Nat × Int) := do
  let values := st.1
  let src_row ← while_loop (clear_lines_skip lines) (st.2 + 2).toNat st.2
  if src_row < 0 then
    let values ← memset values (dst_row * width) 0 width
    pure (values, src_row)
  else
    let values ← if src_row ≠ dst_row
      then memcpy values (dst_row * width) (src_row * width) width
      else pure values
    pure (values, src_row - 1)

def clear_lines (values : List Nat) (width height : Int) (lines : List Nat) : Run (List Nat) := do
  let st ← (int_range height).reverse.foldlM (clear_lines_row width lines) (values, height - 1)
  pure st.1

/-- The test the two loops of `check_piece_valid` make on one local cell. -/
def check_piece_cell (piece : Piece_State) (tetrino : Tetrino) (board : List Nat)
    (width height row col : Int) : Run (Option Bool) := do
  let value ← tetrino_get tetrino row col piece.rotation
  if value > 0 then
    let board_row := piece.offset_row + row
    let board_col := piece.offset_col + col
    if board_row < 0 ∨ board_row ≥ height then pure (some false)
    else if board_col < 0 ∨ board_col ≥ width then pure (some false)
    else
      let v ← matrix_get board width board_row board_col
      if v ≠ 0 then pure (some false) else pure none
  else pure none

def check_piece_valid (piece : Piece_State) (board : List Nat) (width height : Int) :
    Run Bool := do
  let tetrino ← tetrino_at piece.tetrino_index
  let r ← for_return (int_range tetrino.side) (fun row =>
    for_return (int_range tetrino.side) (fun col =>
      check_piece_cell piece tetrino board width height row col))
  match r with
  | some x => pure x
  | none => pure true

/-- The body of the two loops of `merge_piece` on one local cell. -/
def merge_piece_cell (piece : Piece_State) (tetrino : Tetrino) (board : List Nat)
    (row col : Int) : Run (List Nat) := do
  let value ← tetrino_get tetrino row col piece.rotation
  if value ≠ 0 then
    let board_row := piece.offset_row + row
    let board_col := piece.offset_col + col
    matrix_set board WIDTH board_row board_col value
  else pure board

def merge_piece (game : Game_State) : Run Game_State := do
  let tetrino ← tetrino_at game.piece.tetrino_index
  let board ← (int_range tetrino.side).foldlM (fun board row =>
    (int_range tetrino.side).foldlM (fun board col =>
      merge_piece_cell game.piece tetrino board row col) board) game.board
  pure { game with board := board }

/-! ## Spawn, drop, scoring -/

/-- The function `random_int(min, max)`, given the result `r` of its call of `rand()`. -/
def random_int (min max : Int) (r : Nat) : Int :=
  let range := max - min
  min + Int.tmod (r : Int) range

def get_time_to_next_drop (level : Int) : Run ℚ := do
  let level := if level > 29 then 29 else level
  let frames ← array_get FRAMES_PER_DROP level
  pure ((frames : ℚ) * TARGET_SECONDS_PER_FRAME)

def spawn_piece (w : World) : Run World := do
  let game := w.game
  let index := (random_int 0 (TETRINOS.length : Int) (w.rand 0) % 256).toNat
  let piece : Piece_State :=
    { tetrino_index := index, offset_row := 0, offset_col := WIDTH / 2, rotation := 0 }
  let dt ← get_time_to_next_drop game.level
  pure { game := { game with piece := piece, next_drop_time := game.time + dt },
         rand := fun n => w.rand (n + 1) }

def soft_drop (w : World) : Run (Bool × World) := do
  let game := w.game
  let moved : Piece_State := { game.piece with offset_row := game.piece.offset_row + 1 }
  let valid ← check_piece_valid moved game.board WIDTH HEIGHT
  if !valid then
    let game ← merge_piece game
    let w ← spawn_piece { w with game := game }
    pure (false, w)
  else
    let dt ← get_time_to_next_drop game.level
    pure (true, { w with game :=
      { game with piece := moved, next_drop_time := game.time + dt } })

/-- The value of type `int` (32 bits, two's complement) that a result `x` of integer
arithmetic is stored as: the representative of `x` modulo `2^32` in
`[-2^31, 2^31)`.  It is `x` itself when `x` is in that range. -/
def int_wrap (x : Int) : Int := (x + 2147483648) % 4294967296 - 2147483648

def compute_points (level line_count : Int) : Int :=
  if line_count = 1 then int_wrap (40 * int_wrap (level + 1))
  else if line_count = 2 then int_wrap (100 * int_wrap (level + 1))
  else if line_count = 3 then int_wrap (300 * int_wrap (level + 1))
  else if line_count = 4 then int_wrap (1200 * int_wrap (level + 1))
  else 0

def get_lines_for_next_level (start_level level : Int) : Int :=
  let first_level_up_limit := min (int_wrap (int_wrap (start_level * 10) + 10))
    (max 100 (int_wrap (int_wrap (start_level * 10) - 50)))
  if level = start_level then first_level_up_limit
  else
    let diff := int_wrap (level - start_level)
    int_wrap (first_level_up_limit + int_wrap (diff * 10))

/-! ## The phase state machine -/

def update_game_start (w : World) (input : Input_State) : Run World := do
  let game : Game_State := w.game
  let game : Game_State :=
    if input.dup > 0 then { game with start_level := game.start_level + 1 } else game
  let game : Game_State := if input.ddown > 0 ∧ game.start_level > 0
    then { game with start_level := game.start_level - 1 } else game
  if input.da > 0 then
    let board ← memset game.board 0 0 (WIDTH * HEIGHT)
    let game : Game_State :=
      { game with board := board, level := game.start_level, line_count := 0, points := 0 }
    let w ← spawn_piece { w with game := game }
    pure { w with game := { w.game with phase := GAME_PHASE_PLAY } }
  else pure { w with game := game }

def update_game_gameover (w : World) (input : Input_State) : Run World :=
  if input.da > 0 then pure { w with game := { w.game with phase := GAME_PHASE_START } }
  else pure w

def update_game_line (w : World) : Run World := do
  let game := w.game
  if game.time ≥ game.highlight_end_time then
    let board ← clear_lines game.board WIDTH HEIGHT game.lines
    let game : Game_State := { game with board := board }
    let game : Game_State :=
      { game with line_count := game.line_count + game.pending_line_count }
    let game : Game_State := { game with
      points := game.points + compute_points game.level game.pending_line_count }
    let lines_for_next_level := get_lines_for_next_level game.start_level game.level
    let game : Game_State := if game.line_count ≥ lines_for_next_level
      then { game with level := game.level + 1 } else game
    pure { w with game := { game with phase := GAME_PHASE_PLAY } }
  else pure w

/-- The candidate pose built from the left, right and rotate requests. -/
def candidate_piece (piece : Piece_State) (input : Input_State) : Piece_State :=
  let piece := if input.dleft > 0 then { piece with offset_col := piece.offset_col - 1 } else piece
  let piece := if input.dright > 0 then { piece with offset_col := piece.offset_col + 1 } else piece
  if input.dup > 0 then { piece with rotation := Int.tmod (piece.rotation + 1) 4 } else piece

/-- The loop `while (soft_drop(game));`. -/
def hard_drop_loop (fuel : Nat) (w : World) : Run World :=
  while_loop soft_drop fuel w

/-- One evaluation of `game->time >= game->next_drop_time` followed, when it
holds, by `soft_drop(game)`, with the exact sums of `soft_drop`; `gravity_step_f32`
is the same step with the binary32 sums of the program. -/
def gravity_step (w : World) : Run (Bool × World) :=
  if w.game.time ≥ w.game.next_drop_time then do
    let r ← soft_drop w
    pure (true, r.2)
  else pure (false, w)

def update_game_play (fuel : Nat) (w : World) (input : Input_State) : Run World := do
  let piece := candidate_piece w.game.piece input
  let valid ← check_piece_valid piece w.game.board WIDTH HEIGHT
  let w := if valid then { w with game := { w.game with piece := piece } } else w
  let w ← (if input.ddown > 0 then soft_drop w >>= fun r => pure r.2 else pure w)
  let w ← (if input.da > 0 then hard_drop_loop fuel w else pure w)
  let w ← while_loop gravity_step fuel w
  let found ← find_lines w.game.board WIDTH HEIGHT w.game.lines
  let game : Game_State := { w.game with lines := found.1, pending_line_count := found.2 }
  let game : Game_State := if game.pending_line_count > 0
    then { game with phase := GAME_PHASE_LINE, highlight_end_time := game.time + 1 / 2 }
    else game
  let game_over_row : Int := 0
  let empty ← check_row_empty game.board WIDTH game_over_row
  let game : Game_State :=
    if empty = 0 then { game with phase := GAME_PHASE_GAMEOVER } else game
  pure { w with game := game }

def update_game (fuel : Nat) (w : World) (input : Input_State) : Run World :=
  if w.game.paused then pure w
  else
    match w.game.phase with
    | GAME_PHASE_START => update_game_start w input
    | GAME_PHASE_PLAY => update_game_play fuel w input
    | GAME_PHASE_LINE => update_game_line w
    | GAME_PHASE_GAMEOVER => update_game_gameover w input

/-! ## The host loop -/

/-- The state `main` builds before its loop: a zeroed `Game_State`, one call of
`spawn_piece`, and the piece kind then set to 2. -/
def initial_world (rand : Nat → Nat) : Run World := do
  let zero : Game_State :=
    { board := List.replicate (WIDTH * HEIGHT).toNat 0, lines := List.replicate HEIGHT.toNat 0,
      pending_line_count := 0, piece := ⟨0, 0, 0, 0⟩, phase := GAME_PHASE_START,
      paused := false, start_level := 0, level := 0, line_count := 0, points := 0,
      next_drop_time := 0, highlight_end_time := 0, time := 0 }
  let w ← spawn_piece { game := zero, rand := rand }
  pure { w with game := { w.game with piece := { w.game.piece with tetrino_index := 2 } } }

/-- One pass of the loop of `main`: the clock is read into `game.time`, the
pause key may flip `paused`, then `update_game` runs. -/
def host_tick (fuel : Nat) (w : World) (time : ℚ) (toggle_pause : Bool) (input : Input_State) :
    Run World :=
  let game : Game_State := { w.game with time := time }
  let game : Game_State := if toggle_pause then { game with paused := !game.paused } else game
  update_game fuel { w with game := game } input

/-! ## The clock in binary32 -/

/-- The number of halvings that bring `n` below 2, within `budget` halvings; with a
budget of `n` this is the `k` with `2^k ≤ n < 2^(k+1)` when `n > 0`. -/
def halvings : Nat → Nat → Nat
  | 0, _ => 0
  | budget + 1, n => if n < 2 then 0 else halvings budget (n / 2) + 1

/-- For `a > 0` the exponent `e` with `2^e ≤ a < 2^(e+1)`: the difference of the
exponents of numerator and denominator, or one less. -/
def floor_log2 (a : ℚ) : Int :=
  let k : Int := (halvings a.num.natAbs a.num.natAbs : Int) - (halvings a.den a.den : Int)
  if (2 : ℚ) ^ k ≤ a then k else k - 1

/-- The integer nearest to `q`, the even one of the two when `q` is half-way. -/
def round_half_even (q : ℚ) : Int :=
  let f : Int := ⌊q⌋
  let r : ℚ := q - (f : ℚ)
  if r < 1 / 2 then f
  else if 1 / 2 < r then f + 1
  else if f % 2 = 0 then f
  else f + 1

/-- The binary32 value nearest to `x` (24 significant bits, exponents from -126,
ties to even); values beyond the largest finite `float` are not met by the engine
and are not treated. -/
def float_round (x : ℚ) : ℚ :=
  if x = 0 then 0
  else
    let a : ℚ := if x < 0 then -x else x
    let e : Int := max (floor_log2 a) (-126)
    let ulp : ℚ := (2 : ℚ) ^ (e - 23)
    let n : Int := round_half_even (a / ulp)
    (if x < 0 then -1 else 1) * (n : ℚ) * ulp

/-- The sum of two `float`s. -/
def float_add (x y : ℚ) : ℚ := float_round (x + y)

/-- The product of two `float`s. -/
def float_mul (x y : ℚ) : ℚ := float_round (x * y)

/-- The constant `1.f / 60.f` as the `float` it is. -/
def TARGET_SECONDS_PER_FRAME_f32 : ℚ := float_round (1 / 60)

def get_time_to_next_drop_f32 (level : Int) : Run ℚ := do
  let level := if level > 29 then 29 else level
  let frames ← array_get FRAMES_PER_DROP level
  pure (float_mul (frames : ℚ) TARGET_SECONDS_PER_FRAME_f32)

def spawn_piece_f32 (w : World) : Run World := do
  let game := w.game
  let index := (random_int 0 (TETRINOS.length : Int) (w.rand 0) % 256).toNat
  let piece : Piece_State :=
    { tetrino_index := index, offset_row := 0, offset_col := WIDTH / 2, rotation := 0 }
  let dt ← get_time_to_next_drop_f32 game.level
  pure { game := { game with piece := piece, next_drop_time := float_add game.time dt },
         rand := fun n => w.rand (n + 1) }

def soft_drop_f32 (w : World) : Run (Bool × World) := do
  let game := w.game
  let moved : Piece_State := { game.piece with offset_row := game.piece.offset_row + 1 }
  let valid ← check_piece_valid moved game.board WIDTH HEIGHT
  if !valid then
    let game ← merge_piece game
    let w ← spawn_piece_f32 { w with game := game }
    pure (false, w)
  else
    let dt ← get_time_to_next_drop_f32 game.level
    pure (true, { w with game :=
      { game with piece := moved, next_drop_time := float_add game.time dt } })

/-- The loop `while (soft_drop(game));`. -/
def hard_drop_loop_f32 (fuel : Nat) (w : World) : Run World :=
  while_loop soft_drop_f32 fuel w

/-- One evaluation of `game->time >= game->next_drop_time` followed, when it
holds, by `soft_drop(game)`. -/
def gravity_step_f32 (w : World) : Run (Bool × World) :=
  if w.game.time ≥ w.game.next_drop_time then do
    let r ← soft_drop_f32 w
    pure (true, r.2)
  else pure (false, w)

def update_game_play_f32 (fuel : Nat) (w : World) (input : Input_State) : Run World := do
  let piece := candidate_piece w.game.piece input
  let valid ← check_piece_valid piece w.game.board WIDTH HEIGHT
  let w := if valid then { w with game := { w.game with piece := piece } } else w
  let w ← (if input.ddown > 0 then soft_drop_f32 w >>= fun r => pure r.2 else pure w)
  let w ← (if input.da > 0 then hard_drop_loop_f32 fuel w else pure w)
  let w ← while_loop gravity_step_f32 fuel w
  let found ← find_lines w.game.board WIDTH HEIGHT w.game.lines
  let game : Game_State := { w.game with lines := found.1, pending_line_count := found.2 }
  let game : Game_State := if game.pending_line_count > 0
    then { game with phase := GAME_PHASE_LINE, highlight_end_time := float_add game.time (1 / 2) }
    else game
  let game_over_row : Int := 0
  let empty ← check_row_empty game.board WIDTH game_over_row
  let game : Game_State :=
    if empty = 0 then { game with phase := GAME_PHASE_GAMEOVER } else game
  pure { w with game := game }

/-! ## Vocabulary of the statements -/

/-- Cell `(row, col)` of a board as a plain value (0 where the list has no such entry). -/
def cell (board : List Nat) (row col : Int) : Nat :=
  board.getD (row * WIDTH + col).toNat 0

/-- Row `row` of a board as the list of its `WIDTH` cells. -/
def board_row (board : List Nat) (row : Nat) : List Nat :=
  (List.range WIDTH.toNat).map (fun (c : Nat) => cell board (row : Int) (c : Int))

/-- The `HEIGHT` rows of a board, top to bottom. -/
def board_rows (board : List Nat) : List (List Nat) :=
  (List.range HEIGHT.toNat).map (board_row board)

/-- The rows `first, first + 1, ..., HEIGHT - 1` of a board. -/
def rows_from (board : List Nat) (first : Nat) : List (List Nat) :=
  (List.range' first (HEIGHT.toNat - first)).map (board_row board)

/-- A row is full when none of its cells is 0. -/
def row_filled (row : List Nat) : Bool := row.all (fun v => v != 0)

/-- A row is empty when all of its cells are 0. -/
def row_empty (row : List Nat) : Bool := row.all (fun v => v == 0)

/-- Local cell `(row, col)` of the piece, when its sampled value is not 0, maps to a
board coordinate inside the board. -/
def cell_inside (piece : Piece_State) (tetrino : Tetrino) (row col : Int) : Prop :=
  ∀ v, tetrino_get tetrino row col piece.rotation = .ok v → v ≠ 0 →
    0 ≤ piece.offset_row + row ∧ piece.offset_row + row < HEIGHT ∧
    0 ≤ piece.offset_col + col ∧ piece.offset_col + col < WIDTH

/-- Local cell `(row, col)` of the piece, when its sampled value is not 0, maps to a
board coordinate inside the board whose cell is 0. -/
def cell_fits (piece : Piece_State) (tetrino : Tetrino) (board : List Nat) (row col : Int) :
    Prop :=
  ∀ v, tetrino_get tetrino row col piece.rotation = .ok v → v ≠ 0 →
    0 ≤ piece.offset_row + row ∧ piece.offset_row + row < HEIGHT ∧
    0 ≤ piece.offset_col + col ∧ piece.offset_col + col < WIDTH ∧
    matrix_get board WIDTH (piece.offset_row + row) (piece.offset_col + col) = .ok 0

/-- Every occupied cell of the pose lies inside the board. -/
def pose_inside (piece : Piece_State) : Prop :=
  ∃ t, tetrino_at piece.tetrino_index = .ok t ∧
    ∀ row col : Int, 0 ≤ row → row < t.side → 0 ≤ col → col < t.side →
      cell_inside piece t row col

/-- Every occupied cell of the pose lies inside the board on a cell that is 0. -/
def pose_fits (piece : Piece_State) (board : List Nat) : Prop :=
  ∃ t, tetrino_at piece.tetrino_index = .ok t ∧
    ∀ row col : Int, 0 ≤ row → row < t.side → 0 ≤ col → col < t.side →
      cell_fits piece t board row col

/-- Board `b1` is board `b0` with the occupied cells of the pose written into it, as
far as the local cells that come before `(i, k)` in row-major order go: those cells
hold their sampled value, and a board cell none of them maps to is as in `b0`. -/
def merged_upto (piece : Piece_State) (t : Tetrino) (b0 b1 : List Nat) (i k : Int) : Prop :=
  b1.length = b0.length ∧
  (∀ row col : Int, 0 ≤ row → row < t.side → 0 ≤ col → col < t.side →
    (row < i ∨ (row = i ∧ col < k)) →
    ∀ v, tetrino_get t row col piece.rotation = .ok v → v ≠ 0 →
      cell b1 (piece.offset_row + row) (piece.offset_col + col) = v) ∧
  (∀ R C : Int, 0 ≤ R → R < HEIGHT → 0 ≤ C → C < WIDTH →
    (∀ row col : Int, 0 ≤ row → row < t.side → 0 ≤ col → col < t.side →
      (row < i ∨ (row = i ∧ col < k)) →
      ∀ v, tetrino_get t row col piece.rotation = .ok v → v ≠ 0 →
        ¬ (piece.offset_row + row = R ∧ piece.offset_col + col = C)) →
    cell b1 R C = cell b0 R C)

/-- The pose a fresh piece is given: row 0, column `WIDTH / 2`, rotation 0. -/
def at_spawn (piece : Piece_State) : Prop :=
  piece.offset_row = 0 ∧ piece.offset_col = WIDTH / 2 ∧ piece.rotation = 0

instance (piece : Piece_State) : Decidable (at_spawn piece) := by
  unfold at_spawn
  infer_instance

/-- The fields of the game state that no drop step touches are the same in `g1` as
in `g`. -/
def same_frame (g g1 : Game_State) : Prop :=
  g1.time = g.time ∧ g1.level = g.level ∧ g1.start_level = g.start_level ∧
  g1.lines = g.lines ∧ g1.phase = g.phase ∧ g1.paused = g.paused ∧
  g1.line_count = g.line_count ∧ g1.points = g.points ∧
  g1.pending_line_count = g.pending_line_count ∧
  g1.highlight_end_time = g.highlight_end_time

/-- The conditions under which a drop step runs without a fault: the board has its
size, kind and rotation are in range, the level is not negative, and the piece lies
inside the board. -/
def drop_ready (g : Game_State) : Prop :=
  g.board.length = 220 ∧ g.piece.tetrino_index < 7 ∧ 0 ≤ g.piece.rotation ∧
  g.piece.rotation ≤ 3 ∧ 0 ≤ g.level ∧ pose_inside g.piece

/-- The run returns a value with property `Q`, or it stops on an out-of-range access;
it does not stop for any other reason. -/
def returns_or_range_fault {α : Type} (r : Run α) (Q : α → Prop) : Prop :=
  (∀ e, r = .error e → e = .out_of_range) ∧ ∀ a, r = .ok a → Q a

/-- The part of well-formedness that a drop step needs to run its collision test:
the board has its size, kind and rotation are in range. -/
def basic_ready (g : Game_State) : Prop :=
  g.board.length = 220 ∧ g.piece.tetrino_index < 7 ∧ 0 ≤ g.piece.rotation ∧
  g.piece.rotation ≤ 3

/-- A well-formed state for a tick of the PLAY phase: the arrays have their declared
sizes, kind and rotation are in range, the level is not negative, and the piece is
valid against the board or still at its spawn pose. -/
def play_ready (g : Game_State) : Prop :=
  g.board.length = (WIDTH * HEIGHT).toNat ∧ g.lines.length = HEIGHT.toNat ∧
  g.piece.tetrino_index < 7 ∧ 0 ≤ g.piece.rotation ∧ g.piece.rotation ≤ 3 ∧ 0 ≤ g.level ∧
  (check_piece_valid g.piece g.board WIDTH HEIGHT = .ok true ∨ at_spawn g.piece)

instance (g : Game_State) : Decidable (play_ready g) := by
  unfold play_ready
  infer_instance

/-- The states the host loop reaches: the state `main` builds before its loop, and
from a reached state the result of any pass of the loop whose clock value is not
below the one of the pass before. -/
inductive Reachable : World → Prop where
  | init (rand : Nat → Nat) (w : World) : initial_world rand = .ok w → Reachable w
  | tick (w w1 : World) (fuel : Nat) (time : ℚ) (toggle_pause : Bool) (input : Input_State) :
      Reachable w → w.game.time ≤ time →
      host_tick fuel w time toggle_pause input = .ok w1 → Reachable w1

/-- The passes of the host loop over a list of clock values and inputs, without a
pause; `none` when a clock value goes back or a pass faults. -/
def run_ticks (fuel : Nat) : World → List (ℚ × Input_State) → Option World
  | w, [] => some w
  | w, (time, input) :: rest =>
    if w.game.time ≤ time then
      match host_tick fuel w time false input with
      | .ok w1 => run_ticks fuel w1 rest
      | .error _ => none
    else none

/-- The host loop from the state `main` builds, over a list of clock values and
inputs. -/
def run_from_start (rand : Nat → Nat) (fuel : Nat) (steps : List (ℚ × Input_State)) :
    Option World :=
  match initial_world rand with
  | .ok w => run_ticks fuel w steps
  | .error _ => none

/-- What every reached state satisfies: the arrays have their sizes, the kind is in
range, the levels are not negative; in the PLAY phase the rotation is in range, the
board has no full row and the piece fits the board or is at its spawn pose; in the
LINE phase the piece is at its spawn pose and the row record is the one of the
board. -/
def tick_inv (g : Game_State) : Prop :=
  g.board.length = 220 ∧ g.lines.length = 22 ∧ g.piece.tetrino_index < 7 ∧
  0 ≤ g.level ∧ 0 ≤ g.start_level ∧
  (g.phase = GAME_PHASE_PLAY →
    0 ≤ g.piece.rotation ∧ g.piece.rotation ≤ 3 ∧
    (board_rows g.board).filter row_filled = [] ∧
    (pose_fits g.piece g.board ∨ at_spawn g.piece)) ∧
  (g.phase = GAME_PHASE_LINE →
    at_spawn g.piece ∧
    ∀ r : Nat, r < 22 →
      g.lines.getD r 0 = if row_filled (board_row g.board r) then 1 else 0)

/-- The first part of `update_game_play`: the candidate pose and the three kinds of
drop. -/
def play_moves (fuel : Nat) (w : World) (input : Input_State) : Run World := do
  let piece := candidate_piece w.game.piece input
  let valid ← check_piece_valid piece w.game.board WIDTH HEIGHT
  let w := if valid then { w with game := { w.game with piece := piece } } else w
  let w ← (if input.ddown > 0 then soft_drop w >>= fun r => pure r.2 else pure w)
  let w ← (if input.da > 0 then hard_drop_loop fuel w else pure w)
  while_loop gravity_step fuel w

/-- The second part of `update_game_play`: the scan for full rows and the look at
row 0. -/
def play_finish (w : World) : Run World := do
  let found ← find_lines w.game.board WIDTH HEIGHT w.game.lines
  let game : Game_State := { w.game with lines := found.1, pending_line_count := found.2 }
  let game : Game_State := if game.pending_line_count > 0
    then { game with phase := GAME_PHASE_LINE, highlight_end_time := game.time + 1 / 2 }
    else game
  let game_over_row : Int := 0
  let empty ← check_row_empty game.board WIDTH game_over_row
  let game : Game_State :=
    if empty = 0 then { game with phase := GAME_PHASE_GAMEOVER } else game
  pure { w with game := game }

/-- The sampled value of local cell `(row, col)` is not 0. -/
def sampled_nonzero (t : Tetrino) (row col rotation : Int) : Bool :=
  match tetrino_get t row col rotation with
  | .ok v => v != 0
  | .error _ => false

/-- The number of local cells of the `side x side` square whose sampled value in the
given rotation is not 0. -/
def occupied_count (t : Tetrino) (rotation : Int) : Nat :=
  ((int_range t.side).map (fun row =>
    ((int_range t.side).filter (fun col => sampled_nonzero t row col rotation)).length)).sum

/-- The number of non-zero entries of the stored orientation-0 template. -/
def template_count (t : Tetrino) : Nat :=
  (t.data.filter (fun v => v != 0)).length

/-- The results of `n` successive calls of `soft_drop`, oldest first, and the state
after the last call. -/
def soft_drop_calls : Nat → World → Run (List Bool × World)
  | 0, w => .ok ([], w)
  | n + 1, w =>
    match soft_drop w with
    | .error e => .error e
    | .ok (c, w1) =>
      match soft_drop_calls n w1 with
      | .error e => .error e
      | .ok (cs, w2) => .ok (c :: cs, w2)

/-- The row offset at which a piece of the given kind, dropped at rotation 0 on an
empty board, comes to rest: `HEIGHT - 1` less the lowest occupied local row. -/
def resting_row (kind : Nat) : Nat :=
  if kind = 2 then 19 else 20

/-! ## States used as examples -/

/-- No key held, no key just pressed. -/
def no_input : Input_State :=
  { left := 0, right := 0, up := 0, down := 0, a := 0,
    dleft := 0, dright := 0, dup := 0, ddown := 0, da := 0 }

/-- The board with every cell 0. -/
def empty_board : List Nat := List.replicate (WIDTH * HEIGHT).toNat 0

/-- A PLAY-phase state at level 0 and time 0: the given board, the given piece, the
next automatic drop due at `4 / 5` seconds. -/
def play_world (board : List Nat) (piece : Piece_State) : World :=
  { game :=
      { board := board, lines := List.replicate HEIGHT.toNat 0, pending_line_count := 0,
        piece := piece, phase := GAME_PHASE_PLAY, paused := false, start_level := 0,
        level := 0, line_count := 0, points := 0, next_drop_time := 4 / 5,
        highlight_end_time := 0, time := 0 },
    rand := fun _ => 0 }

/-- A board whose bottom row is full and whose row 20 holds one cell. -/
def one_full_row_board : List Nat :=
  List.replicate 200 0 ++ [0, 0, 0, 5, 0, 0, 0, 0, 0, 0] ++ List.replicate 10 3

/-- A board on which column 7 is filled from row 4 down and row 3 is filled except
in column 7. -/
def tower_board : List Nat :=
  List.replicate 30 0 ++ [2, 2, 2, 2, 2, 2, 2, 0, 2, 2] ++
    (List.replicate 18 [0, 0, 0, 0, 0, 0, 0, 1, 0, 0]).flatten

/-- The upright I piece in column 7, rows 0 to 3. -/
def upright_piece : Piece_State :=
  { tetrino_index := 0, offset_row := 0, offset_col := 5, rotation := 1 }

/-- The space bar goes down. -/
def press_action : Input_State := { no_input with a := 1, da := 1 }

/-- The space bar goes down while the up key goes down. -/
def press_rotate_action : Input_State := { no_input with up := 1, a := 1, dup := 1, da := 1 }

/-- The space bar and the up key, held in the pass before, are up again. -/
def release_keys (held : Input_State) : Input_State :=
  { no_input with dup := -(held.up : Int), da := -(held.a : Int) }

/-- A game in which `rand()` always returns 0, so that every piece is the I piece:
the game is started, five pieces are turned upright and hard-dropped onto each other
in column 7, which fills rows 2 to 21 there, and a sixth is hard-dropped flat, which
comes to rest in row 1. Every key is released in a pass of its own before the next
press. -/
def stacking_game : List (ℚ × Input_State) :=
  [(1, press_action), (11 / 10, release_keys press_action),
   (2, press_rotate_action), (21 / 10, release_keys press_rotate_action),
   (3, press_rotate_action), (31 / 10, release_keys press_rotate_action),
   (4, press_rotate_action), (41 / 10, release_keys press_rotate_action),
   (5, press_rotate_action), (51 / 10, release_keys press_rotate_action),
   (6, press_rotate_action), (61 / 10, release_keys press_rotate_action),
   (7, press_action), (71 / 10, release_keys press_action)]

/-- The I piece as it is spawned: kind 0, row 0, column `WIDTH / 2`, rotation 0. -/
def spawned_piece : Piece_State :=
  { tetrino_index := 0, offset_row := 0, offset_col := WIDTH / 2, rotation := 0 }

/-! ## Further vocabulary and example states -/

/-- A world in the LINE phase over `one_full_row_board`, with the record of its full
bottom row pending, the clock at 1 and the given line count and end of highlight. -/
def line_world (line_count : Int) (highlight_end_time : ℚ) : World :=
  World.mk { (play_world one_full_row_board spawned_piece).game with
    lines := List.replicate 21 0 ++ [1]
    pending_line_count := 1
    phase := GAME_PHASE_LINE
    line_count := line_count
    highlight_end_time := highlight_end_time
    time := 1 } (fun _ => 0)

/-- A world in the GAMEOVER phase over `tower_board`, with the score of the game that
ended. -/
def gameover_world : World :=
  World.mk { (play_world tower_board upright_piece).game with
    phase := GAME_PHASE_GAMEOVER
    level := 1
    line_count := 10
    points := 400
    time := 9 } (fun n => n)

/-- A board without a full row: rows 18 to 21 are filled except in column 5, row 17 is
filled except in columns 5 to 8, the rows above are empty. -/
def shaft_board : List Nat :=
  List.replicate 170 0 ++ [1, 1, 1, 1, 1, 0, 0, 0, 0, 1] ++
    (List.replicate 4 [1, 1, 1, 1, 1, 0, 1, 1, 1, 1]).flatten

/-- As `shaft_board`, with rows 16 and 17 both filled except in columns 5 and 6. -/
def wide_shaft_board : List Nat :=
  List.replicate 160 0 ++ (List.replicate 2 [1, 1, 1, 1, 1, 0, 0, 1, 1, 1]).flatten ++
    (List.replicate 4 [1, 1, 1, 1, 1, 0, 1, 1, 1, 1]).flatten

/-- The upright I piece at the bottom of column 5, rows 18 to 21. -/
def shaft_piece : Piece_State :=
  { tetrino_index := 0, offset_row := 18, offset_col := 3, rotation := 1 }

/-- The down key and the space bar go down in the same pass. -/
def press_down_action : Input_State := { no_input with down := 1, a := 1, ddown := 1, da := 1 }

/-- The local rows of the square that hold an occupied cell in the given rotation. -/
def occupied_rows (t : Tetrino) (rotation : Int) : List Int :=
  (int_range t.side).filter (fun row =>
    (int_range t.side).any (fun col => sampled_nonzero t row col rotation))

/-- The number of board rows a piece of this kind and rotation has cells in. -/
def lock_rows (piece : Piece_State) : Nat :=
  match tetrino_at piece.tetrino_index with
  | .ok t => (occupied_rows t piece.rotation).length
  | .error _ => 0

/-- The number of full rows of a board. -/
def full_row_count (board : List Nat) : Nat := ((board_rows board).filter row_filled).length

/-- A PLAY state at level 29 on the empty board with the I piece at its spawn pose,
the clock at 524288 seconds (2^19, the reading of a timer at 524288000 ms) and the
next drop due at that time. -/
def late_world : World :=
  World.mk { (play_world empty_board spawned_piece).game with
    start_level := 29
    level := 29
    next_drop_time := 524288
    time := 524288 } (fun _ => 0)

/-! # Lemmas -/

/-! ## Arrays and loops -/

@[simp] theorem run_pure {α : Type} (a : α) : (pure a : Run α) = Except.ok a := rfl

@[simp] theorem run_ok_bind {α β : Type} (a : α) (f : α → Run β) :
    (Except.ok a >>= f) = f a := rfl

@[simp] theorem run_error_bind {α β : Type} (e : Fault) (f : α → Run β) :
    ((Except.error e : Run α) >>= f) = Except.error e := rfl

theorem WIDTH_toNat : WIDTH.toNat = 10 := rfl

theorem HEIGHT_toNat : HEIGHT.toNat = 22 := rfl

theorem array_get_ok (a : List Nat) (i : Int) (h0 : 0 ≤ i) (h1 : i < (a.length : Int)) :
    array_get a i = .ok (a.getD i.toNat 0) := by
  simp [array_get, h0, h1]

theorem array_set_ok (a : List Nat) (i : Int) (v : Nat) (h0 : 0 ≤ i)
    (h1 : i < (a.length : Int)) : array_set a i v = .ok (a.set i.toNat v) := by
  simp [array_set, h0, h1]

theorem getD_set_eq (a : List Nat) (i j v : Nat) (h : i < a.length) :
    (a.set i v).getD j 0 = if i = j then v else a.getD j 0 := by
  rw [List.getD_eq_getElem?_getD, List.getD_eq_getElem?_getD, List.getElem?_set]
  by_cases hij : i = j
  · rw [if_pos hij, if_pos hij, if_pos h]
    rfl
  · rw [if_neg hij, if_neg hij]

theorem int_range_succ (n : Nat) :
    int_range ((n : Int) + 1) = int_range (n : Int) ++ [(n : Int)] := by
  have h : ((n : Int) + 1).toNat = n + 1 := by omega
  simp [int_range, h, List.range_succ]

theorem int_range_zero : int_range 0 = [] := by
  simp [int_range]

theorem mem_int_range (n i : Int) : i ∈ int_range n ↔ 0 ≤ i ∧ i < n := by
  simp only [int_range, List.mem_map, List.mem_range]
  constructor
  · rintro ⟨k, hk, rfl⟩
    omega
  · rintro ⟨h0, h1⟩
    exact ⟨i.toNat, by omega, by omega⟩

/-- Invariant rule for a counting loop that updates a state. -/
theorem foldlM_range_inv {σ : Type} (f : σ → Int → Run σ) (I : Nat → σ → Prop) (n : Nat)
    (s0 : σ) (h0 : I 0 s0)
    (hstep : ∀ k s, k < n → I k s → ∃ s1, f s (k : Int) = .ok s1 ∧ I (k + 1) s1) :
    ∃ s1, (int_range (n : Int)).foldlM f s0 = .ok s1 ∧ I n s1 := by
  induction n with
  | zero => exact ⟨s0, by simp [int_range], h0⟩
  | succ m ih =>
    obtain ⟨s1, hs1, hI1⟩ := ih (fun k s hk hI => hstep k s (by omega) hI)
    obtain ⟨s2, hs2, hI2⟩ := hstep m s1 (by omega) hI1
    refine ⟨s2, ?_, hI2⟩
    have hr : int_range ((m + 1 : Nat) : Int) = int_range (m : Int) ++ [(m : Int)] := by
      rw [← int_range_succ]; rfl
    rw [hr, List.foldlM_append, hs1]
    simp [hs2]

/-- Invariant rule for a loop that counts down from `n - 1` to 0. -/
theorem foldlM_range_rev_inv {σ : Type} (f : σ → Int → Run σ) (I : Nat → σ → Prop) (n : Nat)
    (s0 : σ) (h0 : I n s0)
    (hstep : ∀ k s, k < n → I (k + 1) s → ∃ s1, f s (k : Int) = .ok s1 ∧ I k s1) :
    ∃ s1, (int_range (n : Int)).reverse.foldlM f s0 = .ok s1 ∧ I 0 s1 := by
  induction n generalizing s0 with
  | zero => exact ⟨s0, by simp [int_range], h0⟩
  | succ m ih =>
    obtain ⟨s1, hs1, hI1⟩ := hstep m s0 (by omega) h0
    obtain ⟨s2, hs2, hI2⟩ := ih s1 hI1 (fun k s hk hI => hstep k s (by omega) hI)
    refine ⟨s2, ?_, hI2⟩
    have hr : int_range ((m + 1 : Nat) : Int) = int_range (m : Int) ++ [(m : Int)] := by
      rw [← int_range_succ]; rfl
    rw [hr, List.reverse_append, List.reverse_singleton, List.singleton_append,
      List.foldlM_cons, hs1]
    exact hs2

/-- Rule for a counting loop with early return whose body never faults. -/
theorem for_return_spec {β : Type} (body : Int → Run (Option β)) (l : List Int)
    (h : ∀ i ∈ l, ∃ o, body i = .ok o) :
    ∃ o, for_return l body = .ok o ∧ (o = none ↔ ∀ i ∈ l, body i = .ok none) ∧
      (∀ r, o = some r → ∃ i ∈ l, body i = .ok (some r)) := by
  induction l with
  | nil => exact ⟨none, rfl, by simp, by simp⟩
  | cons i rest ih =>
    obtain ⟨o, ho⟩ := h i (List.mem_cons_self _ _)
    cases o with
    | some r =>
      refine ⟨some r, by simp [for_return, ho], ?_, ?_⟩
      · simp [ho]
      · intro r1 hr1
        exact ⟨i, List.mem_cons_self _ _, by rw [ho, hr1]⟩
    | none =>
      obtain ⟨o1, ho1, hnone, hsome⟩ := ih (fun j hj => h j (List.mem_cons_of_mem _ hj))
      refine ⟨o1, by simp [for_return, ho, ho1], ?_, ?_⟩
      · rw [hnone]
        simp [ho]
      · intro r hr
        obtain ⟨j, hj, hbj⟩ := hsome r hr
        exact ⟨j, List.mem_cons_of_mem _ hj, hbj⟩

/-! ## Board access -/

theorem matrix_get_ok (board : List Nat) (hlen : board.length = 220) (row col : Int)
    (hr0 : 0 ≤ row) (hr1 : row < HEIGHT) (hc0 : 0 ≤ col) (hc1 : col < WIDTH) :
    matrix_get board WIDTH row col = .ok (cell board row col) := by
  simp only [WIDTH, HEIGHT] at *
  unfold matrix_get cell
  exact array_get_ok _ _ (by omega) (by omega)

theorem mem_board_row (board : List Nat) (row : Nat) (v : Nat) :
    v ∈ board_row board row ↔ ∃ c : Int, 0 ≤ c ∧ c < WIDTH ∧ cell board row c = v := by
  simp only [board_row, List.mem_map, List.mem_range, WIDTH_toNat]
  constructor
  · rintro ⟨k, hk, rfl⟩
    have h0 : (0 : Int) ≤ (k : Int) := by omega
    have h1 : (k : Int) < 10 := by omega
    exact ⟨(k : Int), h0, h1, rfl⟩
  · rintro ⟨c, h0, h1, rfl⟩
    have h1a : c < 10 := h1
    have h2 : c.toNat < 10 := by omega
    have h3 : ((c.toNat : Nat) : Int) = c := by omega
    exact ⟨c.toNat, h2, by rw [h3]⟩

theorem check_row_filled_eq (board : List Nat) (hlen : board.length = 220) (row : Nat)
    (hr : row < 22) :
    check_row_filled board WIDTH (row : Int) =
      .ok (if row_filled (board_row board row) then 1 else 0) := by
  have htot : ∀ col ∈ int_range WIDTH, (do
      let v ← matrix_get board WIDTH (row : Int) col
      if v = 0 then pure (some 0) else pure none : Run (Option Nat)) =
      .ok (if cell board row col = 0 then some 0 else none) := by
    intro col hcol
    rw [mem_int_range] at hcol
    rw [matrix_get_ok board hlen _ _ (by omega) (by simp only [HEIGHT]; omega) hcol.1 hcol.2]
    by_cases hz : cell board row col = 0 <;> simp [hz]
  obtain ⟨o, ho, hnone, hsome⟩ := for_return_spec (fun col => (do
      let v ← matrix_get board WIDTH (row : Int) col
      if v = 0 then pure (some 0) else pure none : Run (Option Nat))) (int_range WIDTH)
      (fun col hcol => ⟨_, htot col hcol⟩)
  unfold check_row_filled
  rw [ho]
  cases o with
  | none =>
    have hall := hnone.mp rfl
    have hf : row_filled (board_row board row) = true := by
      simp only [row_filled, List.all_eq_true]
      intro v hv
      obtain ⟨c, h0, h1, rfl⟩ := (mem_board_row _ _ _).mp hv
      have h2 := hall c ((mem_int_range _ _).mpr ⟨h0, h1⟩)
      rw [htot c ((mem_int_range _ _).mpr ⟨h0, h1⟩)] at h2
      by_cases hz : cell board row c = 0
      · simp [hz] at h2
      · simpa using hz
    simp [hf]
  | some x =>
    obtain ⟨c, hc, hbc⟩ := hsome x rfl
    rw [htot c hc] at hbc
    have hc2 := (mem_int_range _ _).mp hc
    by_cases hz : cell board row c = 0
    · simp [hz] at hbc
      have hf : row_filled (board_row board row) = false := by
        rw [Bool.eq_false_iff]
        intro hf
        simp only [row_filled, List.all_eq_true] at hf
        have := hf _ ((mem_board_row _ _ _).mpr ⟨c, hc2.1, hc2.2, rfl⟩)
        simp [hz] at this
      simp [hf, ← hbc]
    · simp [hz] at hbc

theorem cell_nat (board : List Nat) (r c : Nat) :
    cell board (r : Int) (c : Int) = board.getD (r * 10 + c) 0 := by
  unfold cell
  have h : ((r : Int) * WIDTH + (c : Int)).toNat = r * 10 + c := by
    simp only [WIDTH]; omega
  rw [h]

theorem board_row_eq (board : List Nat) (r : Nat) :
    board_row board r = (List.range 10).map (fun c => board.getD (r * 10 + c) 0) := by
  unfold board_row
  rw [WIDTH_toNat]
  exact List.map_congr_left (fun c _ => cell_nat board r c)

theorem board_row_congr (b1 b2 : List Nat) (r1 r2 : Nat)
    (h : ∀ c, c < 10 → b1.getD (r1 * 10 + c) 0 = b2.getD (r2 * 10 + c) 0) :
    board_row b1 r1 = board_row b2 r2 := by
  rw [board_row_eq, board_row_eq]
  exact List.map_congr_left (fun c hc => h c (List.mem_range.mp hc))

theorem board_row_length (board : List Nat) (r : Nat) : (board_row board r).length = 10 := by
  simp [board_row_eq]

/-- The library call `memset` on a region inside the array. -/
theorem memset_spec (mem : List Nat) (dst n v : Nat) (h : dst + n ≤ mem.length) :
    ∃ m1, memset mem (dst : Int) v (n : Int) = .ok m1 ∧ m1.length = mem.length ∧
      ∀ j, m1.getD j 0 = if dst ≤ j ∧ j < dst + n then v else mem.getD j 0 := by
  unfold memset
  obtain ⟨m1, hm1, hlen, hget⟩ := foldlM_range_inv
    (fun m i => array_set m ((dst : Int) + i) v)
    (fun k m => m.length = mem.length ∧
      ∀ j, m.getD j 0 = if dst ≤ j ∧ j < dst + k then v else mem.getD j 0) n mem
    ⟨rfl, fun j => by rw [if_neg (by omega)]⟩
    (fun k m hk hI => by
      obtain ⟨hlen, hget⟩ := hI
      refine ⟨m.set (dst + k) v, ?_, by simp [hlen], ?_⟩
      · dsimp only
        have := array_set_ok m ((dst : Int) + (k : Int)) v (by omega) (by omega)
        rw [this]
        have h2 : ((dst : Int) + (k : Int)).toNat = dst + k := by omega
        rw [h2]
      · intro j
        rw [getD_set_eq _ _ _ _ (by omega), hget j]
        by_cases h1 : dst + k = j
        · have : dst ≤ j ∧ j < dst + (k + 1) := by omega
          simp [h1, this]
        · by_cases h2 : dst ≤ j ∧ j < dst + k
          · have : dst ≤ j ∧ j < dst + (k + 1) := by omega
            simp [h1, h2, this]
          · have : ¬ (dst ≤ j ∧ j < dst + (k + 1)) := by omega
            simp [h1, h2, this])
  exact ⟨m1, hm1, hlen, hget⟩

/-- The library call `memcpy` on two disjoint regions inside the array. -/
theorem memcpy_spec (mem : List Nat) (dst src n : Nat) (hd : dst + n ≤ mem.length)
    (hs : src + n ≤ mem.length) (hno : dst + n ≤ src ∨ src + n ≤ dst) :
    ∃ m1, memcpy mem (dst : Int) (src : Int) (n : Int) = .ok m1 ∧ m1.length = mem.length ∧
      ∀ j, m1.getD j 0 =
        if dst ≤ j ∧ j < dst + n then mem.getD (src + (j - dst)) 0 else mem.getD j 0 := by
  unfold memcpy
  have hov : ¬ ((dst : Int) < (src : Int) + (n : Int) ∧ (src : Int) < (dst : Int) + (n : Int)
      ∧ (0 : Int) < (n : Int)) := by omega
  rw [if_neg hov]
  obtain ⟨m1, hm1, hlen, hget⟩ := foldlM_range_inv
    (fun m i => (do
      let v ← array_get mem ((src : Int) + i)
      array_set m ((dst : Int) + i) v : Run (List Nat)))
    (fun k m => m.length = mem.length ∧
      ∀ j, m.getD j 0 =
        if dst ≤ j ∧ j < dst + k then mem.getD (src + (j - dst)) 0 else mem.getD j 0) n mem
    ⟨rfl, fun j => by rw [if_neg (by omega)]⟩
    (fun k m hk hI => by
      obtain ⟨hlen, hget⟩ := hI
      refine ⟨m.set (dst + k) (mem.getD (src + k) 0), ?_, by simp [hlen], ?_⟩
      · dsimp only
        have h1 := array_get_ok mem ((src : Int) + (k : Int)) (by omega) (by omega)
        have h2 : ((src : Int) + (k : Int)).toNat = src + k := by omega
        rw [h2] at h1
        rw [h1, run_ok_bind]
        have h3 := array_set_ok m ((dst : Int) + (k : Int)) (mem.getD (src + k) 0)
          (by omega) (by omega)
        have h4 : ((dst : Int) + (k : Int)).toNat = dst + k := by omega
        rw [h4] at h3
        exact h3
      · intro j
        rw [getD_set_eq _ _ _ _ (by omega), hget j]
        by_cases h1 : dst + k = j
        · have h5 : dst ≤ j ∧ j < dst + (k + 1) := by omega
          have h6 : j - dst = k := by omega
          simp [h1, h5, h6]
        · by_cases h2 : dst ≤ j ∧ j < dst + k
          · have : dst ≤ j ∧ j < dst + (k + 1) := by omega
            simp [h1, h2, this]
          · have : ¬ (dst ≤ j ∧ j < dst + (k + 1)) := by omega
            simp [h1, h2, this])
  exact ⟨m1, hm1, hlen, hget⟩

/-- What `find_lines` returns on a board: a row record and the number of full rows. -/
theorem find_lines_spec (board lines0 : List Nat) (hb : board.length = 220)
    (hl : lines0.length = 22) :
    ∃ lines, find_lines board WIDTH HEIGHT lines0 =
        .ok (lines, (((board_rows board).filter row_filled).length : Int)) ∧
      lines.length = 22 ∧
      ∀ r : Nat, r < 22 → lines.getD r 0 = if row_filled (board_row board r) then 1 else 0 := by
  unfold find_lines
  obtain ⟨st, hst, hlen, hcount, hget⟩ := foldlM_range_inv
    (fun (st : List Nat × Int) row => (do
      let filled ← check_row_filled board WIDTH row
      let lines_out ← array_set st.1 row filled
      pure (lines_out, st.2 + (filled : Int)) : Run (List Nat × Int)))
    (fun k st => st.1.length = 22 ∧
      st.2 = ((((List.range k).map (board_row board)).filter row_filled).length : Int) ∧
      ∀ r : Nat, r < k → st.1.getD r 0 = if row_filled (board_row board r) then 1 else 0)
    22 (lines0, 0) ⟨hl, by simp, fun r hr => by omega⟩
    (fun k st hk hI => by
      obtain ⟨hlen, hcount, hget⟩ := hI
      dsimp only
      rw [check_row_filled_eq board hb k hk, run_ok_bind,
        array_set_ok _ _ _ (by omega) (by omega), run_ok_bind]
      refine ⟨_, rfl, by simp [hlen], ?_, ?_⟩
      · simp only [List.range_succ, List.map_append, List.filter_append, List.length_append,
          List.map_cons, List.map_nil, hcount]
        by_cases hf : row_filled (board_row board k) = true
        · simp [hf, List.filter_cons]
        · simp [hf, List.filter_cons]
      · intro r hr
        have h2 : ((k : Int)).toNat = k := by omega
        simp only [h2]
        rw [getD_set_eq _ _ _ _ (by omega)]
        by_cases hrk : k = r
        · simp [hrk]
        · rw [if_neg hrk]
          exact hget r (by omega))
  have h22 : (HEIGHT : Int) = ((22 : Nat) : Int) := rfl
  rw [h22, hst]
  refine ⟨st.1, ?_, hlen, hget⟩
  simp only [board_rows, HEIGHT_toNat]
  rw [← hcount]

theorem board_row_of_update (b b1 : List Nat) (d : Nat) (g : Nat → Nat)
    (hget : ∀ j, b1.getD j 0 =
      if d * 10 ≤ j ∧ j < d * 10 + 10 then g (j - d * 10) else b.getD j 0) :
    board_row b1 d = (List.range 10).map g ∧ ∀ r, r ≠ d → board_row b1 r = board_row b r := by
  constructor
  · rw [board_row_eq]
    apply List.map_congr_left
    intro c hc
    have hc1 := List.mem_range.mp hc
    rw [hget, if_pos (by omega)]
    congr 1
    omega
  · intro r hr
    apply board_row_congr
    intro c hc
    rw [hget, if_neg (by omega)]

theorem rows_from_cons (b : List Nat) (a : Nat) (h : a < 22) :
    rows_from b a = board_row b a :: rows_from b (a + 1) := by
  unfold rows_from
  rw [HEIGHT_toNat]
  have h1 : 22 - a = (22 - (a + 1)) + 1 := by omega
  rw [h1, List.range'_succ, List.map_cons]

theorem rows_from_last (b : List Nat) : rows_from b 22 = [] := by
  simp [rows_from, HEIGHT_toNat]

theorem rows_from_zero (b : List Nat) : rows_from b 0 = board_rows b := by
  simp [rows_from, board_rows, List.range_eq_range']

theorem rows_from_congr (b1 b2 : List Nat) (a : Nat)
    (h : ∀ r, a ≤ r → r < 22 → board_row b1 r = board_row b2 r) :
    rows_from b1 a = rows_from b2 a := by
  unfold rows_from
  apply List.map_congr_left
  intro r hr
  rw [List.mem_range', HEIGHT_toNat] at hr
  obtain ⟨i, hi, rfl⟩ := hr
  exact h _ (by omega) (by omega)

/-- The inner loop of `clear_lines` moves the source cursor up past the rows marked
full and stops at the first row that is not (or above the board). -/
theorem clear_lines_skip_spec (orig lines : List Nat) (hl : lines.length = 22)
    (hfull : ∀ r : Nat, r < 22 →
      lines.getD r 0 = if row_filled (board_row orig r) then 1 else 0)
    (m : Nat) (hm : m ≤ 22) :
    ∃ m1 : Nat, while_loop (clear_lines_skip lines) (((m : Int) - 1) + 2).toNat ((m : Int) - 1)
        = .ok ((m1 : Int) - 1) ∧ m1 ≤ m ∧
      (0 < m1 → row_filled (board_row orig (m1 - 1)) = false) ∧
      (rows_from orig m1).filter (fun r => !row_filled r) =
        (rows_from orig m).filter (fun r => !row_filled r) := by
  induction m with
  | zero =>
    refine ⟨0, ?_, le_refl _, by omega, rfl⟩
    have h1 : ((((0 : Nat) : Int) - 1) + 2).toNat = 0 + 1 := by omega
    rw [h1]
    simp [while_loop, clear_lines_skip]
  | succ k ih =>
    have h1 : ((((k + 1 : Nat) : Int) - 1) + 2).toNat = (k + 1) + 1 := by omega
    have h2 : (((k + 1 : Nat) : Int) - 1) = (k : Int) := by omega
    rw [h1, h2]
    have hget : array_get lines (k : Int) = .ok (lines.getD k 0) := by
      have := array_get_ok lines (k : Int) (by omega) (by omega)
      simpa using this
    have hstep : clear_lines_skip lines (k : Int) =
        if lines.getD k 0 ≠ 0 then .ok (true, (k : Int) - 1) else .ok (false, (k : Int)) := by
      unfold clear_lines_skip
      rw [if_pos (by omega), hget, run_ok_bind]
      rfl
    have hk := hfull k (by omega)
    by_cases hf : row_filled (board_row orig k) = true
    · rw [hf, if_pos rfl] at hk
      obtain ⟨m1, hm1, hle, hnf, hfilt⟩ := ih (by omega)
      have h3 : (((k : Int) - 1) + 2).toNat = k + 1 := by omega
      rw [h3] at hm1
      refine ⟨m1, ?_, by omega, hnf, ?_⟩
      · rw [while_loop, hstep, hk]
        simpa using hm1
      · rw [hfilt, rows_from_cons orig k (by omega), List.filter_cons]
        simp [hf]
    · have hf2 : row_filled (board_row orig k) = false := by simpa using hf
      rw [hf2] at hk
      simp only [Bool.false_eq_true, if_false] at hk
      refine ⟨k + 1, ?_, le_refl _, fun _ => by simpa using hf2, rfl⟩
      rw [while_loop, hstep, hk]
      simp

theorem filter_length_split {α : Type} (p : α → Bool) (l : List α) :
    (l.filter p).length + (l.filter (fun x => !p x)).length = l.length := by
  induction l with
  | nil => rfl
  | cons x rest ih =>
    by_cases h : p x = true
    · simp [List.filter_cons, h]; omega
    · simp [List.filter_cons, h]; omega

/-- One pass of the `dst_row` loop of `clear_lines`: with `k + 1` destination rows left
and the source cursor at row `m - 1`, the pass fills row `k` and keeps the invariant. -/
theorem clear_lines_row_spec (orig lines cur : List Nat) (hl : lines.length = 22)
    (hfull : ∀ r : Nat, r < 22 →
      lines.getD r 0 = if row_filled (board_row orig r) then 1 else 0)
    (k m z : Nat) (hk : k < 22) (hlen : cur.length = 220)
    (hrows : ∀ r, r < k + 1 → board_row cur r = board_row orig r) (hm : m ≤ k + 1)
    (hrf : rows_from cur (k + 1) = List.replicate z (List.replicate 10 0) ++
      (rows_from orig m).filter (fun r => !row_filled r))
    (hz : 0 < z → m = 0) :
    ∃ (cur1 : List Nat) (m1 z1 : Nat),
      clear_lines_row WIDTH lines (cur, (m : Int) - 1) (k : Int) = .ok (cur1, (m1 : Int) - 1) ∧
      cur1.length = 220 ∧ (∀ r, r < k → board_row cur1 r = board_row orig r) ∧ m1 ≤ k ∧
      rows_from cur1 k = List.replicate z1 (List.replicate 10 0) ++
        (rows_from orig m1).filter (fun r => !row_filled r) ∧
      (0 < z1 → m1 = 0) := by
  obtain ⟨m1, hw, hle, hnf, hfilt⟩ := clear_lines_skip_spec orig lines hl hfull m (by omega)
  unfold clear_lines_row
  dsimp only
  rw [hw, run_ok_bind]
  have e1 : (k : Int) * WIDTH = ((k * 10 : Nat) : Int) := by simp [WIDTH]
  have e2 : WIDTH = ((10 : Nat) : Int) := rfl
  by_cases hm1 : m1 = 0
  · subst hm1
    rw [if_pos (by omega), e1, e2]
    obtain ⟨cur1, hms, hlen1, hget⟩ := memset_spec cur (k * 10) 10 0 (by omega)
    rw [hms, run_ok_bind]
    obtain ⟨hrow, hother⟩ := board_row_of_update cur cur1 k (fun _ => 0) (fun j => hget j)
    refine ⟨cur1, 0, z + 1, rfl, by omega, ?_, by omega, ?_, fun _ => rfl⟩
    · intro r hr
      rw [hother r (by omega)]
      exact hrows r (by omega)
    · rw [rows_from_cons cur1 k hk, hrow,
        rows_from_congr cur1 cur (k + 1) (fun r h1 _ => hother r (by omega)), hrf, hfilt]
      have hzr : List.map (fun _ => 0) (List.range 10) = List.replicate 10 0 := rfl
      rw [hzr]
      rfl
  · have hpos : 0 < m1 := by omega
    have hnf1 := hnf hpos
    have hz0 : z = 0 := by
      by_contra hne
      have := hz (by omega)
      omega
    subst hz0
    rw [if_neg (by omega)]
    have hfin : ∀ cur1 : List Nat, board_row cur1 k = board_row orig (m1 - 1) →
        (∀ r, r ≠ k → board_row cur1 r = board_row cur r) →
        rows_from cur1 k = List.replicate 0 (List.replicate 10 0) ++
          (rows_from orig (m1 - 1)).filter (fun r => !row_filled r) := by
      intro cur1 hrow hother
      rw [rows_from_cons cur1 k hk, hrow,
        rows_from_congr cur1 cur (k + 1) (fun r h1 _ => hother r (by omega)), hrf,
        rows_from_cons orig (m1 - 1) (by omega), List.filter_cons]
      have h3 : m1 - 1 + 1 = m1 := by omega
      simp [hnf1, h3, hfilt]
    by_cases hsk : m1 - 1 = k
    · have h4 : ¬ ((m1 : Int) - 1 ≠ (k : Int)) := by omega
      rw [if_neg h4]
      refine ⟨cur, m1 - 1, 0, ?_, hlen, fun r hr => hrows r (by omega), by omega, ?_,
        fun h => by omega⟩
      · simp only [run_pure, run_ok_bind]
        have h5 : (m1 : Int) - 1 - 1 = ((m1 - 1 : Nat) : Int) - 1 := by omega
        rw [h5]
      · apply hfin cur _ (fun r _ => rfl)
        rw [← hsk]
        exact hrows (m1 - 1) (by omega)
    · have h4 : (m1 : Int) - 1 ≠ (k : Int) := by omega
      rw [if_pos h4, e1]
      have e3 : ((m1 : Int) - 1) * WIDTH = (((m1 - 1) * 10 : Nat) : Int) := by
        simp only [WIDTH]; omega
      rw [e3, e2]
      obtain ⟨cur1, hmc, hlen1, hget⟩ := memcpy_spec cur (k * 10) ((m1 - 1) * 10) 10
        (by omega) (by omega) (by omega)
      rw [hmc, run_ok_bind]
      obtain ⟨hrow, hother⟩ := board_row_of_update cur cur1 k
        (fun c => cur.getD ((m1 - 1) * 10 + c) 0) (fun j => hget j)
      rw [← board_row_eq] at hrow
      refine ⟨cur1, m1 - 1, 0, ?_, by omega, ?_, by omega, ?_, fun h => by omega⟩
      · simp only [run_pure]
        have h5 : (m1 : Int) - 1 - 1 = ((m1 - 1 : Nat) : Int) - 1 := by omega
        rw [h5]
      · intro r hr
        rw [hother r (by omega)]
        exact hrows r (by omega)
      · apply hfin cur1 _ hother
        rw [hrow]
        exact hrows (m1 - 1) (by omega)

/-- What `clear_lines` does to a board, given the row record of that board: the rows
that are not full sink to the bottom in their order, zero rows come in on top. -/
theorem clear_lines_spec (orig lines : List Nat) (hlen : orig.length = 220)
    (hl : lines.length = 22)
    (hfull : ∀ r : Nat, r < 22 →
      lines.getD r 0 = if row_filled (board_row orig r) then 1 else 0) :
    ∃ (b1 : List Nat) (z : Nat), clear_lines orig WIDTH HEIGHT lines = .ok b1 ∧
      b1.length = 220 ∧
      board_rows b1 = List.replicate z (List.replicate 10 0) ++
        (board_rows orig).filter (fun r => !row_filled r) := by
  obtain ⟨st, hst, hlen1, -, m, z, -, hm, hrf, -⟩ := foldlM_range_rev_inv
    (clear_lines_row WIDTH lines)
    (fun n st => st.1.length = 220 ∧ (∀ r, r < n → board_row st.1 r = board_row orig r) ∧
      ∃ m z : Nat, st.2 = (m : Int) - 1 ∧ m ≤ n ∧
        rows_from st.1 n = List.replicate z (List.replicate 10 0) ++
          (rows_from orig m).filter (fun r => !row_filled r) ∧ (0 < z → m = 0))
    22 (orig, HEIGHT - 1)
    ⟨hlen, fun _ _ => rfl, 22, 0, rfl, le_refl _, by simp [rows_from_last], by omega⟩
    (fun k st hk hI => by
      obtain ⟨hlen1, hrows, m, z, hs, hm, hrf, hz⟩ := hI
      obtain ⟨cur1, m1, z1, hrun, h1, h2, h3, h4, h5⟩ :=
        clear_lines_row_spec orig lines st.1 hl hfull k m z hk hlen1 hrows hm hrf hz
      have hst : st = (st.1, (m : Int) - 1) := by rw [← hs]
      rw [hst, hrun]
      exact ⟨_, rfl, h1, h2, m1, z1, rfl, h3, h4, h5⟩)
  have hm0 : m = 0 := by omega
  subst hm0
  have h22 : (HEIGHT : Int) = ((22 : Nat) : Int) := rfl
  unfold clear_lines
  rw [h22] at hst ⊢
  rw [hst, run_ok_bind]
  refine ⟨st.1, z, rfl, hlen1, ?_⟩
  rw [rows_from_zero, rows_from_zero] at hrf
  exact hrf

/-! ## The catalog -/

theorem tetrino_get_total_list : ∀ t ∈ TETRINOS, ∀ row ∈ int_range t.side,
    ∀ col ∈ int_range t.side, ∀ rot ∈ int_range 4,
      ∃ v ∈ [0, 1, 2, 3, 4, 5, 6, 7], tetrino_get t row col rot = .ok v := by
  decide

theorem tetrino_side_list : ∀ t ∈ TETRINOS, 0 < t.side ∧ t.side ≤ 4 := by
  decide

theorem tetrino_occupied_list : ∀ t ∈ TETRINOS, ∀ rot ∈ int_range 4,
    ∃ row ∈ int_range t.side, ∃ col ∈ int_range t.side,
      ∃ v ∈ [1, 2, 3, 4, 5, 6, 7], tetrino_get t row col rot = .ok v := by
  decide

theorem tetrino_at_ok (index : Nat) (h : index < 7) :
    ∃ t, tetrino_at index = .ok t ∧ t ∈ TETRINOS := by
  have h1 : index < TETRINOS.length := h
  refine ⟨TETRINOS[index], ?_, List.getElem_mem _⟩
  unfold tetrino_at
  rw [List.get?_eq_getElem?, List.getElem?_eq_getElem h1]

theorem tetrino_at_mem (index : Nat) (t : Tetrino) (h : tetrino_at index = .ok t) :
    t ∈ TETRINOS ∧ index < 7 := by
  unfold tetrino_at at h
  rw [List.get?_eq_getElem?] at h
  cases hg : TETRINOS[index]? with
  | none => rw [hg] at h; cases h
  | some t1 =>
    rw [hg] at h
    injection h with h
    subst h
    have h2 := List.getElem?_eq_some_iff.mp hg
    obtain ⟨hlt, heq⟩ := h2
    exact ⟨heq ▸ List.getElem_mem _, hlt⟩

theorem tetrino_get_total (t : Tetrino) (ht : t ∈ TETRINOS) (row col rot : Int)
    (hr0 : 0 ≤ row) (hr1 : row < t.side) (hc0 : 0 ≤ col) (hc1 : col < t.side)
    (h0 : 0 ≤ rot) (h1 : rot ≤ 3) : ∃ v, tetrino_get t row col rot = .ok v := by
  obtain ⟨v, -, hv⟩ := tetrino_get_total_list t ht row ((mem_int_range _ _).mpr ⟨hr0, hr1⟩)
    col ((mem_int_range _ _).mpr ⟨hc0, hc1⟩) rot ((mem_int_range _ _).mpr ⟨h0, by omega⟩)
  exact ⟨v, hv⟩

/-! ## Collision -/

/-- The test on one cell never faults, and lets the loops go on exactly when the
cell fits. -/
theorem check_piece_cell_spec (piece : Piece_State) (t : Tetrino) (ht : t ∈ TETRINOS)
    (board : List Nat) (hb : board.length = 220) (h0 : 0 ≤ piece.rotation)
    (h1 : piece.rotation ≤ 3) (row col : Int) (hr0 : 0 ≤ row) (hr1 : row < t.side)
    (hc0 : 0 ≤ col) (hc1 : col < t.side) :
    (check_piece_cell piece t board WIDTH HEIGHT row col = .ok none ∧
        cell_fits piece t board row col) ∨
    (check_piece_cell piece t board WIDTH HEIGHT row col = .ok (some false) ∧
        ¬ cell_fits piece t board row col) := by
  obtain ⟨v, hv⟩ := tetrino_get_total t ht row col piece.rotation hr0 hr1 hc0 hc1 h0 h1
  unfold check_piece_cell
  rw [hv, run_ok_bind]
  by_cases hpos : v > 0
  · rw [if_pos hpos]
    dsimp only
    by_cases hrow : piece.offset_row + row < 0 ∨ piece.offset_row + row ≥ HEIGHT
    · rw [if_pos hrow]
      right
      refine ⟨rfl, fun hfit => ?_⟩
      have := hfit v hv (by omega)
      omega
    · rw [if_neg hrow]
      by_cases hcol : piece.offset_col + col < 0 ∨ piece.offset_col + col ≥ WIDTH
      · rw [if_pos hcol]
        right
        refine ⟨rfl, fun hfit => ?_⟩
        have := hfit v hv (by omega)
        omega
      · rw [if_neg hcol]
        have hget := matrix_get_ok board hb (piece.offset_row + row) (piece.offset_col + col)
          (by omega) (by omega) (by omega) (by omega)
        rw [hget, run_ok_bind]
        by_cases hz : cell board (piece.offset_row + row) (piece.offset_col + col) = 0
        · left
          refine ⟨by simp [hz], ?_⟩
          intro v1 hv1 _
          rw [hget, hz]
          exact ⟨by omega, by omega, by omega, by omega, rfl⟩
        · right
          refine ⟨by simp [hz], fun hfit => ?_⟩
          have h5 := (hfit v hv (by omega)).2.2.2.2
          rw [hget] at h5
          injection h5 with h5
          exact hz h5
  · rw [if_neg hpos]
    left
    refine ⟨rfl, ?_⟩
    intro v1 hv1 hne
    rw [hv] at hv1
    injection hv1 with hv1
    omega

/-- The collision test never faults on a board of the right size and answers
whether the pose fits. -/
theorem check_piece_valid_spec (piece : Piece_State) (board : List Nat)
    (hk : piece.tetrino_index < 7) (h0 : 0 ≤ piece.rotation) (h1 : piece.rotation ≤ 3)
    (hb : board.length = 220) :
    ∃ b, check_piece_valid piece board WIDTH HEIGHT = .ok b ∧
      (b = true ↔ pose_fits piece board) := by
  obtain ⟨t, ht, hmem⟩ := tetrino_at_ok piece.tetrino_index hk
  have hcell := check_piece_cell_spec piece t hmem board hb h0 h1
  -- the inner loop, for a fixed row
  have hinner : ∀ row ∈ int_range t.side,
      (for_return (int_range t.side) (fun col =>
          check_piece_cell piece t board WIDTH HEIGHT row col) = .ok none ∧
        ∀ col, 0 ≤ col → col < t.side → cell_fits piece t board row col) ∨
      (for_return (int_range t.side) (fun col =>
          check_piece_cell piece t board WIDTH HEIGHT row col) = .ok (some false) ∧
        ∃ col, 0 ≤ col ∧ col < t.side ∧ ¬ cell_fits piece t board row col) := by
    intro row hrow
    rw [mem_int_range] at hrow
    obtain ⟨o, ho, hnone, hsome⟩ := for_return_spec
      (fun col => check_piece_cell piece t board WIDTH HEIGHT row col) (int_range t.side)
      (fun col hcol => by
        rw [mem_int_range] at hcol
        rcases hcell row col hrow.1 hrow.2 hcol.1 hcol.2 with h | h
        · exact ⟨_, h.1⟩
        · exact ⟨_, h.1⟩)
    cases o with
    | none =>
      left
      refine ⟨ho, fun col hc0 hc1 => ?_⟩
      have h2 := hnone.mp rfl col ((mem_int_range _ _).mpr ⟨hc0, hc1⟩)
      rcases hcell row col hrow.1 hrow.2 hc0 hc1 with h | h
      · exact h.2
      · rw [h.1] at h2
        cases h2
    | some r =>
      right
      obtain ⟨col, hcol, hbody⟩ := hsome r rfl
      rw [mem_int_range] at hcol
      rcases hcell row col hrow.1 hrow.2 hcol.1 hcol.2 with h | h
      · rw [h.1] at hbody
        cases hbody
      · rw [h.1] at hbody
        injection hbody with hbody
        injection hbody with hbody
        subst hbody
        exact ⟨ho, col, hcol.1, hcol.2, h.2⟩
  obtain ⟨o, ho, hnone, hsome⟩ := for_return_spec
    (fun row => for_return (int_range t.side) (fun col =>
      check_piece_cell piece t board WIDTH HEIGHT row col)) (int_range t.side)
    (fun row hrow => by
      rcases hinner row hrow with h | h
      · exact ⟨_, h.1⟩
      · exact ⟨_, h.1⟩)
  unfold check_piece_valid
  rw [ht, run_ok_bind, ho, run_ok_bind]
  cases o with
  | none =>
    refine ⟨true, rfl, ?_⟩
    simp only [true_iff]
    refine ⟨t, ht, fun row col hr0 hr1 hc0 hc1 => ?_⟩
    have hrow := (mem_int_range _ _).mpr ⟨hr0, hr1⟩
    have h2 := hnone.mp rfl row hrow
    rcases hinner row hrow with h | h
    · exact h.2 col hc0 hc1
    · rw [h.1] at h2
      cases h2
  | some r =>
    obtain ⟨row, hrow, hbody⟩ := hsome r rfl
    rcases hinner row hrow with h | h
    · rw [h.1] at hbody
      cases hbody
    · rw [h.1] at hbody
      injection hbody with hbody
      injection hbody with hbody
      subst hbody
      refine ⟨false, rfl, ?_⟩
      simp only [Bool.false_eq_true, false_iff]
      rintro ⟨t1, ht1, hfit⟩
      rw [ht] at ht1
      injection ht1 with ht1
      subst ht1
      obtain ⟨col, hc0, hc1, hnot⟩ := h.2
      rw [mem_int_range] at hrow
      exact hnot (hfit row col hrow.1 hrow.2 hc0 hc1)

/-! ## Merge -/

theorem matrix_set_ok (board : List Nat) (hb : board.length = 220) (R C : Int) (v : Nat)
    (hr0 : 0 ≤ R) (hr1 : R < HEIGHT) (hc0 : 0 ≤ C) (hc1 : C < WIDTH) :
    ∃ b1, matrix_set board WIDTH R C v = .ok b1 ∧ b1.length = 220 ∧
      ∀ R1 C1 : Int, 0 ≤ R1 → R1 < HEIGHT → 0 ≤ C1 → C1 < WIDTH →
        cell b1 R1 C1 = if R1 = R ∧ C1 = C then v else cell board R1 C1 := by
  have hr1a : R < 22 := hr1
  have hc1a : C < 10 := hc1
  refine ⟨board.set (R * WIDTH + C).toNat v, ?_, by simp [hb], ?_⟩
  · unfold matrix_set
    exact array_set_ok _ _ _ (by simp only [WIDTH]; omega) (by simp only [WIDTH]; omega)
  · intro R1 C1 h1 h2 h3 h4
    have h2a : R1 < 22 := h2
    have h4a : C1 < 10 := h4
    unfold cell
    rw [getD_set_eq _ _ _ _ (by simp only [WIDTH]; omega)]
    by_cases h : R1 = R ∧ C1 = C
    · rw [if_pos h, if_pos (by rw [h.1, h.2])]
    · rw [if_neg h, if_neg (by simp only [WIDTH]; omega)]

/-- The body of the loops of `merge_piece` on an occupied cell inside the board, or on
a cell that is not occupied. -/
theorem merge_piece_cell_spec (piece : Piece_State) (t : Tetrino) (ht : t ∈ TETRINOS)
    (h0 : 0 ≤ piece.rotation) (h1 : piece.rotation ≤ 3) (b0 b : List Nat)
    (hb0 : b0.length = 220) (i k : Nat) (hi : (i : Int) < t.side) (hk : (k : Int) < t.side)
    (hall : ∀ row col : Int, 0 ≤ row → row < t.side → 0 ≤ col → col < t.side →
      cell_inside piece t row col)
    (hI : merged_upto piece t b0 b i k) :
    ∃ b1, merge_piece_cell piece t b i k = .ok b1 ∧ merged_upto piece t b0 b1 i (k + 1) := by
  obtain ⟨v, hv⟩ := tetrino_get_total t ht i k piece.rotation (by omega) hi (by omega) hk h0 h1
  obtain ⟨hlen, hwr, hun⟩ := hI
  unfold merge_piece_cell
  rw [hv, run_ok_bind]
  by_cases hz : v ≠ 0
  · rw [if_pos hz]
    dsimp only
    obtain ⟨q0, q1, q2, q3⟩ := hall i k (by omega) hi (by omega) hk v hv hz
    obtain ⟨b1, hset, hlen1, hcell⟩ := matrix_set_ok b (by omega) (piece.offset_row + i)
      (piece.offset_col + k) v q0 q1 q2 q3
    refine ⟨b1, hset, by omega, ?_, ?_⟩
    · intro row col r0 r1 c0 c1 hproc w hw hwz
      by_cases hcur : row = (i : Int) ∧ col = (k : Int)
      · rw [hcur.1, hcur.2] at hw ⊢
        rw [hv] at hw
        injection hw with hw
        rw [hcell _ _ q0 q1 q2 q3, if_pos ⟨rfl, rfl⟩, hw]
      · have hproc1 : row < (i : Int) ∨ (row = (i : Int) ∧ col < (k : Int)) := by omega
        have hval := hwr row col r0 r1 c0 c1 hproc1 w hw hwz
        obtain ⟨p0, p1, p2, p3⟩ := hall row col r0 r1 c0 c1 w hw hwz
        rw [hcell _ _ p0 p1 p2 p3, if_neg (by omega), hval]
    · intro R C r0 r1 c0 c1 hnot
      rw [hcell R C r0 r1 c0 c1]
      have hne : ¬ (R = piece.offset_row + (i : Int) ∧ C = piece.offset_col + (k : Int)) := by
        intro hh
        exact hnot i k (by omega) hi (by omega) hk (by omega) v hv hz ⟨hh.1.symm, hh.2.symm⟩
      rw [if_neg hne]
      exact hun R C r0 r1 c0 c1 (fun row col a1 a2 a3 a4 hp w hw hwz =>
        hnot row col a1 a2 a3 a4 (by omega) w hw hwz)
  · rw [if_neg hz]
    have hv0 : v = 0 := by omega
    refine ⟨b, rfl, hlen, ?_, ?_⟩
    · intro row col r0 r1 c0 c1 hproc w hw hwz
      by_cases hcur : row = (i : Int) ∧ col = (k : Int)
      · rw [hcur.1, hcur.2, hv] at hw
        injection hw with hw
        omega
      · exact hwr row col r0 r1 c0 c1 (by omega) w hw hwz
    · intro R C r0 r1 c0 c1 hnot
      exact hun R C r0 r1 c0 c1 (fun row col a1 a2 a3 a4 hp w hw hwz =>
        hnot row col a1 a2 a3 a4 (by omega) w hw hwz)

/-- On a pose that lies inside the board `merge_piece` does not fault; it writes the
sampled value of every occupied cell and leaves the other board cells as they were. -/
theorem merge_piece_spec (game : Game_State) (hb : game.board.length = 220)
    (h0 : 0 ≤ game.piece.rotation) (h1 : game.piece.rotation ≤ 3)
    (hin : pose_inside game.piece) :
    ∃ (t : Tetrino) (b1 : List Nat), tetrino_at game.piece.tetrino_index = .ok t ∧
      merge_piece game = .ok { game with board := b1 } ∧
      merged_upto game.piece t game.board b1 t.side 0 := by
  obtain ⟨t, ht, hall⟩ := hin
  obtain ⟨hmem, -⟩ := tetrino_at_mem _ _ ht
  obtain ⟨hs0, hs1⟩ := tetrino_side_list t hmem
  have hside : t.side = ((t.side.toNat : Nat) : Int) := by omega
  obtain ⟨b1, hfold, hI⟩ := foldlM_range_inv
    (fun board row => (int_range t.side).foldlM (fun board col =>
      merge_piece_cell game.piece t board row col) board)
    (fun i b => merged_upto game.piece t game.board b i 0) t.side.toNat game.board
    ⟨rfl, fun row col r0 _ _ _ hp => by omega, fun R C _ _ _ _ _ => rfl⟩
    (fun i b hi hI => by
      dsimp only
      obtain ⟨b2, hfold2, hI2⟩ := foldlM_range_inv
        (fun board col => merge_piece_cell game.piece t board (i : Int) col)
        (fun k b => merged_upto game.piece t game.board b i k) t.side.toNat b hI
        (fun k b3 hk hI3 => by
          obtain ⟨b4, h4, hI4⟩ := merge_piece_cell_spec game.piece t hmem h0 h1 game.board b3
            hb i k (by omega) (by omega) hall hI3
          exact ⟨b4, h4, by exact_mod_cast hI4⟩)
      rw [← hside] at hfold2
      refine ⟨b2, hfold2, ?_⟩
      obtain ⟨hlen, hwr, hun⟩ := hI2
      refine ⟨hlen, ?_, ?_⟩
      · intro row col r0 r1 c0 c1 hp
        exact hwr row col r0 r1 c0 c1 (by push_cast at hp; omega)
      · intro R C r0 r1 c0 c1 hnot
        exact hun R C r0 r1 c0 c1 (fun row col a1 a2 a3 a4 hp =>
          hnot row col a1 a2 a3 a4 (by push_cast; omega)))
  rw [← hside] at hfold hI
  refine ⟨t, b1, ht, ?_, hI⟩
  unfold merge_piece
  rw [ht, run_ok_bind, hfold, run_ok_bind]
  rfl

/-! ## Timing and spawn -/

theorem frames_positive_list : ∀ i ∈ List.range 30, 0 < FRAMES_PER_DROP.getD i 0 := by
  decide

/-- For a level that is not negative the table lookup is in range and the interval
is positive. -/
theorem get_time_to_next_drop_ok (level : Int) (h : 0 ≤ level) :
    ∃ dt : ℚ, get_time_to_next_drop level = .ok dt ∧ 0 < dt := by
  unfold get_time_to_next_drop
  dsimp only
  have hlen : (FRAMES_PER_DROP.length : Int) = 30 := rfl
  have hidx : 0 ≤ (if level > 29 then 29 else level) ∧
      (if level > 29 then 29 else level) < 30 := by
    split <;> omega
  rw [array_get_ok _ _ hidx.1 (by rw [hlen]; exact hidx.2), run_ok_bind]
  refine ⟨_, rfl, ?_⟩
  have hpos := frames_positive_list (if level > 29 then 29 else level).toNat
    (List.mem_range.mpr (by omega))
  have h60 : (0 : ℚ) < TARGET_SECONDS_PER_FRAME := by
    unfold TARGET_SECONDS_PER_FRAME; norm_num
  have hq : (0 : ℚ) < ((FRAMES_PER_DROP.getD (if level > 29 then 29 else level).toNat 0 : Nat) : ℚ) := by
    exact_mod_cast hpos
  exact mul_pos hq h60

theorem array_get_error (a : List Nat) (i : Int) (e : Fault) (h : array_get a i = .error e) :
    e = .out_of_range := by
  unfold array_get at h
  split at h
  · cases h
  · injection h with h
    exact h.symm

theorem array_set_error (a : List Nat) (i : Int) (v : Nat) (e : Fault)
    (h : array_set a i v = .error e) : e = .out_of_range := by
  unfold array_set at h
  split at h
  · cases h
  · injection h with h
    exact h.symm

/-- Any fault of the interval lookup is an out-of-range read. -/
theorem get_time_to_next_drop_error (level : Int) (e : Fault)
    (h : get_time_to_next_drop level = .error e) : e = .out_of_range := by
  unfold get_time_to_next_drop at h
  dsimp only at h
  cases hg : array_get FRAMES_PER_DROP (if level > 29 then 29 else level) with
  | ok v =>
    rw [hg] at h
    cases h
  | error e1 =>
    rw [hg] at h
    injection h with h
    subst h
    exact array_get_error _ _ _ hg

/-- The kind index `spawn_piece` draws from the result `r` of `rand()`. -/
theorem spawn_index (r : Nat) :
    (random_int 0 (TETRINOS.length : Int) r % 256).toNat = r % 7 := by
  unfold random_int
  have hl : (TETRINOS.length : Int) = 7 := rfl
  rw [hl]
  dsimp only
  have h1 : Int.tmod (r : Int) (7 - 0) = ((r % 7 : Nat) : Int) := by
    have : (7 : Int) - 0 = ((7 : Nat) : Int) := rfl
    rw [this]
    rfl
  rw [h1]
  omega

theorem spawn_piece_spec (w : World) (h : 0 ≤ w.game.level) :
    ∃ dt : ℚ, get_time_to_next_drop w.game.level = .ok dt ∧ 0 < dt ∧
      spawn_piece w = .ok
        { game := { w.game with
            piece := { tetrino_index := w.rand 0 % 7, offset_row := 0,
                       offset_col := WIDTH / 2, rotation := 0 },
            next_drop_time := w.game.time + dt },
          rand := fun n => w.rand (n + 1) } := by
  obtain ⟨dt, hdt, hpos⟩ := get_time_to_next_drop_ok w.game.level h
  refine ⟨dt, hdt, hpos, ?_⟩
  unfold spawn_piece
  dsimp only
  rw [hdt, run_ok_bind, spawn_index]
  rfl

theorem spawn_piece_error (w : World) (e : Fault) (h : spawn_piece w = .error e) :
    e = .out_of_range := by
  unfold spawn_piece at h
  dsimp only at h
  cases hg : get_time_to_next_drop w.game.level with
  | error e1 =>
    rw [hg] at h
    simp only [run_error_bind] at h
    injection h with h
    rw [← h]
    exact get_time_to_next_drop_error _ _ hg
  | ok dt =>
    rw [hg] at h
    cases h

/-- The spawn pose lies inside the board for every kind. -/
theorem spawn_pose_inside (index : Nat) (h : index < 7) :
    pose_inside { tetrino_index := index, offset_row := 0, offset_col := WIDTH / 2,
                  rotation := 0 } := by
  obtain ⟨t, ht, hmem⟩ := tetrino_at_ok index h
  obtain ⟨hs0, hs1⟩ := tetrino_side_list t hmem
  refine ⟨t, ht, fun row col r0 r1 c0 c1 v _ _ => ?_⟩
  dsimp only
  simp only [WIDTH, HEIGHT]
  omega

theorem pose_fits_inside (piece : Piece_State) (board : List Nat) (h : pose_fits piece board) :
    pose_inside piece := by
  obtain ⟨t, ht, hall⟩ := h
  refine ⟨t, ht, fun row col r0 r1 c0 c1 v hv hz => ?_⟩
  obtain ⟨a, b, c, d, -⟩ := hall row col r0 r1 c0 c1 v hv hz
  exact ⟨a, b, c, d⟩

/-- A state-updating loop that faults does so in one of its passes. -/
theorem foldlM_error {σ α : Type} (f : σ → α → Run σ) (l : List α) (s : σ) (e : Fault)
    (h : l.foldlM f s = .error e) : ∃ s1 x, x ∈ l ∧ f s1 x = .error e := by
  induction l generalizing s with
  | nil => cases h
  | cons x rest ih =>
    rw [List.foldlM_cons] at h
    cases hx : f s x with
    | error e1 =>
      rw [hx] at h
      simp only [run_error_bind] at h
      injection h with h
      exact ⟨s, x, List.mem_cons_self _ _, by rw [hx, h]⟩
    | ok s1 =>
      rw [hx, run_ok_bind] at h
      obtain ⟨s2, y, hy, hf⟩ := ih s1 h
      exact ⟨s2, y, List.mem_cons_of_mem _ hy, hf⟩

theorem tetrino_get_error (t : Tetrino) (row col rot : Int) (e : Fault)
    (h : tetrino_get t row col rot = .error e) : e = .out_of_range := by
  unfold tetrino_get at h
  dsimp only at h
  split at h
  · exact array_get_error _ _ _ h
  · split at h
    · exact array_get_error _ _ _ h
    · split at h
      · exact array_get_error _ _ _ h
      · split at h
        · exact array_get_error _ _ _ h
        · cases h

/-- Any fault of `merge_piece` is an out-of-range access. -/
theorem merge_piece_error (game : Game_State) (e : Fault) (h : merge_piece game = .error e) :
    e = .out_of_range := by
  unfold merge_piece at h
  cases ht : tetrino_at game.piece.tetrino_index with
  | error e1 =>
    rw [ht] at h
    simp only [run_error_bind] at h
    injection h with h
    subst h
    unfold tetrino_at at ht
    split at ht
    · cases ht
    · injection ht with ht
      exact ht.symm
  | ok t =>
    rw [ht, run_ok_bind] at h
    cases hf : (int_range t.side).foldlM (fun board row =>
        (int_range t.side).foldlM (fun board col =>
          merge_piece_cell game.piece t board row col) board) game.board with
    | ok b =>
      rw [hf] at h
      cases h
    | error e1 =>
      rw [hf] at h
      simp only [run_error_bind] at h
      injection h with h
      subst h
      obtain ⟨s1, row, -, h1⟩ := foldlM_error _ _ _ _ hf
      obtain ⟨s2, col, -, h2⟩ := foldlM_error _ _ _ _ h1
      unfold merge_piece_cell at h2
      cases hv : tetrino_get t row col game.piece.rotation with
      | error e2 =>
        rw [hv] at h2
        simp only [run_error_bind] at h2
        injection h2 with h2
        subst h2
        exact tetrino_get_error _ _ _ _ _ hv
      | ok v =>
        rw [hv, run_ok_bind] at h2
        split at h2
        · exact array_set_error _ _ _ _ h2
        · cases h2

/-! ## Drop steps -/

/-- A property kept by every pass of a state-updating loop holds at its end. -/
theorem foldlM_ok_inv {σ α : Type} (f : σ → α → Run σ) (P : σ → Prop)
    (hstep : ∀ s x s1, P s → f s x = .ok s1 → P s1) (l : List α) (s s1 : σ) (hs : P s)
    (h : l.foldlM f s = .ok s1) : P s1 := by
  induction l generalizing s with
  | nil =>
    injection h with h
    exact h ▸ hs
  | cons x rest ih =>
    rw [List.foldlM_cons] at h
    cases hx : f s x with
    | error e => rw [hx] at h; cases h
    | ok s2 =>
      rw [hx, run_ok_bind] at h
      exact ih s2 (hstep s x s2 hs hx) h

/-- When `merge_piece` returns, only the board has changed, and not its size. -/
theorem merge_piece_ok_frame (game g1 : Game_State) (h : merge_piece game = .ok g1) :
    g1 = { game with board := g1.board } ∧ g1.board.length = game.board.length := by
  unfold merge_piece at h
  cases ht : tetrino_at game.piece.tetrino_index with
  | error e => rw [ht] at h; cases h
  | ok t =>
    rw [ht, run_ok_bind] at h
    cases hf : (int_range t.side).foldlM (fun board row =>
        (int_range t.side).foldlM (fun board col =>
          merge_piece_cell game.piece t board row col) board) game.board with
    | error e => rw [hf] at h; cases h
    | ok b =>
      rw [hf, run_ok_bind] at h
      injection h with h
      subst h
      refine ⟨rfl, ?_⟩
      dsimp only
      refine foldlM_ok_inv _ (fun b => b.length = game.board.length) ?_ _ _ _ rfl hf
      intro s row s1 hs hrow
      refine foldlM_ok_inv _ (fun b => b.length = game.board.length) ?_ _ _ _ hs hrow
      intro s2 col s3 hs2 hcol
      unfold merge_piece_cell at hcol
      cases hv : tetrino_get t row col game.piece.rotation with
      | error e => rw [hv] at hcol; cases hcol
      | ok v =>
        rw [hv, run_ok_bind] at hcol
        split at hcol
        · unfold matrix_set array_set at hcol
          dsimp only at hcol
          split at hcol
          · injection hcol with hcol
            rw [← hcol, List.length_set]
            exact hs2
          · cases hcol
        · injection hcol with hcol
          rw [← hcol]
          exact hs2

theorem get_time_to_next_drop_pos (level : Int) (dt : ℚ)
    (h : get_time_to_next_drop level = .ok dt) : 0 ≤ level ∧ 0 < dt := by
  have h0 : 0 ≤ level := by
    by_contra hneg
    unfold get_time_to_next_drop array_get at h
    dsimp only at h
    rw [if_neg (by omega)] at h
    cases h
  obtain ⟨dt1, h1, hpos⟩ := get_time_to_next_drop_ok level h0
  rw [h1] at h
  injection h with h
  exact ⟨h0, h ▸ hpos⟩

/-- The step `soft_drop` when the pose one row down fits: the piece moves. -/
theorem soft_drop_moved (w : World) (hb : w.game.board.length = 220)
    (hk : w.game.piece.tetrino_index < 7) (h0 : 0 ≤ w.game.piece.rotation)
    (h1 : w.game.piece.rotation ≤ 3)
    (hfit : pose_fits { w.game.piece with offset_row := w.game.piece.offset_row + 1 }
      w.game.board) :
    soft_drop w = (do
      let dt ← get_time_to_next_drop w.game.level
      pure (true, { w with game := { w.game with
        piece := { w.game.piece with offset_row := w.game.piece.offset_row + 1 },
        next_drop_time := w.game.time + dt } })) := by
  obtain ⟨b, hcheck, hiff⟩ := check_piece_valid_spec
    { w.game.piece with offset_row := w.game.piece.offset_row + 1 } w.game.board hk h0 h1 hb
  have hbt : b = true := hiff.mpr hfit
  subst hbt
  unfold soft_drop
  dsimp only
  rw [hcheck, run_ok_bind]
  rfl

/-- The step `soft_drop` when the pose one row down does not fit: the piece is merged
where it is and the next piece is spawned. -/
theorem soft_drop_locked (w : World) (hb : w.game.board.length = 220)
    (hk : w.game.piece.tetrino_index < 7) (h0 : 0 ≤ w.game.piece.rotation)
    (h1 : w.game.piece.rotation ≤ 3)
    (hfit : ¬ pose_fits { w.game.piece with offset_row := w.game.piece.offset_row + 1 }
      w.game.board) :
    soft_drop w = (do
      let game ← merge_piece w.game
      let w1 ← spawn_piece { w with game := game }
      pure (false, w1)) := by
  obtain ⟨b, hcheck, hiff⟩ := check_piece_valid_spec
    { w.game.piece with offset_row := w.game.piece.offset_row + 1 } w.game.board hk h0 h1 hb
  have hbt : b = false := by
    cases b with
    | false => rfl
    | true => exact absurd (hiff.mp rfl) hfit
  subst hbt
  unfold soft_drop
  dsimp only
  rw [hcheck, run_ok_bind]
  rfl

theorem run_bind_assoc {α β γ : Type} (x : Run α) (f : α → Run β) (g : β → Run γ) :
    (x >>= f) >>= g = x >>= fun a => f a >>= g := by
  cases x <;> rfl

theorem update_game_play_eq (fuel : Nat) (w : World) (input : Input_State) :
    update_game_play fuel w input = (do
      let w1 ← play_moves fuel w input
      play_finish w1) := by
  unfold update_game_play play_moves play_finish
  simp only [run_bind_assoc]

theorem same_frame_refl (g : Game_State) : same_frame g g :=
  ⟨rfl, rfl, rfl, rfl, rfl, rfl, rfl, rfl, rfl, rfl⟩

theorem same_frame_trans (g1 g2 g3 : Game_State) (h12 : same_frame g1 g2)
    (h23 : same_frame g2 g3) : same_frame g1 g3 := by
  obtain ⟨a1, a2, a3, a4, a5, a6, a7, a8, a9, a10⟩ := h12
  obtain ⟨b1, b2, b3, b4, b5, b6, b7, b8, b9, b10⟩ := h23
  exact ⟨b1.trans a1, b2.trans a2, b3.trans a3, b4.trans a4, b5.trans a5, b6.trans a6,
    b7.trans a7, b8.trans a8, b9.trans a9, b10.trans a10⟩

/-- One drop step from a state that is ready for it: it returns, the state stays
ready, and either the piece has moved one row down on an unchanged board or it has
been merged and the next piece waits at the spawn pose. -/
theorem soft_drop_ready (w : World) (h : drop_ready w.game) :
    ∃ (c : Bool) (w1 : World), soft_drop w = .ok (c, w1) ∧ drop_ready w1.game ∧
      same_frame w.game w1.game ∧ w.game.time < w1.game.next_drop_time ∧
      (c = true → w1.game.piece =
          { w.game.piece with offset_row := w.game.piece.offset_row + 1 } ∧
        pose_fits { w.game.piece with offset_row := w.game.piece.offset_row + 1 }
          w.game.board ∧ w1.game.board = w.game.board ∧ w1.rand = w.rand) ∧
      (c = false → at_spawn w1.game.piece ∧
        ¬ pose_fits { w.game.piece with offset_row := w.game.piece.offset_row + 1 }
          w.game.board ∧
        ∃ m, merge_piece w.game = .ok m ∧ w1.game.board = m.board) := by
  obtain ⟨hb, hk, h0, h1, hl, hin⟩ := h
  obtain ⟨dt, hdt, hpos⟩ := get_time_to_next_drop_ok w.game.level hl
  by_cases hfit : pose_fits { w.game.piece with offset_row := w.game.piece.offset_row + 1 }
      w.game.board
  · refine ⟨true, { w with game := { w.game with
        piece := { w.game.piece with offset_row := w.game.piece.offset_row + 1 },
        next_drop_time := w.game.time + dt } }, ?_, ?_, ?_, ?_,
      fun _ => ⟨rfl, hfit, rfl, rfl⟩, fun hc => by cases hc⟩
    · rw [soft_drop_moved w hb hk h0 h1 hfit, hdt, run_ok_bind]
      rfl
    · exact ⟨hb, hk, h0, h1, hl, pose_fits_inside _ _ hfit⟩
    · exact ⟨rfl, rfl, rfl, rfl, rfl, rfl, rfl, rfl, rfl, rfl⟩
    · dsimp only
      linarith
  · obtain ⟨t, b1, ht, hmerge, hlen, -, -⟩ := merge_piece_spec w.game hb h0 h1 hin
    obtain ⟨dt1, hdt1, hpos1, hspawn⟩ := spawn_piece_spec
      { w with game := { w.game with board := b1 } } hl
    have hmod : w.rand 0 % 7 < 7 := Nat.mod_lt _ (by omega)
    refine ⟨false,
      ⟨{ w.game with
          board := b1
          piece := ⟨w.rand 0 % 7, 0, WIDTH / 2, 0⟩
          next_drop_time := w.game.time + dt1 }, fun n => w.rand (n + 1)⟩,
      ?_, ?_, ?_, ?_, (fun hc => by cases hc),
      (fun _ => ⟨⟨rfl, rfl, rfl⟩, hfit, _, hmerge, rfl⟩)⟩
    · rw [soft_drop_locked w hb hk h0 h1 hfit, hmerge, run_ok_bind, hspawn, run_ok_bind]
      rfl
    · refine ⟨by dsimp only; omega, hmod, by dsimp only; omega, by dsimp only; omega, hl, ?_⟩
      exact spawn_pose_inside _ hmod
    · exact ⟨rfl, rfl, rfl, rfl, rfl, rfl, rfl, rfl, rfl, rfl⟩
    · dsimp only
      linarith

theorem while_loop_succ {σ : Type} (step : σ → Run (Bool × σ)) (n : Nat) (s : σ) :
    while_loop step (n + 1) s =
      match step s with
      | .error e => .error e
      | .ok (true, s1) => while_loop step n s1
      | .ok (false, s1) => .ok s1 := rfl

/-- The hard-drop loop, with a budget that covers the rows between the piece and the
floor: it returns with the piece merged and the next piece at the spawn pose. -/
theorem hard_drop_fuel (fuel : Nat) : ∀ w : World, drop_ready w.game →
    (∃ (t : Tetrino) (row col : Int) (v : Nat),
      tetrino_at w.game.piece.tetrino_index = .ok t ∧ 0 ≤ row ∧ row < t.side ∧ 0 ≤ col ∧
      col < t.side ∧ tetrino_get t row col w.game.piece.rotation = .ok v ∧ v ≠ 0 ∧
      HEIGHT - (w.game.piece.offset_row + row) ≤ (fuel : Int)) →
    ∃ w1, while_loop soft_drop fuel w = .ok w1 ∧ drop_ready w1.game ∧
      same_frame w.game w1.game ∧ w.game.time < w1.game.next_drop_time ∧
      at_spawn w1.game.piece := by
  induction fuel with
  | zero =>
    intro w hr ⟨t, row, col, v, ht, r0, r1, c0, c1, hv, hz, hm⟩
    obtain ⟨-, -, -, -, -, t1, ht1, hall⟩ := hr
    rw [ht] at ht1
    injection ht1 with ht1
    subst ht1
    have := hall row col r0 r1 c0 c1 v hv hz
    simp only [HEIGHT] at this hm
    omega
  | succ f ih =>
    intro w hr ⟨t, row, col, v, ht, r0, r1, c0, c1, hv, hz, hm⟩
    obtain ⟨c, w1, hsd, hr1, hfr, htime, htrue, hfalse⟩ := soft_drop_ready w hr
    rw [while_loop_succ, hsd]
    cases c with
    | false =>
      exact ⟨w1, rfl, hr1, hfr, htime, (hfalse rfl).1⟩
    | true =>
      obtain ⟨hpiece, hfit, hboard, -⟩ := htrue rfl
      have hocc : ∃ (t : Tetrino) (row col : Int) (v : Nat),
          tetrino_at w1.game.piece.tetrino_index = .ok t ∧ 0 ≤ row ∧ row < t.side ∧ 0 ≤ col ∧
          col < t.side ∧ tetrino_get t row col w1.game.piece.rotation = .ok v ∧ v ≠ 0 ∧
          HEIGHT - (w1.game.piece.offset_row + row) ≤ (f : Int) := by
        rw [hpiece]
        refine ⟨t, row, col, v, ht, r0, r1, c0, c1, hv, hz, ?_⟩
        dsimp only
        push_cast at hm
        omega
      obtain ⟨w2, hloop, hr2, hfr2, htime2, hsp⟩ := ih w1 hr1 hocc
      refine ⟨w2, hloop, hr2, same_frame_trans _ _ _ hfr hfr2, ?_, hsp⟩
      rw [← hfr.1]
      exact htime2

theorem hard_drop_loop_ready (w : World) (h : drop_ready w.game) (fuel : Nat)
    (hf : 22 ≤ fuel) :
    ∃ w1, hard_drop_loop fuel w = .ok w1 ∧ drop_ready w1.game ∧
      same_frame w.game w1.game ∧ w.game.time < w1.game.next_drop_time ∧
      at_spawn w1.game.piece := by
  unfold hard_drop_loop
  apply hard_drop_fuel fuel w h
  obtain ⟨-, hk, h0, h1, -, t, ht, hall⟩ := h
  obtain ⟨hmem, -⟩ := tetrino_at_mem _ _ ht
  obtain ⟨row, hrow, col, hcol, v, hv, hget⟩ := tetrino_occupied_list t hmem
    w.game.piece.rotation ((mem_int_range _ _).mpr ⟨h0, by omega⟩)
  rw [mem_int_range] at hrow hcol
  have hz : v ≠ 0 := by
    intro h0
    subst h0
    simp at hv
  have := hall row col hrow.1 hrow.2 hcol.1 hcol.2 v hget hz
  refine ⟨t, row, col, v, ht, hrow.1, hrow.2, hcol.1, hcol.2, hget, hz, ?_⟩
  simp only [HEIGHT] at this ⊢
  omega

/-- The gravity loop from a state that is ready: it makes one drop step when the
clock has reached `next_drop_time` and none otherwise. -/
theorem gravity_ready (w : World) (h : drop_ready w.game) (fuel : Nat) (hf : 2 ≤ fuel) :
    ∃ w1, while_loop gravity_step fuel w = .ok w1 ∧ drop_ready w1.game ∧
      same_frame w.game w1.game ∧
      ((w.game.time < w.game.next_drop_time ∧ w1 = w) ∨
       (w.game.next_drop_time ≤ w.game.time ∧ ∃ c, soft_drop w = .ok (c, w1))) := by
  obtain ⟨f, rfl⟩ : ∃ f, fuel = f + 2 := ⟨fuel - 2, by omega⟩
  by_cases hdue : w.game.time ≥ w.game.next_drop_time
  · obtain ⟨c, w1, hsd, hr1, hfr, htime, -, -⟩ := soft_drop_ready w h
    have hstep : gravity_step w = .ok (true, w1) := by
      unfold gravity_step
      rw [if_pos hdue, hsd]
      rfl
    have hstep1 : gravity_step w1 = .ok (false, w1) := by
      unfold gravity_step
      rw [if_neg (by rw [hfr.1]; exact not_le.mpr htime)]
      rfl
    refine ⟨w1, ?_, hr1, hfr, Or.inr ⟨hdue, c, hsd⟩⟩
    rw [while_loop_succ, hstep]
    dsimp only
    rw [while_loop_succ, hstep1]
  · have hstep : gravity_step w = .ok (false, w) := by
      unfold gravity_step
      rw [if_neg hdue]
      rfl
    refine ⟨w, ?_, h, same_frame_refl _, Or.inl ⟨not_le.mp hdue, rfl⟩⟩
    rw [while_loop_succ, hstep]

/-! ## The PLAY tick -/

theorem candidate_piece_facts (piece : Piece_State) (input : Input_State)
    (h0 : 0 ≤ piece.rotation) (h1 : piece.rotation ≤ 3) :
    (candidate_piece piece input).tetrino_index = piece.tetrino_index ∧
    (candidate_piece piece input).offset_row = piece.offset_row ∧
    0 ≤ (candidate_piece piece input).rotation ∧ (candidate_piece piece input).rotation ≤ 3 := by
  have hrot : 0 ≤ Int.tmod (piece.rotation + 1) 4 ∧ Int.tmod (piece.rotation + 1) 4 ≤ 3 := by
    generalize piece.rotation = r at h0 h1
    interval_cases r <;> decide
  unfold candidate_piece
  dsimp only
  split <;> split <;> split <;> simp_all

theorem check_row_empty_eq (board : List Nat) (hlen : board.length = 220) (row : Nat)
    (hr : row < 22) :
    check_row_empty board WIDTH (row : Int) =
      .ok (if row_empty (board_row board row) then 1 else 0) := by
  have htot : ∀ col ∈ int_range WIDTH, (do
      let v ← matrix_get board WIDTH (row : Int) col
      if v ≠ 0 then pure (some 0) else pure none : Run (Option Nat)) =
      .ok (if cell board row col ≠ 0 then some 0 else none) := by
    intro col hcol
    rw [mem_int_range] at hcol
    rw [matrix_get_ok board hlen _ _ (by omega) (by simp only [HEIGHT]; omega) hcol.1 hcol.2]
    by_cases hz : cell board row col = 0 <;> simp [hz]
  obtain ⟨o, ho, hnone, hsome⟩ := for_return_spec (fun col => (do
      let v ← matrix_get board WIDTH (row : Int) col
      if v ≠ 0 then pure (some 0) else pure none : Run (Option Nat))) (int_range WIDTH)
      (fun col hcol => ⟨_, htot col hcol⟩)
  unfold check_row_empty
  rw [ho]
  cases o with
  | none =>
    have hall := hnone.mp rfl
    have hf : row_empty (board_row board row) = true := by
      simp only [row_empty, List.all_eq_true]
      intro v hv
      obtain ⟨c, h0, h1, rfl⟩ := (mem_board_row _ _ _).mp hv
      have h2 := hall c ((mem_int_range _ _).mpr ⟨h0, h1⟩)
      rw [htot c ((mem_int_range _ _).mpr ⟨h0, h1⟩)] at h2
      by_cases hz : cell board row c = 0
      · simpa using hz
      · simp [hz] at h2
    simp [hf]
  | some x =>
    obtain ⟨c, hc, hbc⟩ := hsome x rfl
    rw [htot c hc] at hbc
    have hc2 := (mem_int_range _ _).mp hc
    by_cases hz : cell board row c = 0
    · simp [hz] at hbc
    · simp [hz] at hbc
      have hf : row_empty (board_row board row) = false := by
        rw [Bool.eq_false_iff]
        intro hf
        simp only [row_empty, List.all_eq_true] at hf
        have := hf _ ((mem_board_row _ _ _).mpr ⟨c, hc2.1, hc2.2, rfl⟩)
        simp [hz] at this
      simp [hf, ← hbc]

/-- The movement part of a PLAY tick from a state that is ready, with a budget of at
least `HEIGHT` steps: it returns; if no piece was locked the board is unchanged and
the piece fits it or has not moved; if a piece was locked the next one waits at the
spawn pose. -/
theorem play_moves_ready (w : World) (input : Input_State) (fuel : Nat)
    (h : drop_ready w.game) (hf : 22 ≤ fuel) :
    ∃ w1, play_moves fuel w input = .ok w1 ∧ drop_ready w1.game ∧
      same_frame w.game w1.game ∧
      ((w1.game.board = w.game.board ∧
          (pose_fits w1.game.piece w.game.board ∨ w1.game.piece = w.game.piece)) ∨
        at_spawn w1.game.piece) := by
  have h' := h
  obtain ⟨hb, hk, h0, h1, hl, hin⟩ := h'
  obtain ⟨ck, crow, c0, c1⟩ := candidate_piece_facts w.game.piece input h0 h1
  obtain ⟨b, hcheck, hiff⟩ := check_piece_valid_spec (candidate_piece w.game.piece input)
    w.game.board (by omega) c0 c1 hb
  unfold play_moves
  dsimp only
  rw [hcheck, run_ok_bind]
  -- the candidate step
  obtain ⟨wa, hwa, hra, hfa, hba, hpa, hna⟩ : ∃ wa : World,
      (if b = true then
        { w with game := { w.game with piece := candidate_piece w.game.piece input } }
        else w) = wa ∧ drop_ready wa.game ∧ same_frame w.game wa.game ∧
      wa.game.board = w.game.board ∧
      (pose_fits wa.game.piece w.game.board ∨ wa.game.piece = w.game.piece) ∧
      wa.game.next_drop_time = w.game.next_drop_time := by
    cases b with
    | false => exact ⟨w, if_neg (by decide), h, same_frame_refl _, rfl, Or.inr rfl, rfl⟩
    | true =>
      have hfit := hiff.mp rfl
      exact ⟨{ w with game := { w.game with piece := candidate_piece w.game.piece input } },
        if_pos rfl, ⟨hb, by dsimp only; omega, c0, c1, hl, pose_fits_inside _ _ hfit⟩,
        ⟨rfl, rfl, rfl, rfl, rfl, rfl, rfl, rfl, rfl, rfl⟩, rfl, Or.inl hfit, rfl⟩
  rw [hwa]
  -- the manual soft drop
  obtain ⟨wb, hwb, hrb, hfb, hpb, hnb⟩ : ∃ wb : World,
      (if input.ddown > 0 then soft_drop wa >>= fun r => pure r.2 else pure wa) = .ok wb ∧
      drop_ready wb.game ∧ same_frame w.game wb.game ∧
      ((wb.game.board = w.game.board ∧
          (pose_fits wb.game.piece w.game.board ∨ wb.game.piece = w.game.piece)) ∨
        at_spawn wb.game.piece) ∧
      (wb = wa ∨ w.game.time < wb.game.next_drop_time) := by
    by_cases hdd : input.ddown > 0
    · rw [if_pos hdd]
      obtain ⟨c, w1, hsd, hr1, hfr, htime, htrue, hfalse⟩ := soft_drop_ready wa hra
      refine ⟨w1, by rw [hsd]; rfl, hr1, same_frame_trans _ _ _ hfa hfr, ?_,
        Or.inr (by rw [← hfa.1]; exact htime)⟩
      cases c with
      | false => exact Or.inr (hfalse rfl).1
      | true =>
        obtain ⟨hpiece, hfit, hboard, -⟩ := htrue rfl
        left
        refine ⟨by rw [hboard, hba], Or.inl ?_⟩
        rw [hpiece, ← hba]
        exact hfit
    · rw [if_neg hdd]
      exact ⟨wa, rfl, hra, hfa, Or.inl ⟨hba, hpa⟩, Or.inl rfl⟩
  rw [hwb, run_ok_bind]
  -- the hard drop
  obtain ⟨wc, hwc, hrc, hfc, hpc, hnc⟩ : ∃ wc : World,
      (if input.da > 0 then hard_drop_loop fuel wb else pure wb) = .ok wc ∧
      drop_ready wc.game ∧ same_frame w.game wc.game ∧
      ((wc.game.board = w.game.board ∧
          (pose_fits wc.game.piece w.game.board ∨ wc.game.piece = w.game.piece)) ∨
        at_spawn wc.game.piece) ∧
      (wc = wa ∨ w.game.time < wc.game.next_drop_time) := by
    by_cases hda : input.da > 0
    · rw [if_pos hda]
      obtain ⟨w1, hloop, hr1, hfr, htime, hsp⟩ := hard_drop_loop_ready wb hrb fuel hf
      exact ⟨w1, hloop, hr1, same_frame_trans _ _ _ hfb hfr, Or.inr hsp,
        Or.inr (by rw [← hfb.1]; exact htime)⟩
    · rw [if_neg hda]
      exact ⟨wb, rfl, hrb, hfb, hpb, hnb⟩
  rw [hwc, run_ok_bind]
  -- gravity
  obtain ⟨wd, hwd, hrd, hfd, hcase⟩ := gravity_ready wc hrc fuel (by omega)
  refine ⟨wd, hwd, hrd, same_frame_trans _ _ _ hfc hfd, ?_⟩
  rcases hcase with ⟨-, heq⟩ | ⟨hdue, c, hsd⟩
  · rw [heq]
    exact hpc
  · have hwca : wc = wa := by
      rcases hnc with h1 | h1
      · exact h1
      · rw [hfc.1] at hdue
        exact absurd hdue (not_le.mpr h1)
    subst hwca
    obtain ⟨c2, w2, hsd2, -, -, -, htrue, hfalse⟩ := soft_drop_ready wc hrc
    rw [hsd] at hsd2
    injection hsd2 with hsd2
    injection hsd2 with hc2 hw2
    subst hc2 hw2
    cases c with
    | false => exact Or.inr (hfalse rfl).1
    | true =>
      obtain ⟨hpiece, hfit, hboard, -⟩ := htrue rfl
      left
      refine ⟨by rw [hboard, hba], Or.inl ?_⟩
      rw [hpiece, ← hba]
      exact hfit

/-- The closing part of a PLAY tick: the row record and the count of full rows are
stored; a non-empty row 0 gives GAMEOVER, otherwise a full row gives LINE. -/
theorem play_finish_spec (w : World) (hb : w.game.board.length = 220)
    (hl : w.game.lines.length = 22) :
    ∃ lines : List Nat, lines.length = 22 ∧
      (∀ r : Nat, r < 22 →
        lines.getD r 0 = if row_filled (board_row w.game.board r) then 1 else 0) ∧
      play_finish w = .ok { w with game := { w.game with
        lines := lines
        pending_line_count := (((board_rows w.game.board).filter row_filled).length : Int)
        phase :=
          if row_empty (board_row w.game.board 0) = false then GAME_PHASE_GAMEOVER
          else if 0 < ((board_rows w.game.board).filter row_filled).length
            then GAME_PHASE_LINE else w.game.phase
        highlight_end_time :=
          if 0 < ((board_rows w.game.board).filter row_filled).length
            then w.game.time + 1 / 2 else w.game.highlight_end_time } } := by
  obtain ⟨lines, hfind, hlen, hget⟩ := find_lines_spec w.game.board w.game.lines hb hl
  refine ⟨lines, hlen, hget, ?_⟩
  have hrow0 := check_row_empty_eq w.game.board hb 0 (by omega)
  unfold play_finish
  rw [hfind, run_ok_bind]
  dsimp only
  by_cases hcount : 0 < ((board_rows w.game.board).filter row_filled).length
  · have hc : (((board_rows w.game.board).filter row_filled).length : Int) > 0 := by
      omega
    rw [if_pos hc, if_pos hcount, if_pos hcount]
    dsimp only
    have h00 : ((0 : Nat) : Int) = 0 := rfl
    rw [← h00, hrow0, run_ok_bind]
    by_cases he : row_empty (board_row w.game.board 0) = true
    · rw [he]
      simp
    · have he2 : row_empty (board_row w.game.board 0) = false := by simpa using he
      rw [he2]
      simp
  · have hc : ¬ (((board_rows w.game.board).filter row_filled).length : Int) > 0 := by
      omega
    rw [if_neg hc, if_neg hcount, if_neg hcount]
    have h00 : ((0 : Nat) : Int) = 0 := rfl
    rw [← h00, hrow0, run_ok_bind]
    by_cases he : row_empty (board_row w.game.board 0) = true
    · rw [he]
      simp
    · have he2 : row_empty (board_row w.game.board 0) = false := by simpa using he
      rw [he2]
      simp

/-! ## Shared facts for the statements about whole ticks -/

theorem board_size : (WIDTH * HEIGHT).toNat = 220 := rfl

theorem zero_row_not_filled : row_filled (List.replicate 10 0) = false := by decide

theorem play_ready_drop_ready (g : Game_State) (h : play_ready g) : drop_ready g := by
  obtain ⟨hb, -, hk, h0, h1, hl, hv⟩ := h
  refine ⟨hb, hk, h0, h1, hl, ?_⟩
  rcases hv with hv | hv
  · obtain ⟨b, hcheck, hiff⟩ := check_piece_valid_spec g.piece g.board hk h0 h1 hb
    rw [hv] at hcheck
    injection hcheck with hcheck
    exact pose_fits_inside _ _ (hiff.mp hcheck.symm)
  · obtain ⟨hr, hc, hrot⟩ := hv
    have hp : g.piece = ⟨g.piece.tetrino_index, 0, WIDTH / 2, 0⟩ := by
      cases hpc : g.piece with
      | mk k r c rot =>
        rw [hpc] at hr hc hrot
        dsimp only at hr hc hrot
        subst hr hc hrot
        rfl
    rw [hp]
    exact spawn_pose_inside _ hk

theorem occupied_count_list : ∀ t ∈ TETRINOS, ∀ rot ∈ int_range 4,
    occupied_count t rot = template_count t := by
  decide

/-! ## Runs from states that are only basically well-formed -/

/-- One drop step from any state with a board of the right size and kind and
rotation in range: a fault can only be an out-of-range access, and a step that
returns leaves such a state, with the next drop scheduled after the current time. -/
theorem soft_drop_basic (w : World) (h : basic_ready w.game) :
    (∀ e, soft_drop w = .error e → e = .out_of_range) ∧
    (∀ c w1, soft_drop w = .ok (c, w1) → basic_ready w1.game ∧
      w1.game.lines = w.game.lines ∧ w1.game.time = w.game.time ∧
      w.game.time < w1.game.next_drop_time ∧
      (c = true → w1.game.piece =
          { w.game.piece with offset_row := w.game.piece.offset_row + 1 } ∧
        pose_fits { w.game.piece with offset_row := w.game.piece.offset_row + 1 }
          w.game.board)) := by
  obtain ⟨hb, hk, h0, h1⟩ := h
  by_cases hfit : pose_fits { w.game.piece with offset_row := w.game.piece.offset_row + 1 }
      w.game.board
  · rw [soft_drop_moved w hb hk h0 h1 hfit]
    cases hdt : get_time_to_next_drop w.game.level with
    | error e1 =>
      refine ⟨fun e he => ?_, fun c w1 hc => by cases hc⟩
      injection he with he
      subst he
      exact get_time_to_next_drop_error _ _ hdt
    | ok dt =>
      obtain ⟨-, hpos⟩ := get_time_to_next_drop_pos _ _ hdt
      refine ⟨(fun e he => by cases he), fun c w1 hc => ?_⟩
      rw [run_ok_bind] at hc
      injection hc with hc
      injection hc with hc1 hc2
      subst hc1 hc2
      refine ⟨⟨hb, hk, h0, h1⟩, rfl, rfl, ?_, fun _ => ⟨rfl, hfit⟩⟩
      dsimp only
      linarith
  · rw [soft_drop_locked w hb hk h0 h1 hfit]
    cases hm : merge_piece w.game with
    | error e1 =>
      refine ⟨fun e he => ?_, fun c w1 hc => by cases hc⟩
      injection he with he
      subst he
      exact merge_piece_error _ _ hm
    | ok m =>
      obtain ⟨hmeq, hmlen⟩ := merge_piece_ok_frame _ _ hm
      rw [run_ok_bind]
      cases hs : spawn_piece { w with game := m } with
      | error e1 =>
        refine ⟨fun e he => ?_, fun c w1 hc => by cases hc⟩
        injection he with he
        subst he
        exact spawn_piece_error _ _ hs
      | ok ws =>
        refine ⟨(fun e he => by cases he), fun c w1 hc => ?_⟩
        rw [run_ok_bind] at hc
        injection hc with hc
        injection hc with hc1 hc2
        subst hc1 hc2
        have hlev : 0 ≤ m.level := by
          unfold spawn_piece at hs
          dsimp only at hs
          cases hdt : get_time_to_next_drop m.level with
          | error e2 => rw [hdt] at hs; cases hs
          | ok dt => exact (get_time_to_next_drop_pos _ _ hdt).1
        obtain ⟨dt, hdt, hpos, hspawn⟩ := spawn_piece_spec { w with game := m } hlev
        rw [hspawn] at hs
        injection hs with hs
        subst hs
        have hmod : w.rand 0 % 7 < 7 := Nat.mod_lt _ (by omega)
        refine ⟨⟨by dsimp only; omega, hmod, by dsimp only; omega, by dsimp only; omega⟩,
          ?_, ?_, ?_, fun hc => by cases hc⟩
        · dsimp only
          rw [hmeq]
        · dsimp only
          rw [hmeq]
        · dsimp only
          rw [hmeq]
          dsimp only
          linarith

theorem returns_bind {α β : Type} (x : Run α) (f : α → Run β) (P : α → Prop) (Q : β → Prop)
    (hx : returns_or_range_fault x P)
    (hf : ∀ a, P a → returns_or_range_fault (f a) Q) :
    returns_or_range_fault (x >>= f) Q := by
  cases x with
  | error e =>
    refine ⟨fun e1 he => ?_, fun b hb => by cases hb⟩
    injection he with he
    subst he
    exact hx.1 _ rfl
  | ok a => exact hf a (hx.2 a rfl)

theorem returns_ok {α : Type} (a : α) (Q : α → Prop) (h : Q a) :
    returns_or_range_fault (Except.ok a : Run α) Q := by
  refine ⟨(fun e he => by cases he), fun b hb => ?_⟩
  injection hb with hb
  exact hb ▸ h

theorem returns_weaken {α : Type} (r : Run α) (P Q : α → Prop)
    (h : returns_or_range_fault r P) (hpq : ∀ a, P a → Q a) :
    returns_or_range_fault r Q :=
  ⟨h.1, fun a ha => hpq a (h.2 a ha)⟩

/-- The hard-drop loop from a basically well-formed state, with a budget that covers
the rows between an occupied cell of the piece and the floor. -/
theorem hard_drop_basic_fuel (fuel : Nat) : ∀ w : World, basic_ready w.game → 1 ≤ fuel →
    (∃ (t : Tetrino) (row col : Int) (v : Nat),
      tetrino_at w.game.piece.tetrino_index = .ok t ∧ 0 ≤ row ∧ row < t.side ∧ 0 ≤ col ∧
      col < t.side ∧ tetrino_get t row col w.game.piece.rotation = .ok v ∧ v ≠ 0 ∧
      HEIGHT - (w.game.piece.offset_row + row) ≤ (fuel : Int)) →
    returns_or_range_fault (while_loop soft_drop fuel w) (fun w1 =>
      basic_ready w1.game ∧ w1.game.lines = w.game.lines ∧ w1.game.time = w.game.time ∧
      w.game.time < w1.game.next_drop_time) := by
  induction fuel with
  | zero => intro w _ h1; omega
  | succ f ih =>
    intro w hbasic _ ⟨t, row, col, v, ht, r0, r1, c0, c1, hv, hz, hm⟩
    obtain ⟨herr, hok⟩ := soft_drop_basic w hbasic
    rw [while_loop_succ]
    cases hsd : soft_drop w with
    | error e =>
      refine ⟨fun e1 he => ?_, fun b hb => by cases hb⟩
      injection he with he
      subst he
      exact herr _ hsd
    | ok r =>
      obtain ⟨c, w1⟩ := r
      obtain ⟨hb1, hl1, ht1, hn1, htrue⟩ := hok c w1 hsd
      cases c with
      | false => exact returns_ok _ _ ⟨hb1, hl1, ht1, hn1⟩
      | true =>
        obtain ⟨hpiece, t2, ht2, hall⟩ := htrue rfl
        have ht3 : tetrino_at w.game.piece.tetrino_index = .ok t2 := ht2
        rw [ht] at ht3
        injection ht3 with ht3
        subst ht3
        have hcell := hall row col r0 r1 c0 c1 v hv hz
        have hp1 : HEIGHT - (w.game.piece.offset_row + 1 + row) ≤ (f : Int) := by
          push_cast at hm
          omega
        have hf1 : 1 ≤ f := by
          have := hcell.2.1
          dsimp only at this
          simp only [HEIGHT] at this hp1
          omega
        have hocc : ∃ (t : Tetrino) (row col : Int) (v : Nat),
            tetrino_at w1.game.piece.tetrino_index = .ok t ∧ 0 ≤ row ∧ row < t.side ∧
            0 ≤ col ∧ col < t.side ∧
            tetrino_get t row col w1.game.piece.rotation = .ok v ∧ v ≠ 0 ∧
            HEIGHT - (w1.game.piece.offset_row + row) ≤ (f : Int) := by
          rw [hpiece]
          exact ⟨t, row, col, v, ht, r0, r1, c0, c1, hv, hz, hp1⟩
        refine returns_weaken _ _ _ (ih w1 hb1 hf1 hocc) ?_
        rintro w2 ⟨hb2, hl2, ht2, hn2⟩
        exact ⟨hb2, hl2.trans hl1, ht2.trans ht1, by rw [← ht1]; exact hn2⟩

/-- The hard-drop loop ends within `HEIGHT + 1` evaluations of `soft_drop`, from any
basically well-formed state. -/
theorem hard_drop_basic (w : World) (h : basic_ready w.game) (fuel : Nat) (hf : 23 ≤ fuel) :
    returns_or_range_fault (hard_drop_loop fuel w) (fun w1 =>
      basic_ready w1.game ∧ w1.game.lines = w.game.lines ∧ w1.game.time = w.game.time ∧
      w.game.time < w1.game.next_drop_time) := by
  obtain ⟨f, rfl⟩ : ∃ f, fuel = f + 1 := ⟨fuel - 1, by omega⟩
  obtain ⟨herr, hok⟩ := soft_drop_basic w h
  unfold hard_drop_loop
  rw [while_loop_succ]
  cases hsd : soft_drop w with
  | error e =>
    refine ⟨fun e1 he => ?_, fun b hb => by cases hb⟩
    injection he with he
    subst he
    exact herr _ hsd
  | ok r =>
    obtain ⟨c, w1⟩ := r
    obtain ⟨hb1, hl1, ht1, hn1, htrue⟩ := hok c w1 hsd
    cases c with
    | false => exact returns_ok _ _ ⟨hb1, hl1, ht1, hn1⟩
    | true =>
      obtain ⟨hpiece, t, ht, hall⟩ := htrue rfl
      obtain ⟨hmem, -⟩ := tetrino_at_mem _ _ ht
      obtain ⟨row, hrow, col, hcol, v, hvmem, hget⟩ := tetrino_occupied_list t hmem
        w.game.piece.rotation ((mem_int_range _ _).mpr ⟨h.2.2.1, by have := h.2.2.2; omega⟩)
      rw [mem_int_range] at hrow hcol
      have hz : v ≠ 0 := by
        intro h0
        subst h0
        simp at hvmem
      have hcell := hall row col hrow.1 hrow.2 hcol.1 hcol.2 v hget hz
      have hocc : ∃ (t : Tetrino) (row col : Int) (v : Nat),
          tetrino_at w1.game.piece.tetrino_index = .ok t ∧ 0 ≤ row ∧ row < t.side ∧
          0 ≤ col ∧ col < t.side ∧
          tetrino_get t row col w1.game.piece.rotation = .ok v ∧ v ≠ 0 ∧
          HEIGHT - (w1.game.piece.offset_row + row) ≤ (f : Int) := by
        rw [hpiece]
        refine ⟨t, row, col, v, ht, hrow.1, hrow.2, hcol.1, hcol.2, hget, hz, ?_⟩
        have := hcell.1
        dsimp only at this ⊢
        simp only [HEIGHT]
        omega
      refine returns_weaken _ _ _ (hard_drop_basic_fuel f w1 hb1 (by omega) hocc) ?_
      rintro w2 ⟨hb2, hl2, ht2, hn2⟩
      exact ⟨hb2, hl2.trans hl1, ht2.trans ht1, by rw [← ht1]; exact hn2⟩

/-- The gravity loop ends within two evaluations of its condition, from any basically
well-formed state. -/
theorem gravity_basic (w : World) (h : basic_ready w.game) (fuel : Nat) (hf : 2 ≤ fuel) :
    returns_or_range_fault (while_loop gravity_step fuel w) (fun w1 =>
      basic_ready w1.game ∧ w1.game.lines = w.game.lines ∧ w1.game.time = w.game.time) := by
  obtain ⟨f, rfl⟩ : ∃ f, fuel = f + 2 := ⟨fuel - 2, by omega⟩
  rw [while_loop_succ]
  by_cases hdue : w.game.time ≥ w.game.next_drop_time
  · obtain ⟨herr, hok⟩ := soft_drop_basic w h
    have hstep : gravity_step w = (soft_drop w >>= fun r => pure (true, r.2)) := by
      unfold gravity_step
      rw [if_pos hdue]
    rw [hstep]
    cases hsd : soft_drop w with
    | error e =>
      refine ⟨fun e1 he => ?_, fun b hb => by cases hb⟩
      injection he with he
      subst he
      exact herr _ hsd
    | ok r =>
      obtain ⟨c, w1⟩ := r
      obtain ⟨hb1, hl1, ht1, hn1, -⟩ := hok c w1 hsd
      have hstep1 : gravity_step w1 = .ok (false, w1) := by
        unfold gravity_step
        rw [if_neg (by rw [ht1]; exact not_le.mpr hn1)]
        rfl
      rw [run_ok_bind]
      dsimp only [run_pure]
      rw [while_loop_succ, hstep1]
      exact returns_ok _ _ ⟨hb1, hl1, ht1⟩
  · have hstep : gravity_step w = .ok (false, w) := by
      unfold gravity_step
      rw [if_neg hdue]
      rfl
    rw [hstep]
    exact returns_ok _ _ ⟨h, rfl, rfl⟩

/-- The movement part of a PLAY tick from any basically well-formed state, with a
budget of `HEIGHT + 1`: no loop runs out of budget. -/
theorem play_moves_basic (w : World) (input : Input_State) (fuel : Nat)
    (h : basic_ready w.game) (hf : 23 ≤ fuel) :
    returns_or_range_fault (play_moves fuel w input) (fun w1 =>
      w1.game.board.length = 220 ∧ w1.game.lines = w.game.lines) := by
  have h' := h
  obtain ⟨hb, hk, h0, h1⟩ := h'
  obtain ⟨ck, crow, c0, c1⟩ := candidate_piece_facts w.game.piece input h0 h1
  obtain ⟨b, hcheck, -⟩ := check_piece_valid_spec (candidate_piece w.game.piece input)
    w.game.board (by omega) c0 c1 hb
  unfold play_moves
  dsimp only
  rw [hcheck, run_ok_bind]
  obtain ⟨wa, hwa, hra, hla⟩ : ∃ wa : World,
      (if b = true then
        { w with game := { w.game with piece := candidate_piece w.game.piece input } }
        else w) = wa ∧ basic_ready wa.game ∧ wa.game.lines = w.game.lines := by
    cases b with
    | false => exact ⟨w, if_neg (by decide), h, rfl⟩
    | true =>
      exact ⟨{ w with game := { w.game with piece := candidate_piece w.game.piece input } },
        if_pos rfl, ⟨hb, by dsimp only; omega, c0, c1⟩, rfl⟩
  rw [hwa]
  refine returns_bind _ _ (fun wb => basic_ready wb.game ∧ wb.game.lines = w.game.lines) _
    ?_ (fun wb hwb => returns_bind _ _
      (fun wc => basic_ready wc.game ∧ wc.game.lines = w.game.lines) _ ?_ (fun wc hwc => ?_))
  · by_cases hdd : input.ddown > 0
    · rw [if_pos hdd]
      obtain ⟨herr, hok⟩ := soft_drop_basic wa hra
      refine returns_bind _ _ (fun r => basic_ready r.2.game ∧ r.2.game.lines = w.game.lines)
        _ ⟨herr, fun r hr => ?_⟩ (fun r hr => returns_ok _ _ hr)
      obtain ⟨c, w1⟩ := r
      obtain ⟨hb1, hl1, -⟩ := hok c w1 hr
      exact ⟨hb1, hl1.trans hla⟩
    · rw [if_neg hdd]
      exact returns_ok _ _ ⟨hra, hla⟩
  · by_cases hda : input.da > 0
    · rw [if_pos hda]
      refine returns_weaken _ _ _ (hard_drop_basic wb hwb.1 fuel hf) ?_
      rintro wc ⟨hb1, hl1, -⟩
      exact ⟨hb1, hl1.trans hwb.2⟩
    · rw [if_neg hda]
      exact returns_ok _ _ hwb
  · refine returns_weaken _ _ _ (gravity_basic wc hwc.1 fuel (by omega)) ?_
    rintro wd ⟨hb1, hl1, -⟩
    exact ⟨hb1.1, hl1.trans hwc.2⟩

/-- With the clock arithmetic exact, `update_game_play` ends on every state whose
arrays have their declared sizes and whose piece has a kind in 0..6 and a rotation in
0..3, for every board and clock value: with a budget of `HEIGHT + 1` evaluations per
loop neither the hard-drop loop nor the gravity loop nor the whole tick runs out of
budget (on a pose outside the board the run may stop on the out-of-range write of
`merge_piece` instead), and on a well-formed PLAY state the tick returns a state. The
gravity loop ends here because an exact `time + dt` is above `time`; with the binary32
sums of the program that fails for large clock values, see `gravity_loop_f32_never`. -/
theorem play_tick_loops_end_exact (w : World) (input : Input_State) (fuel : Nat)
    (hb : w.game.board.length = (WIDTH * HEIGHT).toNat)
    (hl : w.game.lines.length = HEIGHT.toNat)
    (hk : w.game.piece.tetrino_index < 7) (h0 : 0 ≤ w.game.piece.rotation)
    (h1 : w.game.piece.rotation ≤ 3) (hf : HEIGHT.toNat + 1 ≤ fuel) :
    hard_drop_loop fuel w ≠ .error .out_of_fuel ∧
    while_loop gravity_step fuel w ≠ .error .out_of_fuel ∧
    update_game_play fuel w input ≠ .error .out_of_fuel ∧
    (play_ready w.game → ∃ w1, update_game_play fuel w input = .ok w1) := by
  have hbasic : basic_ready w.game := ⟨hb, hk, h0, h1⟩
  have hf1 : 23 ≤ fuel := hf
  have hne : ∀ {α : Type} (r : Run α) (Q : α → Prop), returns_or_range_fault r Q →
      r ≠ .error .out_of_fuel := by
    intro α r Q hr heq
    have := hr.1 _ heq
    cases this
  refine ⟨hne _ _ (hard_drop_basic w hbasic fuel hf1),
    hne _ _ (gravity_basic w hbasic fuel (by omega)), ?_, ?_⟩
  · rw [update_game_play_eq]
    refine hne _ (fun _ => True) (returns_bind _ _ _ _
      (play_moves_basic w input fuel hbasic hf1) (fun wm hwm => ?_))
    obtain ⟨lines, -, -, hfin⟩ := play_finish_spec wm hwm.1 (by rw [hwm.2]; exact hl)
    rw [hfin]
    exact returns_ok _ _ trivial
  · intro hready
    obtain ⟨wm, hmoves, hrm, hfm, -⟩ := play_moves_ready w input fuel
      (play_ready_drop_ready _ hready) (by omega)
    obtain ⟨lines, -, -, hfin⟩ := play_finish_spec wm hrm.1
      (by rw [hfm.2.2.2.1]; exact hl)
    exact ⟨_, by rw [update_game_play_eq, hmoves, run_ok_bind, hfin]⟩

/-! ## A larger budget does not change a result -/

theorem while_loop_mono {σ : Type} (step : σ → Run (Bool × σ)) (n : Nat) :
    ∀ (s r : σ), while_loop step n s = .ok r → ∀ m, n ≤ m → while_loop step m s = .ok r := by
  induction n with
  | zero => intro s r h; cases h
  | succ k ih =>
    intro s r h m hm
    obtain ⟨j, rfl⟩ : ∃ j, m = j + 1 := ⟨m - 1, by omega⟩
    rw [while_loop_succ] at h ⊢
    cases hs : step s with
    | error e => rw [hs] at h; cases h
    | ok p =>
      obtain ⟨c, s1⟩ := p
      rw [hs] at h
      cases c with
      | false => exact h
      | true => exact ih s1 r h j (by omega)

theorem bind_ok_inv {α β : Type} (x : Run α) (f : α → Run β) (b : β)
    (h : (x >>= f) = .ok b) : ∃ a, x = .ok a ∧ f a = .ok b := by
  cases x with
  | error e => cases h
  | ok a => exact ⟨a, rfl, h⟩

theorem play_moves_mono (n m : Nat) (hnm : n ≤ m) (w w1 : World) (input : Input_State)
    (h : play_moves n w input = .ok w1) : play_moves m w input = .ok w1 := by
  unfold play_moves at h ⊢
  dsimp only at h ⊢
  obtain ⟨valid, hv, h⟩ := bind_ok_inv _ _ _ h
  rw [hv, run_ok_bind]
  obtain ⟨wb, hwb, h⟩ := bind_ok_inv _ _ _ h
  rw [hwb, run_ok_bind]
  obtain ⟨wc, hwc, h⟩ := bind_ok_inv _ _ _ h
  have hwc2 : (if input.da > 0 then hard_drop_loop m wb else pure wb) = .ok wc := by
    by_cases hda : input.da > 0
    · rw [if_pos hda] at hwc ⊢
      exact while_loop_mono _ n _ _ hwc m hnm
    · rw [if_neg hda] at hwc ⊢
      exact hwc
  rw [hwc2, run_ok_bind]
  exact while_loop_mono _ n _ _ h m hnm

theorem update_game_play_mono (n m : Nat) (hnm : n ≤ m) (w w1 : World) (input : Input_State)
    (h : update_game_play n w input = .ok w1) : update_game_play m w input = .ok w1 := by
  rw [update_game_play_eq] at h ⊢
  obtain ⟨wm, hwm, h⟩ := bind_ok_inv _ _ _ h
  rw [play_moves_mono n m hnm w wm input hwm, run_ok_bind]
  exact h

/-! ## The invariant of the host loop -/

theorem zero_board_rows (b : List Nat) (h : ∀ j, j < 220 → b.getD j 0 = 0) :
    (board_rows b).filter row_filled = [] := by
  rw [List.filter_eq_nil_iff]
  intro r hr
  simp only [board_rows, List.mem_map, List.mem_range, HEIGHT_toNat] at hr
  obtain ⟨k, hk, rfl⟩ := hr
  have hrow : board_row b k = List.replicate 10 0 := by
    rw [board_row_eq]
    have : List.replicate 10 0 = (List.range 10).map (fun _ => 0) := rfl
    rw [this]
    apply List.map_congr_left
    intro c hc
    have hc1 := List.mem_range.mp hc
    exact h _ (by omega)
  rw [hrow, zero_row_not_filled]
  decide

theorem cleared_rows_not_filled (b : List Nat) (z : Nat) (rows : List (List Nat))
    (h : board_rows b = List.replicate z (List.replicate 10 0) ++
      rows.filter (fun r => !row_filled r)) :
    (board_rows b).filter row_filled = [] := by
  rw [h, List.filter_append, List.append_eq_nil]
  constructor
  · rw [List.filter_eq_nil_iff]
    intro r hr
    rw [List.eq_of_mem_replicate hr, zero_row_not_filled]
    decide
  · rw [List.filter_eq_nil_iff]
    intro r hr
    have := (List.mem_filter.mp hr).2
    simpa using this

theorem at_spawn_eq (piece : Piece_State) (h : at_spawn piece) :
    piece = ⟨piece.tetrino_index, 0, WIDTH / 2, 0⟩ := by
  obtain ⟨hr, hc, hrot⟩ := h
  cases piece with
  | mk k r c rot =>
    dsimp only at hr hc hrot
    subst hr hc hrot
    rfl

theorem tick_inv_drop_ready (g : Game_State) (h : tick_inv g) (hp : g.phase = GAME_PHASE_PLAY) :
    drop_ready g := by
  obtain ⟨hb, hl, hk, hlev, hsl, hplay, -⟩ := h
  obtain ⟨h0, h1, -, hv⟩ := hplay hp
  refine ⟨hb, hk, h0, h1, hlev, ?_⟩
  rcases hv with hv | hv
  · exact pose_fits_inside _ _ hv
  · rw [at_spawn_eq _ hv]
    exact spawn_pose_inside _ hk

theorem tick_inv_play (fuel : Nat) (w w1 : World) (input : Input_State)
    (hinv : tick_inv w.game) (hp : w.game.phase = GAME_PHASE_PLAY)
    (hrun : update_game_play fuel w input = .ok w1) : tick_inv w1.game := by
  have hrun2 := update_game_play_mono fuel (max fuel 22) (le_max_left _ _) w w1 input hrun
  obtain ⟨wm, hmoves, hrm, hfm, hpost⟩ := play_moves_ready w input (max fuel 22)
    (tick_inv_drop_ready _ hinv hp) (le_max_right _ _)
  obtain ⟨hb, hl, hk, hlev, hsl, hplay, -⟩ := hinv
  obtain ⟨h0, h1, hnofull, hv⟩ := hplay hp
  obtain ⟨lines, hlen, hget, hfin⟩ := play_finish_spec wm hrm.1 (by rw [hfm.2.2.2.1]; exact hl)
  rw [update_game_play_eq, hmoves, run_ok_bind, hfin] at hrun2
  injection hrun2 with hrun2
  subst hrun2
  obtain ⟨hbm, hkm, h0m, h1m, hlm, hinm⟩ := hrm
  refine ⟨hbm, hlen, hkm, hlm, by rw [hfm.2.2.1]; exact hsl, ?_, ?_⟩
  · intro hphase
    dsimp only at hphase ⊢
    have hcount : ¬ 0 < ((board_rows wm.game.board).filter row_filled).length := by
      intro hpos
      rw [if_pos hpos] at hphase
      split at hphase <;> cases hphase
    refine ⟨h0m, h1m, List.length_eq_zero.mp (by omega), ?_⟩
    rcases hpost with ⟨hboard, hfit | hsame⟩ | hsp
    · left
      rw [hboard]
      exact hfit
    · rw [hsame, hboard]
      exact hv
    · exact Or.inr hsp
  · intro hphase
    dsimp only at hphase ⊢
    have hcount : 0 < ((board_rows wm.game.board).filter row_filled).length := by
      by_contra hno
      rw [if_neg hno, hfm.2.2.2.2.1, hp] at hphase
      split at hphase <;> cases hphase
    refine ⟨?_, hget⟩
    rcases hpost with ⟨hboard, -⟩ | hsp
    · rw [hboard, hnofull] at hcount
      simp at hcount
    · exact hsp

theorem tick_inv_line (w w1 : World) (hinv : tick_inv w.game)
    (hp : w.game.phase = GAME_PHASE_LINE) (hrun : update_game_line w = .ok w1) :
    tick_inv w1.game := by
  have hinv' := hinv
  obtain ⟨hb, hl, hk, hlev, hsl, -, hline⟩ := hinv'
  obtain ⟨hsp, hrec⟩ := hline hp
  unfold update_game_line at hrun
  dsimp only at hrun
  by_cases hdue : w.game.time ≥ w.game.highlight_end_time
  · rw [if_pos hdue] at hrun
    obtain ⟨b1, z, hclear, hlen1, hrows⟩ := clear_lines_spec w.game.board w.game.lines hb hl hrec
    rw [hclear, run_ok_bind] at hrun
    obtain ⟨a1, a2, a3⟩ := hsp
    split at hrun
    · injection hrun with hrun
      subst hrun
      exact ⟨hlen1, hl, hk, by dsimp only; omega, hsl,
        fun _ => ⟨by dsimp only; omega, by dsimp only; omega,
          cleared_rows_not_filled _ z _ hrows, Or.inr ⟨a1, a2, a3⟩⟩,
        fun h => by cases h⟩
    · injection hrun with hrun
      subst hrun
      exact ⟨hlen1, hl, hk, hlev, hsl,
        fun _ => ⟨by dsimp only; omega, by dsimp only; omega,
          cleared_rows_not_filled _ z _ hrows, Or.inr ⟨a1, a2, a3⟩⟩,
        fun h => by cases h⟩
  · rw [if_neg hdue] at hrun
    injection hrun with hrun
    subst hrun
    exact hinv

theorem tick_inv_gameover (w w1 : World) (input : Input_State) (hinv : tick_inv w.game)
    (hrun : update_game_gameover w input = .ok w1) :
    tick_inv w1.game := by
  unfold update_game_gameover at hrun
  split at hrun
  · injection hrun with hrun
    subst hrun
    obtain ⟨hb, hl, hk, hlev, hsl, -, -⟩ := hinv
    exact ⟨hb, hl, hk, hlev, hsl, (fun h => by cases h), (fun h => by cases h)⟩
  · injection hrun with hrun
    subst hrun
    exact hinv

theorem tick_inv_start (w w1 : World) (input : Input_State) (hinv : tick_inv w.game)
    (hp : w.game.phase = GAME_PHASE_START) (hrun : update_game_start w input = .ok w1) :
    tick_inv w1.game := by
  obtain ⟨hb, hl, hk, hlev, hsl, -, -⟩ := hinv
  unfold update_game_start at hrun
  dsimp only at hrun
  -- the start level after the two adjustments
  obtain ⟨g1, hg1, hb1, hl1, hk1, hlev1, hsl1, hp1⟩ : ∃ g1 : Game_State,
      (if input.ddown > 0 ∧
          (if input.dup > 0 then { w.game with start_level := w.game.start_level + 1 }
            else w.game).start_level > 0
        then { (if input.dup > 0 then { w.game with start_level := w.game.start_level + 1 }
            else w.game) with
          start_level := (if input.dup > 0
            then { w.game with start_level := w.game.start_level + 1 }
            else w.game).start_level - 1 }
        else (if input.dup > 0 then { w.game with start_level := w.game.start_level + 1 }
            else w.game)) = g1 ∧
      g1.board.length = 220 ∧ g1.lines.length = 22 ∧ g1.piece.tetrino_index < 7 ∧
      0 ≤ g1.level ∧ 0 ≤ g1.start_level ∧ g1.phase = GAME_PHASE_START := by
    by_cases hdup : input.dup > 0
    · rw [if_pos hdup]
      by_cases hdd : input.ddown > 0 ∧ w.game.start_level + 1 > 0
      · rw [if_pos hdd]
        exact ⟨_, rfl, hb, hl, hk, hlev, by dsimp only; omega, hp⟩
      · rw [if_neg hdd]
        exact ⟨_, rfl, hb, hl, hk, hlev, by dsimp only; omega, hp⟩
    · rw [if_neg hdup]
      by_cases hdd : input.ddown > 0 ∧ w.game.start_level > 0
      · rw [if_pos hdd]
        exact ⟨_, rfl, hb, hl, hk, hlev, by dsimp only; omega, hp⟩
      · rw [if_neg hdd]
        exact ⟨_, rfl, hb, hl, hk, hlev, hsl, hp⟩
  rw [hg1] at hrun
  by_cases hda : input.da > 0
  · rw [if_pos hda] at hrun
    have e0 : (0 : Int) = ((0 : Nat) : Int) := rfl
    have e1 : WIDTH * HEIGHT = ((220 : Nat) : Int) := rfl
    rw [e0, e1] at hrun
    obtain ⟨b1, hms, hlen1, hget⟩ := memset_spec g1.board 0 220 0 (by omega)
    rw [hms, run_ok_bind] at hrun
    obtain ⟨ws, hws, hrun⟩ := bind_ok_inv _ _ _ hrun
    obtain ⟨dt, -, -, hspawn⟩ := spawn_piece_spec
      { w with game := { g1 with board := b1, level := g1.start_level, line_count := 0,
                                 points := 0 } } hsl1
    have hws2 : spawn_piece
        { w with game := { g1 with board := b1, level := g1.start_level, line_count := 0,
                                   points := 0 } } = .ok ws := hws
    rw [hspawn] at hws2
    injection hws2 with hws2
    subst hws2
    injection hrun with hrun
    subst hrun
    have hmod : w.rand 0 % 7 < 7 := Nat.mod_lt _ (by omega)
    refine ⟨by dsimp only; omega, hl1, hmod, hsl1, hsl1, ?_, (fun h => by cases h)⟩
    intro _
    dsimp only
    refine ⟨le_refl _, by omega, ?_, Or.inr ⟨rfl, rfl, rfl⟩⟩
    apply zero_board_rows
    intro j hj
    rw [hget j, if_pos (by omega)]
  · rw [if_neg hda] at hrun
    injection hrun with hrun
    subst hrun
    exact ⟨hb1, hl1, hk1, hlev1, hsl1, (fun h => by rw [hp1] at h; cases h),
      (fun h => by rw [hp1] at h; cases h)⟩

theorem tick_inv_update_game (fuel : Nat) (w w1 : World) (input : Input_State)
    (hinv : tick_inv w.game) (hrun : update_game fuel w input = .ok w1) :
    tick_inv w1.game := by
  unfold update_game at hrun
  split at hrun
  · injection hrun with hrun
    subst hrun
    exact hinv
  · cases hph : w.game.phase with
    | GAME_PHASE_START =>
      rw [hph] at hrun
      exact tick_inv_start w w1 input hinv hph hrun
    | GAME_PHASE_PLAY =>
      rw [hph] at hrun
      exact tick_inv_play fuel w w1 input hinv hph hrun
    | GAME_PHASE_LINE =>
      rw [hph] at hrun
      exact tick_inv_line w w1 hinv hph hrun
    | GAME_PHASE_GAMEOVER =>
      rw [hph] at hrun
      exact tick_inv_gameover w w1 input hinv hrun

theorem tick_inv_host_tick (fuel : Nat) (w w1 : World) (time : ℚ) (toggle_pause : Bool)
    (input : Input_State) (hinv : tick_inv w.game)
    (hrun : host_tick fuel w time toggle_pause input = .ok w1) : tick_inv w1.game := by
  unfold host_tick at hrun
  dsimp only at hrun
  refine tick_inv_update_game fuel _ w1 input ?_ hrun
  cases toggle_pause <;> exact hinv

theorem tick_inv_initial (rand : Nat → Nat) (w : World) (h : initial_world rand = .ok w) :
    tick_inv w.game := by
  unfold initial_world at h
  dsimp only at h
  obtain ⟨ws, hws, h⟩ := bind_ok_inv _ _ _ h
  obtain ⟨dt, -, -, hspawn⟩ := spawn_piece_spec
    { game :=
        { board := List.replicate (WIDTH * HEIGHT).toNat 0,
          lines := List.replicate HEIGHT.toNat 0,
          pending_line_count := 0, piece := ⟨0, 0, 0, 0⟩, phase := GAME_PHASE_START,
          paused := false, start_level := 0, level := 0, line_count := 0, points := 0,
          next_drop_time := 0, highlight_end_time := 0, time := 0 },
      rand := rand } (le_refl _)
  rw [hspawn] at hws
  injection hws with hws
  subst hws
  injection h with h
  subst h
  have hlen : ∀ n : Nat, (List.replicate n 0).length = n := fun n => List.length_replicate _ _
  exact ⟨hlen 220, hlen 22, (by show 2 < 7; omega), le_refl _, le_refl _,
    (fun h => by cases h), (fun h => by cases h)⟩

/-- Every state the host loop reaches satisfies the tick invariant. -/
theorem reachable_tick_inv (w : World) (h : Reachable w) : tick_inv w.game := by
  induction h with
  | init rand w h => exact tick_inv_initial rand w h
  | tick w w1 fuel time toggle_pause input _ _ hrun ih =>
    exact tick_inv_host_tick fuel w w1 time toggle_pause input ih hrun

theorem reachable_run_ticks (fuel : Nat) (steps : List (ℚ × Input_State)) :
    ∀ w w1 : World, Reachable w → run_ticks fuel w steps = some w1 → Reachable w1 := by
  induction steps with
  | nil =>
    intro w w1 hr h
    injection h with h
    exact h ▸ hr
  | cons step rest ih =>
    intro w w1 hr h
    obtain ⟨time, input⟩ := step
    unfold run_ticks at h
    split at h
    · rename_i hle
      cases hrun : host_tick fuel w time false input with
      | error e => rw [hrun] at h; cases h
      | ok w2 =>
        rw [hrun] at h
        exact ih w2 w1 (Reachable.tick w w2 fuel time false input hr hle hrun) h
    · cases h

theorem reachable_run_from_start (rand : Nat → Nat) (fuel : Nat)
    (steps : List (ℚ × Input_State)) (w : World)
    (h : run_from_start rand fuel steps = some w) : Reachable w := by
  unfold run_from_start at h
  cases h0 : initial_world rand with
  | error e => rw [h0] at h; cases h
  | ok w0 =>
    rw [h0] at h
    exact reachable_run_ticks fuel steps w0 w (Reachable.init rand w0 h0) h

/-! ## Scoring, thresholds, drop interval, pause -/

/-- The table entry behind the drop interval of a level: the lookup of
`get_time_to_next_drop`, levels above 29 reading entry 29. -/
theorem get_time_to_next_drop_frames (level : Int) (h : 0 ≤ level) :
    ∃ frames : Nat, array_get FRAMES_PER_DROP (if level > 29 then 29 else level) = .ok frames ∧
      frames = FRAMES_PER_DROP.getD (min level 29).toNat 0 ∧
      get_time_to_next_drop level = .ok ((frames : ℚ) * TARGET_SECONDS_PER_FRAME) := by
  have hlen : (FRAMES_PER_DROP.length : Int) = 30 := rfl
  have hidx : 0 ≤ (if level > 29 then 29 else level) ∧
      (if level > 29 then 29 else level) < 30 := by
    split <;> omega
  have hmin : (if level > 29 then 29 else level) = min level 29 := by
    split <;> omega
  have hget := array_get_ok FRAMES_PER_DROP _ hidx.1 (by rw [hlen]; exact hidx.2)
  refine ⟨_, hget, by rw [hmin], ?_⟩
  unfold get_time_to_next_drop
  dsimp only
  rw [hget, run_ok_bind]
  rfl

theorem frames_monotone_list : ∀ i ∈ List.range 30, ∀ j ∈ List.range 30, i ≤ j →
    FRAMES_PER_DROP.getD j 0 ≤ FRAMES_PER_DROP.getD i 0 := by
  decide

/-- A result that fits in 32 bits is stored as it is. -/
theorem int_wrap_id (x : Int) (h0 : -2147483648 ≤ x) (h1 : x ≤ 2147483647) :
    int_wrap x = x := by
  unfold int_wrap
  omega

/-! ## The LINE phase -/

/-- The skipping loop of `clear_lines` ends within its budget whatever the row
record holds. -/
theorem clear_lines_skip_total (lines : List Nat) (hl : lines.length = 22) (m : Nat)
    (hm : m ≤ 22) :
    ∃ m1 : Nat, while_loop (clear_lines_skip lines) (((m : Int) - 1) + 2).toNat ((m : Int) - 1)
        = .ok ((m1 : Int) - 1) ∧ m1 ≤ m := by
  induction m with
  | zero =>
    refine ⟨0, ?_, le_refl _⟩
    have h1 : ((((0 : Nat) : Int) - 1) + 2).toNat = 0 + 1 := by omega
    rw [h1]
    simp [while_loop, clear_lines_skip]
  | succ k ih =>
    have h1 : ((((k + 1 : Nat) : Int) - 1) + 2).toNat = (k + 1) + 1 := by omega
    have h2 : (((k + 1 : Nat) : Int) - 1) = (k : Int) := by omega
    rw [h1, h2]
    have hget : array_get lines (k : Int) = .ok (lines.getD k 0) := by
      have := array_get_ok lines (k : Int) (by omega) (by omega)
      simpa using this
    have hstep : clear_lines_skip lines (k : Int) =
        if lines.getD k 0 ≠ 0 then .ok (true, (k : Int) - 1) else .ok (false, (k : Int)) := by
      unfold clear_lines_skip
      rw [if_pos (by omega), hget, run_ok_bind]
      rfl
    by_cases hf : lines.getD k 0 ≠ 0
    · obtain ⟨m1, hm1, hle⟩ := ih (by omega)
      have h3 : (((k : Int) - 1) + 2).toNat = k + 1 := by omega
      rw [h3] at hm1
      refine ⟨m1, ?_, by omega⟩
      rw [while_loop, hstep, if_pos hf]
      simpa using hm1
    · refine ⟨k + 1, ?_, le_refl _⟩
      rw [while_loop, hstep, if_neg hf]
      simp

/-- One pass of the `dst_row` loop of `clear_lines` returns, with a board of the same
size and the source cursor above the next destination row. -/
theorem clear_lines_row_total (lines cur : List Nat) (hl : lines.length = 22)
    (k m : Nat) (hk : k < 22) (hlen : cur.length = 220) (hm : m ≤ k + 1) :
    ∃ (cur1 : List Nat) (m1 : Nat),
      clear_lines_row WIDTH lines (cur, (m : Int) - 1) (k : Int) = .ok (cur1, (m1 : Int) - 1) ∧
      cur1.length = 220 ∧ m1 ≤ k := by
  obtain ⟨m1, hw, hle⟩ := clear_lines_skip_total lines hl m (by omega)
  unfold clear_lines_row
  dsimp only
  rw [hw, run_ok_bind]
  have e1 : (k : Int) * WIDTH = ((k * 10 : Nat) : Int) := by simp [WIDTH]
  have e2 : WIDTH = ((10 : Nat) : Int) := rfl
  by_cases hm1 : m1 = 0
  · subst hm1
    rw [if_pos (by omega), e1, e2]
    obtain ⟨cur1, hms, hlen1, -⟩ := memset_spec cur (k * 10) 10 0 (by omega)
    rw [hms, run_ok_bind]
    exact ⟨cur1, 0, rfl, by omega, by omega⟩
  · rw [if_neg (by omega)]
    have h5 : (m1 : Int) - 1 - 1 = ((m1 - 1 : Nat) : Int) - 1 := by omega
    by_cases hsk : m1 - 1 = k
    · have h4 : ¬ ((m1 : Int) - 1 ≠ (k : Int)) := by omega
      rw [if_neg h4]
      refine ⟨cur, m1 - 1, ?_, hlen, by omega⟩
      simp only [run_pure, run_ok_bind]
      rw [h5]
    · have h4 : (m1 : Int) - 1 ≠ (k : Int) := by omega
      rw [if_pos h4, e1]
      have e3 : ((m1 : Int) - 1) * WIDTH = (((m1 - 1) * 10 : Nat) : Int) := by
        simp only [WIDTH]; omega
      rw [e3, e2]
      obtain ⟨cur1, hmc, hlen1, -⟩ := memcpy_spec cur (k * 10) ((m1 - 1) * 10) 10
        (by omega) (by omega) (by omega)
      rw [hmc, run_ok_bind]
      refine ⟨cur1, m1 - 1, ?_, by omega, by omega⟩
      simp only [run_pure]
      rw [h5]

/-- On a board and a row record of the declared sizes `clear_lines` returns a board of
the same size, whatever the record holds. -/
theorem clear_lines_total (board lines : List Nat) (hlen : board.length = 220)
    (hl : lines.length = 22) :
    ∃ b1 : List Nat, clear_lines board WIDTH HEIGHT lines = .ok b1 ∧ b1.length = 220 := by
  obtain ⟨st, hst, hlen1, -⟩ := foldlM_range_rev_inv
    (clear_lines_row WIDTH lines)
    (fun n st => st.1.length = 220 ∧ ∃ m : Nat, st.2 = (m : Int) - 1 ∧ m ≤ n)
    22 (board, HEIGHT - 1)
    ⟨hlen, 22, rfl, le_refl _⟩
    (fun k st hk hI => by
      obtain ⟨hlen1, m, hs, hm⟩ := hI
      obtain ⟨cur1, m1, hrun, h1, h2⟩ :=
        clear_lines_row_total lines st.1 hl k m hk hlen1 (by omega)
      have hst : st = (st.1, (m : Int) - 1) := by rw [← hs]
      rw [hst, hrun]
      exact ⟨_, rfl, h1, m1, rfl, h2⟩)
  refine ⟨st.1, ?_, hlen1⟩
  unfold clear_lines
  have h22 : HEIGHT = ((22 : Nat) : Int) := rfl
  rw [h22]
  rw [h22] at hst
  rw [hst, run_ok_bind]
  rfl

/-- What `update_game_line` returns once the highlight is over, in terms of the board
that `clear_lines` returns. -/
theorem update_game_line_due (w : World) (board1 : List Nat)
    (hclear : clear_lines w.game.board WIDTH HEIGHT w.game.lines = .ok board1)
    (hdue : w.game.highlight_end_time ≤ w.game.time) :
    update_game_line w = .ok { w with game := { w.game with
      board := board1
      line_count := w.game.line_count + w.game.pending_line_count
      points := w.game.points + compute_points w.game.level w.game.pending_line_count
      level := if w.game.line_count + w.game.pending_line_count ≥
          get_lines_for_next_level w.game.start_level w.game.level
        then w.game.level + 1 else w.game.level
      phase := GAME_PHASE_PLAY } } := by
  unfold update_game_line
  dsimp only
  rw [if_pos hdue, hclear, run_ok_bind]
  split <;> rfl

theorem update_game_line_wait (w : World) (hwait : w.game.time < w.game.highlight_end_time) :
    update_game_line w = .ok w := by
  unfold update_game_line
  dsimp only
  rw [if_neg (not_le.mpr hwait)]
  rfl

/-! ## The START phase -/

/-- The two start-level keys of `update_game_start` change the start level only. -/
theorem start_adjust (g : Game_State) (input : Input_State) :
    (if input.ddown > 0 ∧
        (if input.dup > 0 then { g with start_level := g.start_level + 1 }
          else g).start_level > 0
      then { (if input.dup > 0 then { g with start_level := g.start_level + 1 }
          else g) with
        start_level := (if input.dup > 0
          then { g with start_level := g.start_level + 1 }
          else g).start_level - 1 }
      else (if input.dup > 0 then { g with start_level := g.start_level + 1 }
          else g)) =
    { g with start_level :=
        (if input.ddown > 0 ∧
            (if input.dup > 0 then g.start_level + 1 else g.start_level) > 0
          then (if input.dup > 0 then g.start_level + 1 else g.start_level) - 1
          else (if input.dup > 0 then g.start_level + 1 else g.start_level)) } := by
  by_cases hdup : input.dup > 0
  · rw [if_pos hdup, if_pos hdup]
    by_cases hdd : input.ddown > 0 ∧ g.start_level + 1 > 0
    · rw [if_pos hdd, if_pos hdd]
    · rw [if_neg hdd, if_neg hdd]
  · rw [if_neg hdup, if_neg hdup]
    by_cases hdd : input.ddown > 0 ∧ g.start_level > 0
    · rw [if_pos hdd, if_pos hdd]
    · rw [if_neg hdd, if_neg hdd]

theorem getD_replicate_zero (n i : Nat) : (List.replicate n 0).getD i 0 = 0 := by
  rw [List.getD_eq_getElem?_getD, List.getElem?_replicate]
  split <;> rfl

theorem cell_empty_board (R C : Int) : cell empty_board R C = 0 :=
  getD_replicate_zero 220 _

/-! ## The edges of the phase machine -/

theorem spawn_piece_ok_phase (w w1 : World) (h : spawn_piece w = .ok w1) :
    w1.game.phase = w.game.phase := by
  unfold spawn_piece at h
  dsimp only at h
  cases hg : get_time_to_next_drop w.game.level with
  | error e => rw [hg] at h; cases h
  | ok dt =>
    rw [hg, run_ok_bind] at h
    injection h with h
    subst h
    rfl

/-- A call of `soft_drop` that returns leaves the phase as it was, in whatever state
it was made. -/
theorem soft_drop_ok_phase (w w1 : World) (c : Bool) (h : soft_drop w = .ok (c, w1)) :
    w1.game.phase = w.game.phase := by
  unfold soft_drop at h
  dsimp only at h
  obtain ⟨valid, hv, h⟩ := bind_ok_inv _ _ _ h
  cases valid with
  | false =>
    rw [if_pos (show (!false) = true from rfl)] at h
    obtain ⟨g1, hm, h⟩ := bind_ok_inv _ _ _ h
    obtain ⟨ws, hs, h⟩ := bind_ok_inv _ _ _ h
    injection h with h
    injection h with hc hw
    subst hw
    rw [spawn_piece_ok_phase _ _ hs]
    obtain ⟨hg1, -⟩ := merge_piece_ok_frame _ _ hm
    show g1.phase = _
    rw [hg1]
  | true =>
    rw [if_neg (show ¬ ((!true) = true) by decide)] at h
    obtain ⟨dt, hdt, h⟩ := bind_ok_inv _ _ _ h
    injection h with h
    injection h with hc hw
    subst hw
    rfl

/-- What holds before a `while` loop and is kept by every pass that returns holds for
the state the loop returns. -/
theorem while_loop_ok_inv {σ : Type} (step : σ → Run (Bool × σ)) (P : σ → Prop)
    (hstep : ∀ s c s1, P s → step s = .ok (c, s1) → P s1) (n : Nat) :
    ∀ s r, P s → while_loop step n s = .ok r → P r := by
  induction n with
  | zero => intro s r _ h; cases h
  | succ k ih =>
    intro s r hP h
    rw [while_loop_succ] at h
    cases hs : step s with
    | error e => rw [hs] at h; cases h
    | ok p =>
      obtain ⟨c, s1⟩ := p
      rw [hs] at h
      have hP1 := hstep s c s1 hP hs
      cases c with
      | false =>
        injection h with h
        exact h ▸ hP1
      | true => exact ih s1 r hP1 h

theorem gravity_step_ok_phase (w w1 : World) (c : Bool) (h : gravity_step w = .ok (c, w1)) :
    w1.game.phase = w.game.phase := by
  unfold gravity_step at h
  by_cases hdue : w.game.time ≥ w.game.next_drop_time
  · rw [if_pos hdue] at h
    obtain ⟨r, hr, h⟩ := bind_ok_inv _ _ _ h
    injection h with h
    injection h with hc hw
    subst hw
    exact soft_drop_ok_phase w r.2 r.1 hr
  · rw [if_neg hdue] at h
    injection h with h
    injection h with hc hw
    subst hw
    rfl

/-- The moves of a PLAY tick, when they return, leave the phase as it was. -/
theorem play_moves_ok_phase (fuel : Nat) (w w1 : World) (input : Input_State)
    (h : play_moves fuel w input = .ok w1) : w1.game.phase = w.game.phase := by
  unfold play_moves at h
  dsimp only at h
  obtain ⟨valid, hv, h⟩ := bind_ok_inv _ _ _ h
  obtain ⟨wb, hwb, h⟩ := bind_ok_inv _ _ _ h
  obtain ⟨wc, hwc, h⟩ := bind_ok_inv _ _ _ h
  have ha : (if valid = true
      then { w with game := { w.game with piece := candidate_piece w.game.piece input } }
      else w).game.phase = w.game.phase := by
    split <;> rfl
  have hb : wb.game.phase = w.game.phase := by
    rw [← ha]
    by_cases hdd : input.ddown > 0
    · rw [if_pos hdd] at hwb
      obtain ⟨r, hr, hwb⟩ := bind_ok_inv _ _ _ hwb
      injection hwb with hwb
      subst hwb
      exact soft_drop_ok_phase _ r.2 r.1 hr
    · rw [if_neg hdd] at hwb
      injection hwb with hwb
      subst hwb
      rfl
  have hc : wc.game.phase = wb.game.phase := by
    by_cases hda : input.da > 0
    · rw [if_pos hda] at hwc
      exact while_loop_ok_inv soft_drop (fun s => s.game.phase = wb.game.phase)
        (fun s c s1 hP hs => (soft_drop_ok_phase s s1 c hs).trans hP) fuel wb wc rfl hwc
    · rw [if_neg hda] at hwc
      injection hwc with hwc
      subst hwc
      rfl
  have hd : w1.game.phase = wc.game.phase :=
    while_loop_ok_inv gravity_step (fun s => s.game.phase = wc.game.phase)
      (fun s c s1 hP hs => (gravity_step_ok_phase s s1 c hs).trans hP) fuel wc w1 rfl h
  rw [hd, hc, hb]

/-- The end of a PLAY tick, when it returns, leaves the phase as it was or sets it to
LINE or to GAMEOVER. -/
theorem play_finish_ok_phase (w w1 : World) (h : play_finish w = .ok w1) :
    w1.game.phase = w.game.phase ∨ w1.game.phase = GAME_PHASE_LINE ∨
      w1.game.phase = GAME_PHASE_GAMEOVER := by
  unfold play_finish at h
  dsimp only at h
  obtain ⟨found, hf, h⟩ := bind_ok_inv _ _ _ h
  obtain ⟨empty, he, h⟩ := bind_ok_inv _ _ _ h
  injection h with h
  subst h
  dsimp only
  by_cases h0 : empty = 0
  · rw [if_pos h0]
    exact Or.inr (Or.inr rfl)
  · rw [if_neg h0]
    by_cases hp : found.2 > 0
    · rw [if_pos hp]
      exact Or.inr (Or.inl rfl)
    · rw [if_neg hp]
      exact Or.inl rfl

/-- A START tick that returns leaves the phase as it was or, with the action key just
pressed, sets it to PLAY. -/
theorem update_game_start_ok_phase (w w1 : World) (input : Input_State)
    (h : update_game_start w input = .ok w1) :
    w1.game.phase = w.game.phase ∨ (w1.game.phase = GAME_PHASE_PLAY ∧ input.da > 0) := by
  unfold update_game_start at h
  dsimp only at h
  rw [start_adjust w.game input] at h
  by_cases hda : input.da > 0
  · rw [if_pos hda] at h
    obtain ⟨b1, hb1, h⟩ := bind_ok_inv _ _ _ h
    obtain ⟨ws, hws, h⟩ := bind_ok_inv _ _ _ h
    injection h with h
    subst h
    exact Or.inr ⟨rfl, hda⟩
  · rw [if_neg hda] at h
    injection h with h
    subst h
    exact Or.inl rfl

/-- A LINE tick that returns leaves the state as it was or, once the highlight is
over, sets the phase to PLAY. -/
theorem update_game_line_ok_phase (w w1 : World) (h : update_game_line w = .ok w1) :
    w1 = w ∨ (w1.game.phase = GAME_PHASE_PLAY ∧ w.game.highlight_end_time ≤ w.game.time) := by
  by_cases hdue : w.game.highlight_end_time ≤ w.game.time
  · have h2 := h
    unfold update_game_line at h2
    dsimp only at h2
    rw [if_pos hdue] at h2
    obtain ⟨board1, hclear, -⟩ := bind_ok_inv _ _ _ h2
    rw [update_game_line_due w board1 hclear hdue] at h
    injection h with h
    subst h
    exact Or.inr ⟨rfl, hdue⟩
  · rw [update_game_line_wait w (not_le.mp hdue)] at h
    injection h with h
    exact Or.inl h.symm

/-- In the GAMEOVER phase, not paused, `update_game` returns: the state as it was, or
with the action key just pressed the state with the phase set to START. -/
theorem update_game_gameover_total (fuel : Nat) (w : World) (input : Input_State)
    (hphase : w.game.phase = GAME_PHASE_GAMEOVER) (hp : w.game.paused = false) :
    update_game fuel w input = .ok (if input.da > 0
      then { w with game := { w.game with phase := GAME_PHASE_START } } else w) := by
  unfold update_game
  rw [hp, hphase]
  show update_game_gameover w input = _
  unfold update_game_gameover
  split <;> rfl

/-! ## The values `merge_piece` stores -/

/-- In every rotation, a local cell of the template of kind `k` holds 0 or `k + 1`. -/
theorem tetrino_value_list : ∀ k ∈ List.range 7,
    ∀ row ∈ int_range (TETRINOS.getD k ⟨[], 0⟩).side,
    ∀ col ∈ int_range (TETRINOS.getD k ⟨[], 0⟩).side, ∀ rot ∈ int_range 4,
      tetrino_get (TETRINOS.getD k ⟨[], 0⟩) row col rot = .ok 0 ∨
      tetrino_get (TETRINOS.getD k ⟨[], 0⟩) row col rot = .ok (k + 1) := by
  decide

theorem tetrino_at_getD (index : Nat) (t : Tetrino) (h : tetrino_at index = .ok t) :
    t = TETRINOS.getD index ⟨[], 0⟩ := by
  unfold tetrino_at at h
  rw [List.get?_eq_getElem?] at h
  rw [List.getD_eq_getElem?_getD]
  cases hg : TETRINOS[index]? with
  | none => rw [hg] at h; cases h
  | some t1 =>
    rw [hg] at h
    injection h with h
    subst h
    rfl

/-- A sampled value of the piece of kind `index` that is not 0 is `index + 1`. -/
theorem tetrino_get_value (index : Nat) (t : Tetrino) (ht : tetrino_at index = .ok t)
    (row col rot : Int) (hr0 : 0 ≤ row) (hr1 : row < t.side) (hc0 : 0 ≤ col)
    (hc1 : col < t.side) (h0 : 0 ≤ rot) (h1 : rot ≤ 3) (v : Nat)
    (hv : tetrino_get t row col rot = .ok v) (hz : v ≠ 0) : v = index + 1 := by
  obtain ⟨-, hk⟩ := tetrino_at_mem index t ht
  have ht2 := tetrino_at_getD index t ht
  subst ht2
  rcases tetrino_value_list index (List.mem_range.mpr hk) row
    ((mem_int_range _ _).mpr ⟨hr0, hr1⟩) col ((mem_int_range _ _).mpr ⟨hc0, hc1⟩) rot
    ((mem_int_range _ _).mpr ⟨h0, by omega⟩) with h | h
  · rw [h] at hv
    injection hv with hv
    exact absurd hv.symm hz
  · rw [h] at hv
    injection hv with hv
    exact hv.symm

/-! ## Dropping a fresh piece to the floor of the empty board -/

set_option maxRecDepth 1000000 in
/-- On the empty board a piece at rotation 0 in the spawn column is valid at every row
offset from 0 to `resting_row`. -/
theorem empty_drop_valid_list : ∀ k ∈ List.range 7, ∀ r ∈ List.range (resting_row k + 1),
    check_piece_valid ⟨k, (r : Int), WIDTH / 2, 0⟩ empty_board WIDTH HEIGHT = .ok true := by
  decide!

set_option maxRecDepth 1000000 in
/-- One row below `resting_row` the piece is not valid. -/
theorem empty_drop_blocked_list : ∀ k ∈ List.range 7,
    check_piece_valid ⟨k, ((resting_row k + 1 : Nat) : Int), WIDTH / 2, 0⟩ empty_board
      WIDTH HEIGHT = .ok false := by
  decide!

/-- At row offset `resting_row` an occupied cell of the piece is in row `HEIGHT - 1`. -/
theorem empty_drop_floor_list : ∀ k ∈ List.range 7,
    ∃ row ∈ int_range (TETRINOS.getD k ⟨[], 0⟩).side,
    ∃ col ∈ int_range (TETRINOS.getD k ⟨[], 0⟩).side, ∃ v ∈ [1, 2, 3, 4, 5, 6, 7],
      tetrino_get (TETRINOS.getD k ⟨[], 0⟩) row col 0 = .ok v ∧
      (resting_row k : Int) + row = HEIGHT - 1 := by
  decide

/-- A call of `soft_drop` on the empty board, the piece above its resting row: the
piece moves down one row. -/
theorem soft_drop_on_empty_moved (w : World) (kind r : Nat) (hk : kind < 7)
    (hr : r < resting_row kind) (hboard : w.game.board = empty_board)
    (hpiece : w.game.piece = ⟨kind, (r : Int), WIDTH / 2, 0⟩) (hlev : 0 ≤ w.game.level) :
    ∃ w1 : World, soft_drop w = .ok (true, w1) ∧ w1.game.board = empty_board ∧
      w1.game.piece = ⟨kind, ((r + 1 : Nat) : Int), WIDTH / 2, 0⟩ ∧
      w1.game.level = w.game.level := by
  have hc : check_piece_valid { w.game.piece with offset_row := w.game.piece.offset_row + 1 }
      w.game.board WIDTH HEIGHT = .ok true := by
    rw [hpiece, hboard]
    have := empty_drop_valid_list kind (List.mem_range.mpr hk) (r + 1)
      (List.mem_range.mpr (by omega))
    push_cast at this
    exact this
  obtain ⟨dt, hdt, -⟩ := get_time_to_next_drop_ok w.game.level hlev
  unfold soft_drop
  dsimp only
  rw [hc, run_ok_bind, if_neg (show ¬ ((!true) = true) by decide), hdt, run_ok_bind]
  refine ⟨_, rfl, hboard, ?_, rfl⟩
  show ({ w.game.piece with offset_row := w.game.piece.offset_row + 1 } : Piece_State) = _
  rw [hpiece]
  push_cast
  rfl

/-- The calls of `soft_drop` that bring a piece on the empty board from row offset `r`
to its resting row all return true. -/
theorem soft_drop_calls_on_empty (kind : Nat) (hk : kind < 7) :
    ∀ (j r : Nat), r + j = resting_row kind → ∀ w : World, w.game.board = empty_board →
      w.game.piece = ⟨kind, (r : Int), WIDTH / 2, 0⟩ → 0 ≤ w.game.level →
      ∃ wn : World, soft_drop_calls j w = .ok (List.replicate j true, wn) ∧
        wn.game.board = empty_board ∧
        wn.game.piece = ⟨kind, (resting_row kind : Int), WIDTH / 2, 0⟩ ∧
        wn.game.level = w.game.level := by
  intro j
  induction j with
  | zero =>
    intro r hr w hboard hpiece hlev
    have : r = resting_row kind := by omega
    subst this
    exact ⟨w, rfl, hboard, hpiece, rfl⟩
  | succ i ih =>
    intro r hr w hboard hpiece hlev
    obtain ⟨w1, hsd, hb1, hp1, hl1⟩ :=
      soft_drop_on_empty_moved w kind r hk (by omega) hboard hpiece hlev
    obtain ⟨wn, hcalls, hbn, hpn, hln⟩ := ih (r + 1) (by omega) w1 hb1 hp1 (by rw [hl1]; exact hlev)
    refine ⟨wn, ?_, hbn, hpn, by rw [hln, hl1]⟩
    rw [soft_drop_calls, hsd]
    dsimp only
    rw [hcalls]
    rfl

/-! ## Rotation as quarter turns -/

/-- Sampling in the rotation after `k` is sampling in rotation `k` at the cell a quarter
turn away: the two reads are of the same template index, for every template and every
cell. -/
theorem tetrino_get_quarter_turn (t : Tetrino) (row col k : Int) (h0 : 0 ≤ k) (h1 : k ≤ 3) :
    tetrino_get t row col ((k + 1) % 4) = tetrino_get t (t.side - 1 - col) row k := by
  have hk : k = 0 ∨ k = 1 ∨ k = 2 ∨ k = 3 := by omega
  rcases hk with rfl | rfl | rfl | rfl
  · have e : ((0 : Int) + 1) % 4 = 1 := by decide
    rw [e]
    unfold tetrino_get
    dsimp only
    rw [if_neg (by decide), if_pos rfl, if_pos rfl]
    congr 1
    ring
  · have e : ((1 : Int) + 1) % 4 = 2 := by decide
    rw [e]
    unfold tetrino_get
    dsimp only
    rw [if_neg (by decide), if_neg (by decide), if_pos rfl, if_neg (by decide), if_pos rfl]
    congr 1
    ring
  · have e : ((2 : Int) + 1) % 4 = 3 := by decide
    rw [e]
    unfold tetrino_get
    dsimp only
    rw [if_neg (by decide), if_neg (by decide), if_neg (by decide), if_pos rfl,
      if_neg (by decide), if_neg (by decide), if_pos rfl]
    congr 1
    ring
  · have e : ((3 : Int) + 1) % 4 = 0 := by decide
    rw [e]
    unfold tetrino_get
    dsimp only
    rw [if_pos rfl, if_neg (by decide), if_neg (by decide), if_neg (by decide), if_pos rfl]
    congr 1
    ring

/-! ## The row record after the LINE phase -/

/-! ## Cell values and rotation stay in range -/

/-- A shape has cells in at most 4 rows, and in at most 2 rows at rotation 0. -/
theorem occupied_rows_list : ∀ t ∈ TETRINOS,
    (∀ rot ∈ int_range 4, (occupied_rows t rot).length ≤ 4) ∧
    (occupied_rows t 0).length ≤ 2 := by
  decide

theorem lock_rows_le (piece : Piece_State) (hk : piece.tetrino_index < 7)
    (h0 : 0 ≤ piece.rotation) (h1 : piece.rotation ≤ 3) :
    lock_rows piece ≤ 4 ∧ (piece.rotation = 0 → lock_rows piece ≤ 2) := by
  obtain ⟨t, ht, hmem⟩ := tetrino_at_ok _ hk
  obtain ⟨hall, hzero⟩ := occupied_rows_list t hmem
  unfold lock_rows
  rw [ht]
  refine ⟨hall _ ((mem_int_range _ _).mpr ⟨h0, by omega⟩), fun hr => ?_⟩
  rw [hr]
  exact hzero

theorem filter_length_le_add {α : Type} (p q g : α → Bool) (l : List α)
    (h : ∀ x ∈ l, p x = true → q x = true ∨ g x = true) :
    (l.filter p).length ≤ (l.filter q).length + (l.filter g).length := by
  induction l with
  | nil => simp
  | cons x rest ih =>
    have ih1 := ih (fun y hy => h y (List.mem_cons_of_mem _ hy))
    have hx := h x (List.mem_cons_self _ _)
    by_cases hp : p x = true
    · rcases hx hp with hq | hg
      · by_cases hg : g x = true <;> simp [List.filter_cons, hp, hq, hg] <;> omega
      · by_cases hq : q x = true <;> simp [List.filter_cons, hp, hq, hg] <;> omega
    · by_cases hq : q x = true <;> by_cases hg : g x = true <;>
        simp [List.filter_cons, hp, hq, hg] <;> omega

theorem full_row_count_eq (board : List Nat) :
    full_row_count board =
      ((List.range 22).filter (fun r => row_filled (board_row board r))).length := by
  unfold full_row_count board_rows
  rw [HEIGHT_toNat, List.filter_map, List.length_map]
  rfl

/-- The rows whose offset from `first` is in the list `rows` are at most as many as
`rows` has entries. -/
theorem shifted_rows_length (first : Int) (rows : List Int) :
    ((List.range 22).filter (fun (r : Nat) => decide (((r : Int) - first) ∈ rows))).length
      ≤ rows.length := by
  have hnd : ((List.range 22).filter
      (fun (r : Nat) => decide (((r : Int) - first) ∈ rows))).Nodup :=
    List.Nodup.filter _ (List.nodup_range 22)
  have hinj : Function.Injective (fun (r : Nat) => (r : Int) - first) := by
    intro a b hab
    have : (a : Int) - first = (b : Int) - first := hab
    omega
  have hsub : ((List.range 22).filter
      (fun (r : Nat) => decide (((r : Int) - first) ∈ rows))).map
      (fun (r : Nat) => (r : Int) - first) ⊆ rows := by
    intro x hx
    obtain ⟨r, hr, rfl⟩ := List.mem_map.mp hx
    have := (List.mem_filter.mp hr).2
    simpa using this
  have hle := (List.Nodup.subperm (List.Nodup.map hinj hnd) hsub).length_le
  rw [List.length_map] at hle
  exact hle

/-- Merging a piece that lies inside the board fills at most as many rows as the piece
has cells in. -/
theorem merge_piece_count (game : Game_State) (hb : game.board.length = 220)
    (h0 : 0 ≤ game.piece.rotation) (h1 : game.piece.rotation ≤ 3)
    (hin : pose_inside game.piece) :
    ∃ b1 : List Nat, merge_piece game = .ok { game with board := b1 } ∧
      full_row_count b1 ≤ full_row_count game.board + lock_rows game.piece := by
  obtain ⟨t, b1, ht, hmerge, hlen, -, hkeep⟩ := merge_piece_spec game hb h0 h1 hin
  refine ⟨b1, hmerge, ?_⟩
  have hrows : lock_rows game.piece = (occupied_rows t game.piece.rotation).length := by
    unfold lock_rows
    rw [ht]
  -- a row the piece has no cell in is as before
  have hsame : ∀ r : Nat, r < 22 →
      ¬ (((r : Int) - game.piece.offset_row) ∈ occupied_rows t game.piece.rotation) →
      board_row b1 r = board_row game.board r := by
    intro r hr hnot
    apply board_row_congr
    intro c hc
    rw [← cell_nat, ← cell_nat]
    have hr1 : (r : Int) < 22 := by omega
    have hc1 : (c : Int) < 10 := by omega
    apply hkeep (r : Int) (c : Int) (by omega) hr1 (by omega) hc1
    intro row col r0 r1 c0 c1 _ v hv hz hpos
    apply hnot
    have hrow : (r : Int) - game.piece.offset_row = row := by omega
    rw [hrow]
    unfold occupied_rows
    rw [List.mem_filter]
    refine ⟨(mem_int_range _ _).mpr ⟨r0, r1⟩, ?_⟩
    rw [List.any_eq_true]
    refine ⟨col, (mem_int_range _ _).mpr ⟨c0, c1⟩, ?_⟩
    unfold sampled_nonzero
    rw [hv]
    simpa using hz
  rw [full_row_count_eq, full_row_count_eq, hrows]
  refine le_trans (filter_length_le_add _ (fun r => row_filled (board_row game.board r))
    (fun (r : Nat) => decide (((r : Int) - game.piece.offset_row) ∈
      occupied_rows t game.piece.rotation)) _ ?_) ?_
  · intro r hr hfull
    have hr22 := List.mem_range.mp hr
    by_cases hmem : ((r : Int) - game.piece.offset_row) ∈ occupied_rows t game.piece.rotation
    · exact Or.inr (by simpa using hmem)
    · left
      dsimp only at hfull ⊢
      rw [← hsame r hr22 hmem]
      exact hfull
  · exact Nat.add_le_add_left (shifted_rows_length _ _) _

/-! ## How many rows one tick can fill -/

/-- A `while` loop that returns: what holds before it and is kept by every pass that
goes on leads, through the pass that ends the loop, to what holds after it. -/
theorem while_loop_ok_last {σ : Type} (step : σ → Run (Bool × σ)) (P Q : σ → Prop)
    (htrue : ∀ s s1, P s → step s = .ok (true, s1) → P s1)
    (hfalse : ∀ s s1, P s → step s = .ok (false, s1) → Q s1) (n : Nat) :
    ∀ s r, P s → while_loop step n s = .ok r → Q r := by
  induction n with
  | zero => intro s r _ h; cases h
  | succ k ih =>
    intro s r hP h
    rw [while_loop_succ] at h
    cases hs : step s with
    | error e => rw [hs] at h; cases h
    | ok p =>
      obtain ⟨c, s1⟩ := p
      rw [hs] at h
      cases c with
      | false =>
        injection h with h
        exact h ▸ hfalse s s1 hP hs
      | true => exact ih s1 r (htrue s s1 hP hs) h

/-- One drop step from a ready state: a move leaves the board as it is, a lock fills
at most as many rows as the piece has cells in and leaves the next piece at the spawn
pose; either way the next automatic drop is due later than now. -/
theorem soft_drop_count (w w1 : World) (c : Bool) (h : drop_ready w.game)
    (hsd : soft_drop w = .ok (c, w1)) :
    drop_ready w1.game ∧ w1.game.time = w.game.time ∧
    w1.game.time < w1.game.next_drop_time ∧
    (c = true → w1.game.board = w.game.board ∧
      lock_rows w1.game.piece = lock_rows w.game.piece) ∧
    (c = false → w1.game.piece.rotation = 0 ∧
      full_row_count w1.game.board ≤ full_row_count w.game.board + lock_rows w.game.piece) := by
  obtain ⟨c2, w2, hsd2, hr, hfr, htime, htrue, hfalse⟩ := soft_drop_ready w h
  rw [hsd] at hsd2
  injection hsd2 with hsd2
  injection hsd2 with hc hw
  subst hc hw
  refine ⟨hr, hfr.1, by rw [hfr.1]; exact htime, fun hc => ?_, fun hc => ?_⟩
  · obtain ⟨hpiece, -, hboard, -⟩ := htrue hc
    refine ⟨hboard, ?_⟩
    rw [hpiece]
    rfl
  · obtain ⟨hsp, -, m, hm, hbm⟩ := hfalse hc
    obtain ⟨hb, -, h0, h1, -, hin⟩ := h
    obtain ⟨b1, hmerge, hcount⟩ := merge_piece_count w.game hb h0 h1 hin
    rw [hmerge] at hm
    injection hm with hm
    subst hm
    rw [hbm]
    exact ⟨hsp.2.2, hcount⟩

/-- The hard-drop loop from a ready state, when it returns, has filled at most as many
rows as the piece has cells in, and the next automatic drop is due later than now. -/
theorem hard_drop_count (fuel : Nat) (w w1 : World) (h : drop_ready w.game)
    (hrun : hard_drop_loop fuel w = .ok w1) :
    full_row_count w1.game.board ≤ full_row_count w.game.board + lock_rows w.game.piece ∧
    w1.game.time < w1.game.next_drop_time :=
  while_loop_ok_last soft_drop
    (fun s => drop_ready s.game ∧ s.game.board = w.game.board ∧
      lock_rows s.game.piece = lock_rows w.game.piece)
    (fun s => full_row_count s.game.board ≤ full_row_count w.game.board +
      lock_rows w.game.piece ∧ s.game.time < s.game.next_drop_time)
    (fun s s1 hP hs => by
      obtain ⟨hr, hb, hl⟩ := hP
      obtain ⟨hr1, -, -, htrue, -⟩ := soft_drop_count s s1 true hr hs
      obtain ⟨hb1, hl1⟩ := htrue rfl
      exact ⟨hr1, hb1.trans hb, hl1.trans hl⟩)
    (fun s s1 hP hs => by
      obtain ⟨hr, hb, hl⟩ := hP
      obtain ⟨-, -, hnext, -, hfalse⟩ := soft_drop_count s s1 false hr hs
      obtain ⟨-, hcount⟩ := hfalse rfl
      rw [hb, hl] at hcount
      exact ⟨hcount, hnext⟩)
    fuel w w1 ⟨h, rfl, rfl⟩ hrun

/-- The moves of a PLAY tick from a ready state, with a budget of at least `HEIGHT`
steps: they return, and they fill at most 6 rows, and at most 4 unless the down key and
the action key are both just pressed. -/
theorem play_moves_count (w : World) (input : Input_State) (fuel : Nat)
    (h : drop_ready w.game) (hf : 22 ≤ fuel) :
    ∃ w1, play_moves fuel w input = .ok w1 ∧ w1.game.board.length = 220 ∧
      w1.game.lines = w.game.lines ∧
      full_row_count w1.game.board ≤ full_row_count w.game.board + 6 ∧
      (¬ (input.ddown > 0 ∧ input.da > 0) →
        full_row_count w1.game.board ≤ full_row_count w.game.board + 4) := by
  obtain ⟨w1, hmoves, hr1, hf1, -⟩ := play_moves_ready w input fuel h hf
  refine ⟨w1, hmoves, hr1.1, hf1.2.2.2.1, ?_⟩
  have h' := h
  obtain ⟨hb, hk, h0, h1, hl, hin⟩ := h'
  obtain ⟨ck, -, c0, c1⟩ := candidate_piece_facts w.game.piece input h0 h1
  obtain ⟨b, hcheck, hiff⟩ := check_piece_valid_spec (candidate_piece w.game.piece input)
    w.game.board (by omega) c0 c1 hb
  unfold play_moves at hmoves
  dsimp only at hmoves
  rw [hcheck, run_ok_bind] at hmoves
  -- the candidate step
  obtain ⟨wa, hwa, hra, hba⟩ : ∃ wa : World,
      (if b = true then
        { w with game := { w.game with piece := candidate_piece w.game.piece input } }
        else w) = wa ∧ drop_ready wa.game ∧ wa.game.board = w.game.board := by
    cases b with
    | false => exact ⟨w, if_neg (by decide), h, rfl⟩
    | true =>
      exact ⟨{ w with game := { w.game with piece := candidate_piece w.game.piece input } },
        if_pos rfl, ⟨hb, by dsimp only; omega, c0, c1, hl,
          pose_fits_inside _ _ (hiff.mp rfl)⟩, rfl⟩
  rw [hwa] at hmoves
  obtain ⟨wb, hwb, hmoves⟩ := bind_ok_inv _ _ _ hmoves
  obtain ⟨wc, hwc, hmoves⟩ := bind_ok_inv _ _ _ hmoves
  have hla := lock_rows_le wa.game.piece hra.2.1 hra.2.2.1 hra.2.2.2.1
  -- the manual soft drop
  obtain ⟨hrb, hcase_b⟩ : drop_ready wb.game ∧
      ((¬ input.ddown > 0 ∧ wb = wa) ∨
       (input.ddown > 0 ∧ wb.game.time < wb.game.next_drop_time ∧
        (wb.game.board = w.game.board ∨
         (wb.game.piece.rotation = 0 ∧
          full_row_count wb.game.board ≤ full_row_count w.game.board + 4)))) := by
    by_cases hdd : input.ddown > 0
    · rw [if_pos hdd] at hwb
      obtain ⟨r, hr, hwb⟩ := bind_ok_inv _ _ _ hwb
      injection hwb with hwb
      subst hwb
      obtain ⟨hrr, -, hnext, htrue, hfalse⟩ := soft_drop_count wa r.2 r.1 hra hr
      refine ⟨hrr, Or.inr ⟨hdd, hnext, ?_⟩⟩
      cases hc : r.1 with
      | true => exact Or.inl (((htrue hc).1).trans hba)
      | false =>
        obtain ⟨hrot, hcount⟩ := hfalse hc
        rw [hba] at hcount
        exact Or.inr ⟨hrot, by omega⟩
    · rw [if_neg hdd] at hwb
      injection hwb with hwb
      subst hwb
      exact ⟨hra, Or.inl ⟨hdd, rfl⟩⟩
  have hlb := lock_rows_le wb.game.piece hrb.2.1 hrb.2.2.1 hrb.2.2.2.1
  -- the hard drop
  obtain ⟨hrc, hcase_c⟩ : drop_ready wc.game ∧
      ((¬ input.da > 0 ∧ wc = wb) ∨
       (input.da > 0 ∧ wc.game.time < wc.game.next_drop_time ∧
        full_row_count wc.game.board ≤ full_row_count wb.game.board +
          lock_rows wb.game.piece)) := by
    by_cases hda : input.da > 0
    · rw [if_pos hda] at hwc
      obtain ⟨w2, hloop, hr2, -, -, -⟩ := hard_drop_loop_ready wb hrb fuel hf
      rw [hwc] at hloop
      injection hloop with hloop
      subst hloop
      obtain ⟨hcount, hnext⟩ := hard_drop_count fuel wb wc hrb hwc
      exact ⟨hr2, Or.inr ⟨hda, hnext, hcount⟩⟩
    · rw [if_neg hda] at hwc
      injection hwc with hwc
      subst hwc
      exact ⟨hrb, Or.inl ⟨hda, rfl⟩⟩
  have hlc := lock_rows_le wc.game.piece hrc.2.1 hrc.2.2.1 hrc.2.2.2.1
  -- gravity
  obtain ⟨wd, hwd, -, -, hcase_d⟩ := gravity_ready wc hrc fuel (by omega)
  rw [hmoves] at hwd
  injection hwd with hwd
  subst hwd
  have hgrav : (wc.game.time < wc.game.next_drop_time → w1 = wc) ∧
      full_row_count w1.game.board ≤ full_row_count wc.game.board + 4 := by
    rcases hcase_d with ⟨-, heq⟩ | ⟨hdue, c, hsd⟩
    · exact ⟨fun _ => heq, by rw [heq]; omega⟩
    · refine ⟨fun hlt => absurd hdue (not_le.mpr hlt), ?_⟩
      obtain ⟨-, -, -, htrue, hfalse⟩ := soft_drop_count wc w1 c hrc hsd
      cases c with
      | true => rw [(htrue rfl).1]; omega
      | false =>
        have := (hfalse rfl).2
        omega
  obtain ⟨hstill, hgcount⟩ := hgrav
  rcases hcase_b with ⟨hndd, hwba⟩ | ⟨hdd, hnb, hbb⟩
  · subst hwba
    rcases hcase_c with ⟨hnda, hwcb⟩ | ⟨hda, hnc, hcc⟩
    · subst hwcb
      rw [hba] at hgcount
      exact ⟨by omega, fun _ => hgcount⟩
    · rw [hstill hnc]
      rw [hba] at hcc
      exact ⟨by omega, fun _ => by omega⟩
  · rcases hcase_c with ⟨hnda, hwcb⟩ | ⟨hda, hnc, hcc⟩
    · subst hwcb
      rw [hstill hnb]
      rcases hbb with hsame | ⟨-, hcount⟩
      · rw [hsame]
        exact ⟨by omega, fun _ => by omega⟩
      · exact ⟨by omega, fun _ => hcount⟩
    · rw [hstill hnc]
      refine ⟨?_, fun hnot => absurd ⟨hdd, hda⟩ hnot⟩
      rcases hbb with hsame | ⟨hrot, hcount⟩
      · rw [hsame] at hcc
        omega
      · have := hlb.2 hrot
        omega

/-- A PLAY tick from a well-formed state whose board has no full row, with a budget of
at least `HEIGHT` steps: it returns with a `pending_line_count` of at most 6, and of at
most 4 unless the down key and the action key are both just pressed. -/
theorem play_tick_pending_bound (w : World) (input : Input_State) (fuel : Nat)
    (h : play_ready w.game) (hf : 22 ≤ fuel)
    (hnone : (board_rows w.game.board).filter row_filled = []) :
    ∃ w1, update_game_play fuel w input = .ok w1 ∧
      0 ≤ w1.game.pending_line_count ∧ w1.game.pending_line_count ≤ 6 ∧
      (¬ (input.ddown > 0 ∧ input.da > 0) → w1.game.pending_line_count ≤ 4) := by
  have hl : w.game.lines.length = 22 := h.2.1
  obtain ⟨wm, hmoves, hbm, hlm, hsix, hfour⟩ :=
    play_moves_count w input fuel (play_ready_drop_ready _ h) hf
  obtain ⟨lines, -, -, hfin⟩ := play_finish_spec wm hbm (by rw [hlm]; exact hl)
  have hzero : full_row_count w.game.board = 0 := by
    unfold full_row_count
    rw [hnone]
    rfl
  rw [hzero] at hsix hfour
  rw [update_game_play_eq, hmoves, run_ok_bind, hfin]
  refine ⟨_, rfl, ?_, ?_, fun hnot => ?_⟩
  · show (0 : Int) ≤ ((full_row_count wm.game.board : Nat) : Int)
    omega
  · show ((full_row_count wm.game.board : Nat) : Int) ≤ 6
    omega
  · show ((full_row_count wm.game.board : Nat) : Int) ≤ 4
    have := hfour hnot
    omega

/-! ## The drop loops with the clock in binary32 -/

theorem get_time_to_next_drop_f32_ok (level : Int) (h : 0 ≤ level) :
    ∃ dt : ℚ, get_time_to_next_drop_f32 level = .ok dt := by
  unfold get_time_to_next_drop_f32
  dsimp only
  have hlen : (FRAMES_PER_DROP.length : Int) = 30 := rfl
  have hidx : 0 ≤ (if level > 29 then 29 else level) ∧
      (if level > 29 then 29 else level) < 30 := by
    split <;> omega
  rw [array_get_ok _ _ hidx.1 (by rw [hlen]; exact hidx.2), run_ok_bind]
  exact ⟨_, rfl⟩

theorem spawn_piece_f32_spec (w : World) (dt : ℚ)
    (hdt : get_time_to_next_drop_f32 w.game.level = .ok dt) :
    spawn_piece_f32 w = .ok
      { game := { w.game with
          piece := { tetrino_index := w.rand 0 % 7, offset_row := 0,
                     offset_col := WIDTH / 2, rotation := 0 },
          next_drop_time := float_add w.game.time dt },
        rand := fun n => w.rand (n + 1) } := by
  unfold spawn_piece_f32
  dsimp only
  rw [hdt, run_ok_bind, spawn_index]
  rfl

/-- One drop step with the binary32 clock, from a state that is ready for it: it
returns, the state stays ready, clock and level are as before, the next drop is set to
the rounded sum of the clock and the interval, and a step that moves leaves the piece
one row lower on the same board. -/
theorem soft_drop_f32_ready (w : World) (h : drop_ready w.game) (dt : ℚ)
    (hdt : get_time_to_next_drop_f32 w.game.level = .ok dt) :
    ∃ (c : Bool) (w1 : World), soft_drop_f32 w = .ok (c, w1) ∧ drop_ready w1.game ∧
      w1.game.time = w.game.time ∧ w1.game.level = w.game.level ∧
      w1.game.next_drop_time = float_add w.game.time dt ∧
      (c = true → w1.game.piece =
          { w.game.piece with offset_row := w.game.piece.offset_row + 1 } ∧
        w1.game.board = w.game.board) := by
  obtain ⟨hb, hk, h0, h1, hl, hin⟩ := h
  obtain ⟨b, hcheck, hiff⟩ := check_piece_valid_spec
    { w.game.piece with offset_row := w.game.piece.offset_row + 1 } w.game.board hk h0 h1 hb
  cases b with
  | true =>
    have hfit := hiff.mp rfl
    refine ⟨true, { w with game := { w.game with
        piece := { w.game.piece with offset_row := w.game.piece.offset_row + 1 },
        next_drop_time := float_add w.game.time dt } }, ?_, ?_, rfl, rfl, rfl,
      fun _ => ⟨rfl, rfl⟩⟩
    · unfold soft_drop_f32
      dsimp only
      rw [hcheck, run_ok_bind, if_neg (show ¬ ((!true) = true) by decide), hdt, run_ok_bind]
      rfl
    · exact ⟨hb, hk, h0, h1, hl, pose_fits_inside _ _ hfit⟩
  | false =>
    obtain ⟨t, b1, ht, hmerge, hlen, -, -⟩ := merge_piece_spec w.game hb h0 h1 hin
    have hsp := spawn_piece_f32_spec { w with game := { w.game with board := b1 } } dt hdt
    have hmod : w.rand 0 % 7 < 7 := Nat.mod_lt _ (by omega)
    refine ⟨false,
      ⟨{ w.game with
          board := b1
          piece := ⟨w.rand 0 % 7, 0, WIDTH / 2, 0⟩
          next_drop_time := float_add w.game.time dt }, fun n => w.rand (n + 1)⟩,
      ?_, ?_, rfl, rfl, rfl, (fun hc => by cases hc)⟩
    · unfold soft_drop_f32
      dsimp only
      rw [hcheck, run_ok_bind, if_pos (show (!false) = true from rfl), hmerge, run_ok_bind,
        hsp, run_ok_bind]
      rfl
    · refine ⟨by dsimp only; omega, hmod, by dsimp only; omega, by dsimp only; omega, hl, ?_⟩
      exact spawn_pose_inside _ hmod

/-- The hard-drop loop with the binary32 clock, with a budget that covers the rows
between an occupied cell of the piece and the floor: it returns. -/
theorem hard_drop_f32_fuel (fuel : Nat) : ∀ w : World, drop_ready w.game →
    (∃ (t : Tetrino) (row col : Int) (v : Nat),
      tetrino_at w.game.piece.tetrino_index = .ok t ∧ 0 ≤ row ∧ row < t.side ∧ 0 ≤ col ∧
      col < t.side ∧ tetrino_get t row col w.game.piece.rotation = .ok v ∧ v ≠ 0 ∧
      HEIGHT - (w.game.piece.offset_row + row) ≤ (fuel : Int)) →
    ∃ w1, while_loop soft_drop_f32 fuel w = .ok w1 ∧ drop_ready w1.game ∧
      w1.game.time = w.game.time ∧ w1.game.level = w.game.level := by
  induction fuel with
  | zero =>
    intro w hr ⟨t, row, col, v, ht, r0, r1, c0, c1, hv, hz, hm⟩
    obtain ⟨-, -, -, -, -, t1, ht1, hall⟩ := hr
    rw [ht] at ht1
    injection ht1 with ht1
    subst ht1
    have := hall row col r0 r1 c0 c1 v hv hz
    simp only [HEIGHT] at this hm
    omega
  | succ f ih =>
    intro w hr ⟨t, row, col, v, ht, r0, r1, c0, c1, hv, hz, hm⟩
    obtain ⟨dt, hdt⟩ := get_time_to_next_drop_f32_ok w.game.level hr.2.2.2.2.1
    obtain ⟨c, w1, hsd, hr1, htime, hlev, -, htrue⟩ := soft_drop_f32_ready w hr dt hdt
    rw [while_loop_succ, hsd]
    cases c with
    | false => exact ⟨w1, rfl, hr1, htime, hlev⟩
    | true =>
      obtain ⟨hpiece, hboard⟩ := htrue rfl
      have hocc : ∃ (t : Tetrino) (row col : Int) (v : Nat),
          tetrino_at w1.game.piece.tetrino_index = .ok t ∧ 0 ≤ row ∧ row < t.side ∧ 0 ≤ col ∧
          col < t.side ∧ tetrino_get t row col w1.game.piece.rotation = .ok v ∧ v ≠ 0 ∧
          HEIGHT - (w1.game.piece.offset_row + row) ≤ (f : Int) := by
        rw [hpiece]
        refine ⟨t, row, col, v, ht, r0, r1, c0, c1, hv, hz, ?_⟩
        dsimp only
        push_cast at hm
        omega
      obtain ⟨w2, hloop, hr2, htime2, hlev2⟩ := ih w1 hr1 hocc
      exact ⟨w2, hloop, hr2, htime2.trans htime, hlev2.trans hlev⟩

/-- The hard-drop loop ends with the binary32 clock too: from a ready state it returns
within `HEIGHT` evaluations. -/
theorem hard_drop_loop_f32_ends (w : World) (h : drop_ready w.game) (fuel : Nat)
    (hf : 22 ≤ fuel) :
    ∃ w1, hard_drop_loop_f32 fuel w = .ok w1 ∧ drop_ready w1.game ∧
      w1.game.time = w.game.time ∧ w1.game.level = w.game.level := by
  unfold hard_drop_loop_f32
  apply hard_drop_f32_fuel fuel w h
  obtain ⟨-, hk, h0, h1, -, t, ht, hall⟩ := h
  obtain ⟨hmem, -⟩ := tetrino_at_mem _ _ ht
  obtain ⟨row, hrow, col, hcol, v, hv, hget⟩ := tetrino_occupied_list t hmem
    w.game.piece.rotation ((mem_int_range _ _).mpr ⟨h0, by omega⟩)
  rw [mem_int_range] at hrow hcol
  have hz : v ≠ 0 := by
    intro h0
    subst h0
    simp at hv
  have := hall row col hrow.1 hrow.2 hcol.1 hcol.2 v hget hz
  refine ⟨t, row, col, v, ht, hrow.1, hrow.2, hcol.1, hcol.2, hget, hz, ?_⟩
  simp only [HEIGHT] at this ⊢
  omega

/-- The gravity loop with the binary32 clock ends, after one drop step at most, when
the rounded sum of the clock and the drop interval is above the clock. -/
theorem gravity_loop_f32_ends (w : World) (h : drop_ready w.game) (dt : ℚ)
    (hdt : get_time_to_next_drop_f32 w.game.level = .ok dt)
    (hgt : w.game.time < float_add w.game.time dt) (fuel : Nat) (hf : 2 ≤ fuel) :
    ∃ w1, while_loop gravity_step_f32 fuel w = .ok w1 := by
  obtain ⟨f, rfl⟩ : ∃ f, fuel = f + 2 := ⟨fuel - 2, by omega⟩
  by_cases hdue : w.game.time ≥ w.game.next_drop_time
  · obtain ⟨c, w1, hsd, -, htime, -, hnext, -⟩ := soft_drop_f32_ready w h dt hdt
    have hstep : gravity_step_f32 w = .ok (true, w1) := by
      unfold gravity_step_f32
      rw [if_pos hdue, hsd]
      rfl
    have hstep1 : gravity_step_f32 w1 = .ok (false, w1) := by
      unfold gravity_step_f32
      rw [if_neg (by rw [htime, hnext]; exact not_le.mpr hgt)]
      rfl
    refine ⟨w1, ?_⟩
    rw [while_loop_succ, hstep]
    dsimp only
    rw [while_loop_succ, hstep1]
  · have hstep : gravity_step_f32 w = .ok (false, w) := by
      unfold gravity_step_f32
      rw [if_neg hdue]
      rfl
    refine ⟨w, ?_⟩
    rw [while_loop_succ, hstep]

/-- A loop whose every pass goes on uses up any budget. -/
theorem while_loop_never {σ : Type} (step : σ → Run (Bool × σ)) (J : σ → Prop)
    (hstep : ∀ s, J s → ∃ s1, step s = .ok (true, s1) ∧ J s1) (n : Nat) :
    ∀ s, J s → while_loop step n s = .error .out_of_fuel := by
  induction n with
  | zero => intro s _; rfl
  | succ k ih =>
    intro s hJ
    obtain ⟨s1, hs, hJ1⟩ := hstep s hJ
    rw [while_loop_succ, hs]
    exact ih s1 hJ1

/-- A loop whose every pass returns and keeps `J` returns a state with `J` or uses up
its budget. -/
theorem while_loop_returns_or_fuel {σ : Type} (step : σ → Run (Bool × σ)) (J : σ → Prop)
    (hstep : ∀ s, J s → ∃ c s1, step s = .ok (c, s1) ∧ J s1) (n : Nat) :
    ∀ s, J s → while_loop step n s = .error .out_of_fuel ∨
      ∃ r, while_loop step n s = .ok r ∧ J r := by
  induction n with
  | zero => intro s _; exact Or.inl rfl
  | succ k ih =>
    intro s hJ
    obtain ⟨c, s1, hs, hJ1⟩ := hstep s hJ
    rw [while_loop_succ, hs]
    cases c with
    | false => exact Or.inr ⟨s1, rfl, hJ1⟩
    | true => exact ih s1 hJ1

/-- One drop step with the binary32 clock at a clock value that absorbs the drop
interval: ready, and the next drop due at once, before the step and after it. -/
theorem soft_drop_f32_absorbed (T : ℚ) (L : Int) (dt : ℚ)
    (hdt : get_time_to_next_drop_f32 L = .ok dt) (hround : float_add T dt = T) (s : World)
    (hJ : drop_ready s.game ∧ s.game.time = T ∧ s.game.level = L) :
    ∃ c s1, soft_drop_f32 s = .ok (c, s1) ∧
      (drop_ready s1.game ∧ s1.game.time = T ∧ s1.game.level = L) ∧
      s1.game.next_drop_time ≤ s1.game.time := by
  obtain ⟨hr, ht, hl⟩ := hJ
  obtain ⟨c, s1, hsd, hr1, htime, hlev, hnext, -⟩ :=
    soft_drop_f32_ready s hr dt (by rw [hl]; exact hdt)
  refine ⟨c, s1, hsd, ⟨hr1, htime.trans ht, hlev.trans hl⟩, ?_⟩
  rw [hnext, htime, ht, hround]

/-- At a clock value that absorbs the drop interval, the gravity loop with the
binary32 clock, once a drop is due, is never left: it uses up every budget. -/
theorem gravity_loop_f32_never (w : World) (h : drop_ready w.game) (dt : ℚ)
    (hdt : get_time_to_next_drop_f32 w.game.level = .ok dt)
    (hround : float_add w.game.time dt = w.game.time)
    (hdue : w.game.next_drop_time ≤ w.game.time) (fuel : Nat) :
    while_loop gravity_step_f32 fuel w = .error .out_of_fuel := by
  refine while_loop_never gravity_step_f32
    (fun s => (drop_ready s.game ∧ s.game.time = w.game.time ∧ s.game.level = w.game.level) ∧
      s.game.next_drop_time ≤ s.game.time)
    (fun s hJ => ?_) fuel w ⟨⟨h, rfl, rfl⟩, hdue⟩
  obtain ⟨hJ1, hd⟩ := hJ
  obtain ⟨c, s1, hsd, hJ2, hd2⟩ := soft_drop_f32_absorbed _ _ dt hdt hround s hJ1
  refine ⟨s1, ?_, hJ2, hd2⟩
  unfold gravity_step_f32
  rw [if_pos hd, hsd]
  rfl

/-- At a clock value that absorbs the drop interval, with a drop due, the PLAY tick
with the binary32 clock returns for no input and no budget. -/
theorem update_game_play_f32_never (w : World) (h : drop_ready w.game) (dt : ℚ)
    (hdt : get_time_to_next_drop_f32 w.game.level = .ok dt)
    (hround : float_add w.game.time dt = w.game.time)
    (hdue : w.game.next_drop_time ≤ w.game.time) (fuel : Nat) (input : Input_State) :
    update_game_play_f32 fuel w input = .error .out_of_fuel := by
  have h' := h
  obtain ⟨hb, hk, h0, h1, hl, hin⟩ := h'
  obtain ⟨ck, -, c0, c1⟩ := candidate_piece_facts w.game.piece input h0 h1
  obtain ⟨b, hcheck, hiff⟩ := check_piece_valid_spec (candidate_piece w.game.piece input)
    w.game.board (by omega) c0 c1 hb
  unfold update_game_play_f32
  dsimp only
  rw [hcheck, run_ok_bind]
  -- the candidate step
  obtain ⟨wa, hwa, hJa, hda⟩ : ∃ wa : World,
      (if b = true then
        { w with game := { w.game with piece := candidate_piece w.game.piece input } }
        else w) = wa ∧
      (drop_ready wa.game ∧ wa.game.time = w.game.time ∧ wa.game.level = w.game.level) ∧
      wa.game.next_drop_time ≤ wa.game.time := by
    cases b with
    | false => exact ⟨w, if_neg (by decide), ⟨h, rfl, rfl⟩, hdue⟩
    | true =>
      exact ⟨{ w with game := { w.game with piece := candidate_piece w.game.piece input } },
        if_pos rfl, ⟨⟨hb, by dsimp only; omega, c0, c1, hl,
          pose_fits_inside _ _ (hiff.mp rfl)⟩, rfl, rfl⟩, hdue⟩
  rw [hwa]
  -- the manual soft drop
  obtain ⟨wb, hwb, hJb, hdb⟩ : ∃ wb : World,
      (if input.ddown > 0 then soft_drop_f32 wa >>= fun r => pure r.2 else pure wa)
        = .ok wb ∧
      (drop_ready wb.game ∧ wb.game.time = w.game.time ∧ wb.game.level = w.game.level) ∧
      wb.game.next_drop_time ≤ wb.game.time := by
    by_cases hdd : input.ddown > 0
    · rw [if_pos hdd]
      obtain ⟨c, s1, hsd, hJ1, hd1⟩ := soft_drop_f32_absorbed _ _ dt hdt hround wa hJa
      exact ⟨s1, by rw [hsd]; rfl, hJ1, hd1⟩
    · rw [if_neg hdd]
      exact ⟨wa, rfl, hJa, hda⟩
  rw [hwb, run_ok_bind]
  -- the hard drop
  have hhard : (if input.da > 0 then hard_drop_loop_f32 fuel wb else pure wb)
        = .error .out_of_fuel ∨
      ∃ wc : World, (if input.da > 0 then hard_drop_loop_f32 fuel wb else pure wb) = .ok wc ∧
        (drop_ready wc.game ∧ wc.game.time = w.game.time ∧ wc.game.level = w.game.level) ∧
        wc.game.next_drop_time ≤ wc.game.time := by
    by_cases hda : input.da > 0
    · rw [if_pos hda]
      unfold hard_drop_loop_f32
      rcases while_loop_returns_or_fuel soft_drop_f32
        (fun s => (drop_ready s.game ∧ s.game.time = w.game.time ∧
          s.game.level = w.game.level) ∧ s.game.next_drop_time ≤ s.game.time)
        (fun s hJ => by
          obtain ⟨c, s1, hsd, hJ1, hd1⟩ := soft_drop_f32_absorbed _ _ dt hdt hround s hJ.1
          exact ⟨c, s1, hsd, hJ1, hd1⟩) fuel wb ⟨hJb, hdb⟩ with hfuel | ⟨wc, hwc, hJc, hdc⟩
      · exact Or.inl hfuel
      · exact Or.inr ⟨wc, hwc, hJc, hdc⟩
    · rw [if_neg hda]
      exact Or.inr ⟨wb, rfl, hJb, hdb⟩
  rcases hhard with hfuel | ⟨wc, hwc, hJc, hdc⟩
  · rw [hfuel]
    rfl
  · rw [hwc, run_ok_bind]
    have hgrav := gravity_loop_f32_never wc hJc.1 dt (by rw [hJc.2.2]; exact hdt)
      (by rw [hJc.2.1]; exact hround) hdc fuel
    rw [hgrav]
    rfl

/-! ## The gravity loop at a clock value that absorbs the drop interval -/

set_option maxRecDepth 1000000 in
/-- The drop interval at level 29 is the `float` nearest to 1/60, and added to a clock
of 524288 seconds, where neighbouring `float`s are 1/16 apart, it rounds away. -/
theorem late_world_facts :
    play_ready late_world.game ∧
    get_time_to_next_drop_f32 late_world.game.level = .ok (8947849 / 536870912) ∧
    float_add late_world.game.time (8947849 / 536870912) = late_world.game.time ∧
    late_world.game.next_drop_time ≤ late_world.game.time := by
  decide!

/-! # The claims -/

/-- C1: on every `WIDTH x HEIGHT` board, `clear_lines` applied to the record that
`find_lines` computes on that board returns a board whose rows are `k` all-zero rows
(`k` the number of full rows found) followed by the rows that were not full, unchanged
and in their order; on that board `find_lines` counts no full row. -/
theorem C1_clear_lines_after_find_lines (board lines0 : List Nat)
    (hb : board.length = (WIDTH * HEIGHT).toNat) (hl : lines0.length = HEIGHT.toNat) :
    ∃ (lines board1 lines1 : List Nat) (k : Nat),
      find_lines board WIDTH HEIGHT lines0 = .ok (lines, (k : Int)) ∧
      k = ((board_rows board).filter row_filled).length ∧
      clear_lines board WIDTH HEIGHT lines = .ok board1 ∧
      board1.length = (WIDTH * HEIGHT).toNat ∧
      board_rows board1 = List.replicate k (List.replicate WIDTH.toNat 0) ++
        (board_rows board).filter (fun r => !row_filled r) ∧
      find_lines board1 WIDTH HEIGHT lines = .ok (lines1, 0) := by
  have hb1 : board.length = 220 := hb
  have hl1 : lines0.length = 22 := hl
  obtain ⟨lines, hfind, hlen, hget⟩ := find_lines_spec board lines0 hb1 hl1
  obtain ⟨board1, z, hclear, hlen1, hrows⟩ := clear_lines_spec board lines hb1 hlen hget
  obtain ⟨lines1, hfind1, -, -⟩ := find_lines_spec board1 lines hlen1 hlen
  have hcount : z = ((board_rows board).filter row_filled).length := by
    have h1 := congrArg List.length hrows
    have h2 := filter_length_split row_filled (board_rows board)
    have h3 : (board_rows board1).length = 22 := by simp [board_rows, HEIGHT_toNat]
    have h4 : (board_rows board).length = 22 := by simp [board_rows, HEIGHT_toNat]
    rw [List.length_append, List.length_replicate, h3] at h1
    omega
  have hnone : (board_rows board1).filter row_filled = [] := by
    rw [hrows, List.filter_append, List.append_eq_nil]
    constructor
    · rw [List.filter_eq_nil_iff]
      intro r hr
      rw [List.eq_of_mem_replicate hr, zero_row_not_filled]
      decide
    · rw [List.filter_eq_nil_iff]
      intro r hr
      have := (List.mem_filter.mp hr).2
      simpa using this
  rw [hnone] at hfind1
  subst hcount
  exact ⟨lines, board1, lines1, _, hfind, rfl, hclear, hlen1, hrows, hfind1⟩

/-- C1, witnessed on a board whose bottom row is full. -/
theorem C1_clear_lines_after_find_lines_witness :
    one_full_row_board.length = (WIDTH * HEIGHT).toNat ∧
    (List.replicate 22 0).length = HEIGHT.toNat ∧
    ∃ (lines board1 lines1 : List Nat) (k : Nat),
      find_lines one_full_row_board WIDTH HEIGHT (List.replicate 22 0) = .ok (lines, (k : Int)) ∧
      k = ((board_rows one_full_row_board).filter row_filled).length ∧
      clear_lines one_full_row_board WIDTH HEIGHT lines = .ok board1 ∧
      board1.length = (WIDTH * HEIGHT).toNat ∧
      board_rows board1 = List.replicate k (List.replicate WIDTH.toNat 0) ++
        (board_rows one_full_row_board).filter (fun r => !row_filled r) ∧
      find_lines board1 WIDTH HEIGHT lines = .ok (lines1, 0) :=
  ⟨rfl, rfl, C1_clear_lines_after_find_lines one_full_row_board (List.replicate 22 0) rfl rfl⟩

/-- C2: for a kind in 0..6, a rotation in 0..3, any offsets and any `WIDTH x HEIGHT`
board, `check_piece_valid` returns without an out-of-range access, and it returns
true exactly when every local cell of the template square whose `tetrino_get` value
is not 0 maps to a coordinate inside `[0,HEIGHT) x [0,WIDTH)` whose board cell is 0. -/
theorem C2_check_piece_valid_iff (piece : Piece_State) (board : List Nat)
    (hk : piece.tetrino_index < 7) (h0 : 0 ≤ piece.rotation) (h1 : piece.rotation ≤ 3)
    (hb : board.length = (WIDTH * HEIGHT).toNat) :
    ∃ (t : Tetrino) (b : Bool), tetrino_at piece.tetrino_index = .ok t ∧
      check_piece_valid piece board WIDTH HEIGHT = .ok b ∧
      (b = true ↔ ∀ row col : Int, 0 ≤ row → row < t.side → 0 ≤ col → col < t.side →
        ∀ v, tetrino_get t row col piece.rotation = .ok v → v ≠ 0 →
          0 ≤ piece.offset_row + row ∧ piece.offset_row + row < HEIGHT ∧
          0 ≤ piece.offset_col + col ∧ piece.offset_col + col < WIDTH ∧
          matrix_get board WIDTH (piece.offset_row + row) (piece.offset_col + col)
            = .ok 0) := by
  obtain ⟨t, ht, -⟩ := tetrino_at_ok piece.tetrino_index hk
  obtain ⟨b, hcheck, hiff⟩ := check_piece_valid_spec piece board hk h0 h1 hb
  refine ⟨t, b, ht, hcheck, hiff.trans ⟨?_, ?_⟩⟩
  · rintro ⟨t1, ht1, hall⟩
    rw [ht] at ht1
    injection ht1 with ht1
    subst ht1
    exact hall
  · intro hall
    exact ⟨t, ht, hall⟩

/-- C2, witnessed on the spawned I piece and the empty board. -/
theorem C2_check_piece_valid_iff_witness :
    spawned_piece.tetrino_index < 7 ∧ 0 ≤ spawned_piece.rotation ∧
    spawned_piece.rotation ≤ 3 ∧ empty_board.length = (WIDTH * HEIGHT).toNat ∧
    ∃ (t : Tetrino) (b : Bool), tetrino_at spawned_piece.tetrino_index = .ok t ∧
      check_piece_valid spawned_piece empty_board WIDTH HEIGHT = .ok b ∧
      (b = true ↔ ∀ row col : Int, 0 ≤ row → row < t.side → 0 ≤ col → col < t.side →
        ∀ v, tetrino_get t row col spawned_piece.rotation = .ok v → v ≠ 0 →
          0 ≤ spawned_piece.offset_row + row ∧ spawned_piece.offset_row + row < HEIGHT ∧
          0 ≤ spawned_piece.offset_col + col ∧ spawned_piece.offset_col + col < WIDTH ∧
          matrix_get empty_board WIDTH (spawned_piece.offset_row + row)
            (spawned_piece.offset_col + col) = .ok 0) :=
  ⟨by decide, by decide, by decide, rfl,
    C2_check_piece_valid_iff spawned_piece empty_board (by decide) (by decide) (by decide) rfl⟩

set_option maxRecDepth 1000000 in
/-- C3, refuted as stated: `stacking_game` leads from the initial state to a PLAY
state in which rows 1 to 21 are occupied in column 7 and row 0 is empty, while the
piece just spawned covers row 1, columns 5 to 8: `check_piece_valid` is false. -/
theorem C3_spawn_overlap_counterexample :
    ∃ w, run_from_start (fun _ => 0) 23 stacking_game = some w ∧ Reachable w ∧
      w.game.phase = GAME_PHASE_PLAY ∧
      check_piece_valid w.game.piece w.game.board WIDTH HEIGHT = .ok false := by
  have heval : (run_from_start (fun _ => 0) 23 stacking_game).map
      (fun w => (w.game.phase, check_piece_valid w.game.piece w.game.board WIDTH HEIGHT))
      = some (GAME_PHASE_PLAY, .ok false) := by
    decide!
  obtain ⟨w, hw, hpair⟩ := Option.map_eq_some'.mp heval
  injection hpair with hp hc
  exact ⟨w, hw, reachable_run_from_start _ _ _ _ hw, hp, hc⟩

/-- C3, amended: in every state reached from the initial state by passes of the host
loop, whenever the phase is PLAY the piece is valid against the board or is at its
spawn pose (row 0, column `WIDTH / 2`, rotation 0); in both cases it lies inside the
board. -/
theorem C3_play_piece_valid_or_at_spawn (w : World) (hr : Reachable w)
    (hp : w.game.phase = GAME_PHASE_PLAY) :
    (check_piece_valid w.game.piece w.game.board WIDTH HEIGHT = .ok true ∨
      at_spawn w.game.piece) ∧ pose_inside w.game.piece := by
  have hinv := reachable_tick_inv w hr
  have hready := tick_inv_drop_ready _ hinv hp
  obtain ⟨hb, hl, hk, hlev, hsl, hplay, -⟩ := hinv
  obtain ⟨h0, h1, -, hv⟩ := hplay hp
  refine ⟨?_, hready.2.2.2.2.2⟩
  rcases hv with hv | hv
  · left
    obtain ⟨b, hcheck, hiff⟩ := check_piece_valid_spec w.game.piece w.game.board hk h0 h1 hb
    rw [hcheck, hiff.mpr hv]
  · exact Or.inr hv

set_option maxRecDepth 1000000 in
/-- C3 amended, witnessed on the state after the game has been started. -/
theorem C3_play_piece_valid_or_at_spawn_witness :
    ∃ w, run_from_start (fun _ => 3) 23 [(1, press_action)] = some w ∧ Reachable w ∧
      w.game.phase = GAME_PHASE_PLAY ∧
      (check_piece_valid w.game.piece w.game.board WIDTH HEIGHT = .ok true ∨
        at_spawn w.game.piece) ∧ pose_inside w.game.piece := by
  have heval : (run_from_start (fun _ => 3) 23 [(1, press_action)]).map
      (fun w => w.game.phase) = some GAME_PHASE_PLAY := by
    decide!
  obtain ⟨w, hw, hp⟩ := Option.map_eq_some'.mp heval
  have hr := reachable_run_from_start _ _ _ _ hw
  exact ⟨w, hw, hr, hp, C3_play_piece_valid_or_at_spawn w hr hp⟩

set_option maxRecDepth 100000 in
/-- C5, evaluated where it fails: the I piece is at its spawn pose on the empty
board, the next drop was due at 4/5 s, the interval at level 0 is 4/5 s and the clock
reads 10 s, more than twelve intervals late, with nineteen free rows below the
piece; the tick moves the piece by one row only and sets the next drop to 10 + 4/5. -/
theorem C5_gravity_drops_once :
    play_ready (play_world empty_board spawned_piece).game ∧
    get_time_to_next_drop (play_world empty_board spawned_piece).game.level = .ok (4 / 5) ∧
    (update_game_play 22
        { play_world empty_board spawned_piece with
          game := { (play_world empty_board spawned_piece).game with time := 10 } }
        no_input).map
      (fun w => (w.game.piece, w.game.next_drop_time, w.game.phase))
      = .ok (⟨0, 1, 5, 0⟩, 54 / 5, GAME_PHASE_PLAY) := by
  decide!

/-- C7: in a PLAY tick without a drop request and with `time < next_drop_time`, the
left, right and rotate requests make one candidate pose (column - 1 on left, + 1 on
right, rotation `(r + 1) mod 4` on rotate, kind and row kept) that is checked once;
after the tick the piece is the candidate when the candidate is valid and the
previous piece otherwise, and the board is unchanged. -/
theorem C7_candidate_is_atomic (w : World) (input : Input_State) (fuel : Nat)
    (hb : w.game.board.length = (WIDTH * HEIGHT).toNat)
    (hl : w.game.lines.length = HEIGHT.toNat)
    (hk : w.game.piece.tetrino_index < 7) (h0 : 0 ≤ w.game.piece.rotation)
    (h1 : w.game.piece.rotation ≤ 3) (hdd : input.ddown ≤ 0) (hda : input.da ≤ 0)
    (ht : w.game.time < w.game.next_drop_time) (hf : 1 ≤ fuel) :
    ∃ (valid : Bool) (w1 : World),
      check_piece_valid (candidate_piece w.game.piece input) w.game.board WIDTH HEIGHT
        = .ok valid ∧
      update_game_play fuel w input = .ok w1 ∧
      w1.game.board = w.game.board ∧
      w1.game.piece = (if valid then candidate_piece w.game.piece input else w.game.piece) ∧
      (candidate_piece w.game.piece input).tetrino_index = w.game.piece.tetrino_index ∧
      (candidate_piece w.game.piece input).offset_row = w.game.piece.offset_row ∧
      (candidate_piece w.game.piece input).offset_col =
        w.game.piece.offset_col - (if input.dleft > 0 then 1 else 0)
          + (if input.dright > 0 then 1 else 0) ∧
      (candidate_piece w.game.piece input).rotation =
        (if input.dup > 0 then (w.game.piece.rotation + 1) % 4 else w.game.piece.rotation) := by
  have hb1 : w.game.board.length = 220 := hb
  obtain ⟨ck, crow, c0, c1⟩ := candidate_piece_facts w.game.piece input h0 h1
  obtain ⟨b, hcheck, -⟩ := check_piece_valid_spec (candidate_piece w.game.piece input)
    w.game.board (by omega) c0 c1 hb1
  obtain ⟨f, rfl⟩ : ∃ f, fuel = f + 1 := ⟨fuel - 1, by omega⟩
  -- the state after the candidate step
  obtain ⟨wa, hwa, hba, hla, hpa, hta⟩ : ∃ wa : World,
      (if b = true then
        { w with game := { w.game with piece := candidate_piece w.game.piece input } }
        else w) = wa ∧ wa.game.board = w.game.board ∧ wa.game.lines = w.game.lines ∧
      wa.game.piece = (if b then candidate_piece w.game.piece input else w.game.piece) ∧
      wa.game.time < wa.game.next_drop_time := by
    cases b with
    | false => exact ⟨w, if_neg (by decide), rfl, rfl, rfl, ht⟩
    | true =>
      exact ⟨{ w with game := { w.game with piece := candidate_piece w.game.piece input } },
        if_pos rfl, rfl, rfl, rfl, ht⟩
  have hmoves : play_moves (f + 1) w input = .ok wa := by
    unfold play_moves
    dsimp only
    rw [hcheck, run_ok_bind, hwa, if_neg (by omega), run_pure, run_ok_bind,
      if_neg (by omega), run_pure, run_ok_bind, while_loop_succ]
    have hstep : gravity_step wa = .ok (false, wa) := by
      unfold gravity_step
      rw [if_neg (not_le.mpr hta)]
      rfl
    rw [hstep]
  obtain ⟨lines, -, -, hfin⟩ := play_finish_spec wa (by rw [hba]; exact hb1)
    (by rw [hla]; exact hl)
  have hupd := update_game_play_eq (f + 1) w input
  rw [hmoves, run_ok_bind, hfin] at hupd
  refine ⟨b, _, hcheck, hupd, hba, hpa, ck, crow, ?_, ?_⟩
  · unfold candidate_piece
    dsimp only
    split <;> split <;> split <;> simp
  · have hmod : Int.tmod (w.game.piece.rotation + 1) 4 = (w.game.piece.rotation + 1) % 4 := by
      generalize w.game.piece.rotation = r at h0 h1
      interval_cases r <;> decide
    unfold candidate_piece
    dsimp only
    split <;> split <;> split <;> simp_all

set_option maxRecDepth 100000 in
/-- C7, witnessed on the spawned I piece with left and rotate pressed together. -/
theorem C7_candidate_is_atomic_witness :
    (play_world empty_board spawned_piece).game.board.length = (WIDTH * HEIGHT).toNat ∧
    (play_world empty_board spawned_piece).game.time
      < (play_world empty_board spawned_piece).game.next_drop_time ∧
    ∃ (valid : Bool) (w1 : World),
      check_piece_valid
        (candidate_piece (play_world empty_board spawned_piece).game.piece
          { no_input with dleft := 1, dup := 1 })
        (play_world empty_board spawned_piece).game.board WIDTH HEIGHT = .ok valid ∧
      update_game_play 1 (play_world empty_board spawned_piece)
        { no_input with dleft := 1, dup := 1 } = .ok w1 ∧
      w1.game.board = (play_world empty_board spawned_piece).game.board ∧
      w1.game.piece = (if valid
        then candidate_piece (play_world empty_board spawned_piece).game.piece
          { no_input with dleft := 1, dup := 1 }
        else (play_world empty_board spawned_piece).game.piece) := by
  refine ⟨rfl, by decide!, ?_⟩
  obtain ⟨valid, w1, h1, h2, h3, h4, -⟩ := C7_candidate_is_atomic
    (play_world empty_board spawned_piece) { no_input with dleft := 1, dup := 1 } 1
    rfl rfl (by decide) (by decide) (by decide) (by decide) (by decide) (by decide!)
    (by decide)
  exact ⟨valid, w1, h1, h2, h3, h4⟩

/-- C8: when a pose (kind in 0..6, rotation in 0..3) is valid against the board,
`merge_piece` returns, and the check of the same pose against the merged board
returns false. -/
theorem C8_merge_then_check_fails (game : Game_State)
    (hb : game.board.length = (WIDTH * HEIGHT).toNat)
    (hk : game.piece.tetrino_index < 7) (h0 : 0 ≤ game.piece.rotation)
    (h1 : game.piece.rotation ≤ 3)
    (hv : check_piece_valid game.piece game.board WIDTH HEIGHT = .ok true) :
    ∃ merged, merge_piece game = .ok merged ∧ merged.piece = game.piece ∧
      check_piece_valid merged.piece merged.board WIDTH HEIGHT = .ok false := by
  have hb1 : game.board.length = 220 := hb
  obtain ⟨b, hcheck, hiff⟩ := check_piece_valid_spec game.piece game.board hk h0 h1 hb1
  rw [hv] at hcheck
  injection hcheck with hcheck
  have hfit : pose_fits game.piece game.board := hiff.mp hcheck.symm
  obtain ⟨t, b1, ht, hmerge, hlen, hwr, -⟩ :=
    merge_piece_spec game hb1 h0 h1 (pose_fits_inside _ _ hfit)
  refine ⟨_, hmerge, rfl, ?_⟩
  dsimp only
  obtain ⟨b2, hcheck2, hiff2⟩ := check_piece_valid_spec game.piece b1 hk h0 h1
    (by rw [hlen]; exact hb1)
  rw [hcheck2]
  cases b2 with
  | false => rfl
  | true =>
    exfalso
    obtain ⟨t2, ht2, hall⟩ := hiff2.mp rfl
    rw [ht] at ht2
    injection ht2 with ht2
    subst ht2
    obtain ⟨hmem, -⟩ := tetrino_at_mem _ _ ht
    obtain ⟨row, hrow, col, hcol, v, hvmem, hget⟩ := tetrino_occupied_list t hmem
      game.piece.rotation ((mem_int_range _ _).mpr ⟨h0, by omega⟩)
    rw [mem_int_range] at hrow hcol
    have hz : v ≠ 0 := by
      intro h0
      subst h0
      simp at hvmem
    obtain ⟨p0, p1, p2, p3, hzero⟩ := hall row col hrow.1 hrow.2 hcol.1 hcol.2 v hget hz
    have hval := hwr row col hrow.1 hrow.2 hcol.1 hcol.2 (Or.inl hrow.2) v hget hz
    rw [matrix_get_ok b1 (by rw [hlen]; exact hb1) _ _ p0 p1 p2 p3, hval] at hzero
    injection hzero with hzero
    exact hz hzero

set_option maxRecDepth 100000 in
/-- C8, witnessed on the spawned I piece and the empty board. -/
theorem C8_merge_then_check_fails_witness :
    check_piece_valid (play_world empty_board spawned_piece).game.piece
      (play_world empty_board spawned_piece).game.board WIDTH HEIGHT = .ok true ∧
    ∃ merged, merge_piece (play_world empty_board spawned_piece).game = .ok merged ∧
      merged.piece = (play_world empty_board spawned_piece).game.piece ∧
      check_piece_valid merged.piece merged.board WIDTH HEIGHT = .ok false :=
  ⟨by decide, C8_merge_then_check_fails (play_world empty_board spawned_piece).game rfl
    (by decide) (by decide) (by decide) (by decide)⟩

/-- C9: for every kind in 0..6 and every rotation in 0..3, sampling never faults on
the cells of the `side x side` square, and the number of cells whose `tetrino_get`
value is not 0 equals the number of non-zero entries of the stored template. -/
theorem C9_rotation_keeps_cell_count (kind : Nat) (rotation : Int) (hk : kind < 7)
    (h0 : 0 ≤ rotation) (h1 : rotation ≤ 3) :
    ∃ t, tetrino_at kind = .ok t ∧
      (∀ row col : Int, 0 ≤ row → row < t.side → 0 ≤ col → col < t.side →
        ∃ v, tetrino_get t row col rotation = .ok v) ∧
      occupied_count t rotation = template_count t := by
  obtain ⟨t, ht, hmem⟩ := tetrino_at_ok kind hk
  refine ⟨t, ht, fun row col r0 r1 c0 c1 =>
    tetrino_get_total t hmem row col rotation r0 r1 c0 c1 h0 h1, ?_⟩
  exact occupied_count_list t hmem rotation ((mem_int_range _ _).mpr ⟨h0, by omega⟩)

/-- C9, witnessed on the T piece turned three times. -/
theorem C9_rotation_keeps_cell_count_witness :
    (2 : Nat) < 7 ∧ (0 : Int) ≤ 3 ∧ (3 : Int) ≤ 3 ∧
    ∃ t, tetrino_at 2 = .ok t ∧
      (∀ row col : Int, 0 ≤ row → row < t.side → 0 ≤ col → col < t.side →
        ∃ v, tetrino_get t row col 3 = .ok v) ∧
      occupied_count t 3 = template_count t :=
  ⟨by decide, by decide, by decide,
    C9_rotation_keeps_cell_count 2 3 (by decide) (by decide) (by decide)⟩

set_option maxRecDepth 1000000 in
/-- C10, evaluated where it fails, with the clock arithmetic in binary32 as in the
program: in `late_world` (PLAY, level 29, clock and next drop at 524288 s) the drop
interval is the `float` 8947849 / 2^29, the sum `time + interval` rounds to `time`, and
`soft_drop` moves the piece one row down and sets `next_drop_time` to 524288 again. The
condition `time >= next_drop_time` of the gravity loop therefore holds after every
pass: the loop uses up every budget, and so does the whole tick, for every input. At a
clock of 262144 s the same tick returns after one drop, and with exact sums the tick
returns in `late_world` too. -/
theorem C10_gravity_loop_never_exits :
    play_ready late_world.game ∧ late_world.game.phase = GAME_PHASE_PLAY ∧
    get_time_to_next_drop_f32 late_world.game.level = .ok (8947849 / 536870912) ∧
    float_add late_world.game.time (8947849 / 536870912) = late_world.game.time ∧
    (soft_drop_f32 late_world).map
        (fun r => (r.1, r.2.game.piece.offset_row, r.2.game.time, r.2.game.next_drop_time)) =
      .ok (true, 1, 524288, 524288) ∧
    (∀ fuel : Nat, while_loop gravity_step_f32 fuel late_world = .error .out_of_fuel) ∧
    (∀ (fuel : Nat) (input : Input_State),
      update_game_play_f32 fuel late_world input = .error .out_of_fuel) ∧
    (update_game_play_f32 23
        { late_world with game :=
          { late_world.game with time := 262144, next_drop_time := 262144 } } no_input).map
        (fun w => (w.game.piece.offset_row, w.game.next_drop_time)) =
      .ok (1, 262144 + 1 / 32) ∧
    (update_game_play 23 late_world no_input).map
        (fun w => (w.game.piece.offset_row, w.game.next_drop_time)) =
      .ok (1, 524288 + 1 / 60) := by
  obtain ⟨hready, hdt, hround, hdue⟩ := late_world_facts
  have hdrop := play_ready_drop_ready _ hready
  refine ⟨hready, rfl, hdt, hround, by decide!,
    fun fuel => gravity_loop_f32_never late_world hdrop _ hdt hround hdue fuel,
    fun fuel input => update_game_play_f32_never late_world hdrop _ hdt hround hdue fuel input,
    by decide!, by decide!⟩

/-- C13, as stated, fails for large levels: `compute_points` multiplies in 32-bit
`int`. At level 1789569 the product `1200 * (level + 1)` is 2147484000, above the
largest `int`, and the function returns -2147483296; at level 2000000 it returns
-1894966096 where the claim gives 2400001200. -/
theorem C13_points_overflow_counterexample :
    compute_points 1789569 4 = -2147483296 ∧ (1200 : Int) * (1789569 + 1) = 2147484000 ∧
    compute_points 2000000 4 = -1894966096 ∧ (1200 : Int) * (2000000 + 1) = 2400001200 := by
  decide

/-- C13, amended: for every level that is not negative, `compute_points` returns
`40 * (level + 1)` for 1 line, `100 * (level + 1)` for 2, `300 * (level + 1)` for 3 and
`1200 * (level + 1)` for 4, each when that product is at most 2147483647, the largest
32-bit `int` (all four for levels up to 1789568); it returns 0 for every other count,
at every level; so 40 for (0, 1), 1200 for (0, 4) and 400 for (3, 2). -/
theorem C13_compute_points_in_range (level line_count : Int) (h0 : 0 ≤ level) :
    (40 * (level + 1) ≤ 2147483647 → compute_points level 1 = 40 * (level + 1)) ∧
    (100 * (level + 1) ≤ 2147483647 → compute_points level 2 = 100 * (level + 1)) ∧
    (300 * (level + 1) ≤ 2147483647 → compute_points level 3 = 300 * (level + 1)) ∧
    (1200 * (level + 1) ≤ 2147483647 → compute_points level 4 = 1200 * (level + 1)) ∧
    (level ≤ 1789568 →
      compute_points level 1 = 40 * (level + 1) ∧ compute_points level 2 = 100 * (level + 1) ∧
      compute_points level 3 = 300 * (level + 1) ∧
      compute_points level 4 = 1200 * (level + 1)) ∧
    ((line_count ≤ 0 ∨ 4 < line_count) → compute_points level line_count = 0) ∧
    compute_points 0 1 = 40 ∧ compute_points 0 4 = 1200 ∧ compute_points 3 2 = 400 := by
  have tier : ∀ m count : Int, 0 < m → m * (level + 1) ≤ 2147483647 →
      int_wrap (m * int_wrap (level + 1)) = m * (level + 1) := by
    intro m count hm hle
    have hlev : level + 1 ≤ 2147483647 := by nlinarith
    rw [int_wrap_id (level + 1) (by omega) hlev]
    exact int_wrap_id _ (by nlinarith) hle
  have t1 : 40 * (level + 1) ≤ 2147483647 → compute_points level 1 = 40 * (level + 1) := by
    intro h
    unfold compute_points
    rw [if_pos rfl]
    exact tier 40 1 (by decide) h
  have t2 : 100 * (level + 1) ≤ 2147483647 → compute_points level 2 = 100 * (level + 1) := by
    intro h
    unfold compute_points
    rw [if_neg (by decide), if_pos rfl]
    exact tier 100 2 (by decide) h
  have t3 : 300 * (level + 1) ≤ 2147483647 → compute_points level 3 = 300 * (level + 1) := by
    intro h
    unfold compute_points
    rw [if_neg (by decide), if_neg (by decide), if_pos rfl]
    exact tier 300 3 (by decide) h
  have t4 : 1200 * (level + 1) ≤ 2147483647 →
      compute_points level 4 = 1200 * (level + 1) := by
    intro h
    unfold compute_points
    rw [if_neg (by decide), if_neg (by decide), if_neg (by decide), if_pos rfl]
    exact tier 1200 4 (by decide) h
  refine ⟨t1, t2, t3, t4, fun h => ⟨t1 (by omega), t2 (by omega), t3 (by omega), t4 (by omega)⟩,
    ?_, by decide, by decide, by decide⟩
  intro h
  unfold compute_points
  rw [if_neg (by omega), if_neg (by omega), if_neg (by omega), if_neg (by omega)]

/-- C13 amended, witnessed at level 1789568, the last level at which four lines are
scored without overflow, and on a count outside 1..4. -/
theorem C13_compute_points_in_range_witness :
    compute_points 1789568 1 = 40 * (1789568 + 1) ∧
    compute_points 1789568 2 = 100 * (1789568 + 1) ∧
    compute_points 1789568 3 = 300 * (1789568 + 1) ∧
    compute_points 1789568 4 = 1200 * (1789568 + 1) ∧
    compute_points 1789568 7 = 0 :=
  ⟨((C13_compute_points_in_range 1789568 7 (by decide)).2.2.2.2.1 (by decide)).1,
   ((C13_compute_points_in_range 1789568 7 (by decide)).2.2.2.2.1 (by decide)).2.1,
   (C13_compute_points_in_range 1789568 7 (by decide)).2.2.1 (by decide),
   (C13_compute_points_in_range 1789568 7 (by decide)).2.2.2.1 (by decide),
   (C13_compute_points_in_range 1789568 7 (by decide)).2.2.2.2.2.1 (Or.inr (by decide))⟩

/-- C14, as stated, fails for large start levels: `get_lines_for_next_level`
multiplies in 32-bit `int`. At start level 214748364 the product `start_level * 10`
fits but `start_level * 10 + 10` is 2147483650, above the largest `int`, and the
function returns -2147483646 where the formula gives 2147483590; at start level
214748365 it returns -2147483636 where the formula gives 2147483600. -/
theorem C14_threshold_overflow_counterexample :
    get_lines_for_next_level 214748364 214748364 = -2147483646 ∧
    min ((214748364 : Int) * 10 + 10) (max 100 (214748364 * 10 - 50))
      + 10 * (214748364 - 214748364) = 2147483590 ∧
    get_lines_for_next_level 214748365 214748365 = -2147483636 ∧
    min ((214748365 : Int) * 10 + 10) (max 100 (214748365 * 10 - 50))
      + 10 * (214748365 - 214748365) = 2147483600 := by
  decide

/-- C14, amended: for every start level from 0 to 214748363 (so that
`start_level * 10 + 10` fits in a 32-bit `int`) and every level from it upwards for
which the result is at most 2147483647, `get_lines_for_next_level` is
`min (start_level*10+10) (max 100 (start_level*10-50))` plus ten per level above the
start level; it is 10 for (0, 0), 20 for (0, 1) and 60 for (5, 5). -/
theorem C14_get_lines_for_next_level_in_range (start_level level : Int)
    (h0 : 0 ≤ start_level) (h1 : start_level ≤ level) (h2 : start_level ≤ 214748363)
    (h3 : min (start_level * 10 + 10) (max 100 (start_level * 10 - 50))
      + 10 * (level - start_level) ≤ 2147483647) :
    get_lines_for_next_level start_level level =
      min (start_level * 10 + 10) (max 100 (start_level * 10 - 50))
        + 10 * (level - start_level) ∧
    get_lines_for_next_level 0 0 = 10 ∧ get_lines_for_next_level 0 1 = 20 ∧
    get_lines_for_next_level 5 5 = 60 := by
  refine ⟨?_, by decide, by decide, by decide⟩
  have e1 : int_wrap (start_level * 10) = start_level * 10 :=
    int_wrap_id _ (by omega) (by omega)
  have e2 : int_wrap (start_level * 10 + 10) = start_level * 10 + 10 :=
    int_wrap_id _ (by omega) (by omega)
  have e3 : int_wrap (start_level * 10 - 50) = start_level * 10 - 50 :=
    int_wrap_id _ (by omega) (by omega)
  have hfirst : 10 ≤ min (start_level * 10 + 10) (max 100 (start_level * 10 - 50)) := by
    omega
  unfold get_lines_for_next_level
  dsimp only
  rw [e1, e2, e3]
  split
  · next h => rw [h]; omega
  · have e4 : int_wrap (level - start_level) = level - start_level :=
      int_wrap_id _ (by omega) (by omega)
    rw [e4]
    have e5 : int_wrap ((level - start_level) * 10) = (level - start_level) * 10 :=
      int_wrap_id _ (by omega) (by omega)
    rw [e5]
    rw [int_wrap_id _ (by omega) (by omega)]
    omega

/-- C14 amended, witnessed at start level 2 and level 4. -/
theorem C14_get_lines_for_next_level_in_range_witness :
    get_lines_for_next_level 2 4 = min (2 * 10 + 10) (max 100 (2 * 10 - 50)) + 10 * (4 - 2) ∧
    get_lines_for_next_level 0 0 = 10 ∧ get_lines_for_next_level 0 1 = 20 ∧
    get_lines_for_next_level 5 5 = 60 :=
  C14_get_lines_for_next_level_in_range 2 4 (by decide) (by decide) (by decide) (by decide)

/-- C15: for levels `0 ≤ l1 ≤ l2`, `get_time_to_next_drop` returns for each the table
entry of `min level 29` times the frame duration; the entry of `l2` is at most that of
`l1`, at least 1, and is 1 as soon as `l2 ≥ 29`. -/
theorem C15_frames_per_drop (l1 l2 : Int) (h0 : 0 ≤ l1) (h12 : l1 ≤ l2) :
    ∃ f1 f2 : Nat,
      f1 = FRAMES_PER_DROP.getD (min l1 29).toNat 0 ∧
      f2 = FRAMES_PER_DROP.getD (min l2 29).toNat 0 ∧
      get_time_to_next_drop l1 = .ok ((f1 : ℚ) * TARGET_SECONDS_PER_FRAME) ∧
      get_time_to_next_drop l2 = .ok ((f2 : ℚ) * TARGET_SECONDS_PER_FRAME) ∧
      f2 ≤ f1 ∧ 1 ≤ f2 ∧ (29 ≤ l2 → f2 = 1) := by
  obtain ⟨f1, -, hf1, ht1⟩ := get_time_to_next_drop_frames l1 h0
  obtain ⟨f2, -, hf2, ht2⟩ := get_time_to_next_drop_frames l2 (by omega)
  refine ⟨f1, f2, hf1, hf2, ht1, ht2, ?_, ?_, ?_⟩
  · rw [hf1, hf2]
    exact frames_monotone_list _ (List.mem_range.mpr (by omega)) _
      (List.mem_range.mpr (by omega)) (by omega)
  · rw [hf2]
    exact frames_positive_list _ (List.mem_range.mpr (by omega))
  · intro h29
    rw [hf2]
    have : (min l2 29).toNat = 29 := by omega
    rw [this]
    rfl

theorem C15_frames_per_drop_witness :
    ∃ f1 f2 : Nat,
      f1 = FRAMES_PER_DROP.getD (min (8 : Int) 29).toNat 0 ∧
      f2 = FRAMES_PER_DROP.getD (min (35 : Int) 29).toNat 0 ∧
      get_time_to_next_drop 8 = .ok ((f1 : ℚ) * TARGET_SECONDS_PER_FRAME) ∧
      get_time_to_next_drop 35 = .ok ((f2 : ℚ) * TARGET_SECONDS_PER_FRAME) ∧
      f2 ≤ f1 ∧ 1 ≤ f2 ∧ ((29 : Int) ≤ 35 → f2 = 1) :=
  C15_frames_per_drop 8 35 (by decide) (by decide)

/-- C17: when the game is paused `update_game` returns the state it was given, every
field as it was, whatever the phase, the input snapshot, the clock value and the loop
budget. -/
theorem C17_paused_tick_changes_nothing (fuel : Nat) (w : World) (input : Input_State)
    (hp : w.game.paused = true) : update_game fuel w input = .ok w := by
  unfold update_game
  rw [if_pos hp]
  rfl

theorem C17_paused_tick_changes_nothing_witness :
    (World.mk { (play_world one_full_row_board spawned_piece).game with paused := true }
      (fun _ => 0)).game.paused = true ∧
    update_game 30
      (World.mk { (play_world one_full_row_board spawned_piece).game with paused := true }
        (fun _ => 0)) press_action =
      .ok (World.mk { (play_world one_full_row_board spawned_piece).game with paused := true }
        (fun _ => 0)) :=
  ⟨rfl, C17_paused_tick_changes_nothing 30 _ press_action rfl⟩

/-- C18: a tick of `update_game` that returns leaves the phase as it was or moves it
along one of five edges: START to PLAY, and then the action key was just pressed; PLAY
to LINE; PLAY to GAMEOVER; LINE to PLAY, and then `time` has reached
`highlight_end_time`; GAMEOVER to START, and then the action key was just pressed. The
result of a tick in the GAMEOVER phase differs from the state before in the phase at
most. -/
theorem C18_phase_edges (fuel : Nat) (w w1 : World) (input : Input_State)
    (h : update_game fuel w input = .ok w1) :
    (w1.game.phase = w.game.phase ∨
      (w.game.phase = GAME_PHASE_START ∧ w1.game.phase = GAME_PHASE_PLAY ∧ input.da > 0) ∨
      (w.game.phase = GAME_PHASE_PLAY ∧ w1.game.phase = GAME_PHASE_LINE) ∨
      (w.game.phase = GAME_PHASE_PLAY ∧ w1.game.phase = GAME_PHASE_GAMEOVER) ∨
      (w.game.phase = GAME_PHASE_LINE ∧ w1.game.phase = GAME_PHASE_PLAY ∧
        w.game.highlight_end_time ≤ w.game.time) ∨
      (w.game.phase = GAME_PHASE_GAMEOVER ∧ w1.game.phase = GAME_PHASE_START ∧
        input.da > 0)) ∧
    (w.game.phase = GAME_PHASE_GAMEOVER →
      w1 = { w with game := { w.game with phase := w1.game.phase } }) := by
  unfold update_game at h
  by_cases hp : w.game.paused = true
  · rw [if_pos hp] at h
    injection h with h
    subst h
    exact ⟨Or.inl rfl, fun _ => rfl⟩
  · rw [if_neg hp] at h
    cases hphase : w.game.phase with
    | GAME_PHASE_START =>
      rw [hphase] at h
      refine ⟨?_, fun hne => by cases hne⟩
      rcases update_game_start_ok_phase w w1 input h with h1 | ⟨h1, h2⟩
      · exact Or.inl (h1.trans hphase)
      · exact Or.inr (Or.inl ⟨rfl, h1, h2⟩)
    | GAME_PHASE_PLAY =>
      rw [hphase] at h
      refine ⟨?_, fun hne => by cases hne⟩
      have h2 : update_game_play fuel w input = .ok w1 := h
      rw [update_game_play_eq] at h2
      obtain ⟨wm, hwm, h2⟩ := bind_ok_inv _ _ _ h2
      have hm := play_moves_ok_phase fuel w wm input hwm
      rcases play_finish_ok_phase wm w1 h2 with h3 | h3 | h3
      · exact Or.inl (h3.trans (hm.trans hphase))
      · exact Or.inr (Or.inr (Or.inl ⟨rfl, h3⟩))
      · exact Or.inr (Or.inr (Or.inr (Or.inl ⟨rfl, h3⟩)))
    | GAME_PHASE_LINE =>
      rw [hphase] at h
      refine ⟨?_, fun hne => by cases hne⟩
      rcases update_game_line_ok_phase w w1 h with h1 | ⟨h1, h2⟩
      · rw [h1]
        exact Or.inl hphase
      · exact Or.inr (Or.inr (Or.inr (Or.inr (Or.inl ⟨rfl, h1, h2⟩))))
    | GAME_PHASE_GAMEOVER =>
      rw [hphase] at h
      have h2 : update_game_gameover w input = .ok w1 := h
      unfold update_game_gameover at h2
      by_cases hda : input.da > 0
      · rw [if_pos hda] at h2
        injection h2 with h2
        subst h2
        exact ⟨Or.inr (Or.inr (Or.inr (Or.inr (Or.inr ⟨rfl, rfl, hda⟩)))), fun _ => rfl⟩
      · rw [if_neg hda] at h2
        injection h2 with h2
        subst h2
        exact ⟨Or.inl hphase, fun _ => rfl⟩

set_option maxRecDepth 100000 in
theorem C18_phase_edges_witness :
    (update_game 30 gameover_world press_action =
      .ok { gameover_world with game := { gameover_world.game with phase := GAME_PHASE_START } } ∧
    (World.mk { gameover_world.game with phase := GAME_PHASE_START } gameover_world.rand) =
      { gameover_world with game := { gameover_world.game with
          phase := (World.mk { gameover_world.game with phase := GAME_PHASE_START }
            gameover_world.rand).game.phase } }) ∧
    (∃ w1 : World,
      update_game 30 (play_world one_full_row_board spawned_piece) no_input = .ok w1 ∧
      w1.game.phase = GAME_PHASE_LINE ∧
      (w1.game.phase = (play_world one_full_row_board spawned_piece).game.phase ∨
        ((play_world one_full_row_board spawned_piece).game.phase = GAME_PHASE_START ∧
          w1.game.phase = GAME_PHASE_PLAY ∧ no_input.da > 0) ∨
        ((play_world one_full_row_board spawned_piece).game.phase = GAME_PHASE_PLAY ∧
          w1.game.phase = GAME_PHASE_LINE) ∨
        ((play_world one_full_row_board spawned_piece).game.phase = GAME_PHASE_PLAY ∧
          w1.game.phase = GAME_PHASE_GAMEOVER) ∨
        ((play_world one_full_row_board spawned_piece).game.phase = GAME_PHASE_LINE ∧
          w1.game.phase = GAME_PHASE_PLAY ∧
          (play_world one_full_row_board spawned_piece).game.highlight_end_time ≤
            (play_world one_full_row_board spawned_piece).game.time) ∨
        ((play_world one_full_row_board spawned_piece).game.phase = GAME_PHASE_GAMEOVER ∧
          w1.game.phase = GAME_PHASE_START ∧ no_input.da > 0))) := by
  refine ⟨⟨rfl, (C18_phase_edges 30 gameover_world
    { gameover_world with game := { gameover_world.game with phase := GAME_PHASE_START } }
    press_action rfl).2 rfl⟩, ?_⟩
  have hev : (update_game 30 (play_world one_full_row_board spawned_piece) no_input).map
      (fun w1 => w1.game.phase) = .ok GAME_PHASE_LINE := by decide!
  cases h : update_game 30 (play_world one_full_row_board spawned_piece) no_input with
  | error e => rw [h] at hev; cases hev
  | ok w1 =>
    rw [h] at hev
    injection hev with hev
    exact ⟨w1, rfl, hev, (C18_phase_edges 30 (play_world one_full_row_board spawned_piece) w1
      no_input h).1⟩

/-- C19: for each of the 7 kinds, in a state whose board is empty, whose piece is at
the spawn pose (row 0, column `WIDTH / 2`, rotation 0) and whose level is not negative:
the spawn pose is valid; `n` successive calls of `soft_drop` all return true and bring
the piece to row offset `n`, where an occupied cell of it is in row `HEIGHT - 1`; the
next call returns false; and in the board after it every occupied cell of the piece at
that resting pose holds the value of the piece there, none of them below row
`HEIGHT - 1`, and every other cell of the board is 0. -/
theorem C19_drop_to_floor (w : World) (kind : Nat) (hk : kind < 7)
    (hboard : w.game.board = empty_board)
    (hpiece : w.game.piece = ⟨kind, 0, WIDTH / 2, 0⟩) (hlev : 0 ≤ w.game.level) :
    ∃ (t : Tetrino) (n : Nat) (wn w1 : World),
      tetrino_at kind = .ok t ∧ n = resting_row kind ∧
      check_piece_valid w.game.piece w.game.board WIDTH HEIGHT = .ok true ∧
      soft_drop_calls n w = .ok (List.replicate n true, wn) ∧
      wn.game.board = empty_board ∧ wn.game.piece = ⟨kind, (n : Int), WIDTH / 2, 0⟩ ∧
      (∃ (row col : Int) (v : Nat), 0 ≤ row ∧ row < t.side ∧ 0 ≤ col ∧ col < t.side ∧
        tetrino_get t row col 0 = .ok v ∧ v ≠ 0 ∧ (n : Int) + row = HEIGHT - 1) ∧
      soft_drop wn = .ok (false, w1) ∧
      (∀ row col : Int, 0 ≤ row → row < t.side → 0 ≤ col → col < t.side →
        ∀ v, tetrino_get t row col 0 = .ok v → v ≠ 0 →
          (n : Int) + row ≤ HEIGHT - 1 ∧
          cell w1.game.board ((n : Int) + row) (WIDTH / 2 + col) = v) ∧
      (∀ R C : Int, 0 ≤ R → R < HEIGHT → 0 ≤ C → C < WIDTH →
        (∀ row col : Int, 0 ≤ row → row < t.side → 0 ≤ col → col < t.side →
          ∀ v, tetrino_get t row col 0 = .ok v → v ≠ 0 →
            ¬ ((n : Int) + row = R ∧ WIDTH / 2 + col = C)) →
        cell w1.game.board R C = 0) := by
  have hkm : kind ∈ List.range 7 := List.mem_range.mpr hk
  obtain ⟨t, ht, hmem⟩ := tetrino_at_ok kind hk
  have htd := tetrino_at_getD kind t ht
  -- the spawn pose
  have hspawn_valid : check_piece_valid w.game.piece w.game.board WIDTH HEIGHT = .ok true := by
    rw [hpiece, hboard]
    exact empty_drop_valid_list kind hkm 0 (List.mem_range.mpr (by omega))
  -- the calls that move
  obtain ⟨wn, hcalls, hbn, hpn, hln⟩ :=
    soft_drop_calls_on_empty kind hk (resting_row kind) 0 (by omega) w hboard hpiece hlev
  -- the occupied cell on the floor
  obtain ⟨row0, hrow0, col0, hcol0, v0, hv0mem, hv0, hfloor⟩ := empty_drop_floor_list kind hkm
  rw [← htd, mem_int_range] at hrow0 hcol0
  rw [← htd] at hv0
  have hv0z : v0 ≠ 0 := by
    intro h
    subst h
    simp at hv0mem
  -- the call that locks
  have hbn220 : wn.game.board.length = 220 := by rw [hbn]; rfl
  have hrot0 : (0 : Int) ≤ wn.game.piece.rotation := by rw [hpn]
  have hrot1 : wn.game.piece.rotation ≤ 3 := by rw [hpn]; show (0 : Int) ≤ 3; decide
  have hkn : wn.game.piece.tetrino_index < 7 := by rw [hpn]; exact hk
  have hrest : check_piece_valid wn.game.piece wn.game.board WIDTH HEIGHT = .ok true := by
    rw [hpn, hbn]
    exact empty_drop_valid_list kind hkm (resting_row kind) (List.mem_range.mpr (by omega))
  obtain ⟨b, hcheck, hiff⟩ := check_piece_valid_spec wn.game.piece wn.game.board hkn hrot0
    hrot1 hbn220
  rw [hrest] at hcheck
  injection hcheck with hcheck
  have hin : pose_inside wn.game.piece := pose_fits_inside _ _ (hiff.mp hcheck.symm)
  obtain ⟨t1, b1, ht1, hmerge, hlen, hwr, hkeep⟩ :=
    merge_piece_spec wn.game hbn220 hrot0 hrot1 hin
  obtain ⟨t2, ht2, hall⟩ := hin
  rw [hpn] at ht1 ht2 hwr hkeep hall
  dsimp only at ht1 ht2 hwr hkeep hall
  rw [ht] at ht1 ht2
  injection ht1 with ht1
  injection ht2 with ht2
  subst ht1 ht2
  have hcn : check_piece_valid
      { wn.game.piece with offset_row := wn.game.piece.offset_row + 1 }
      wn.game.board WIDTH HEIGHT = .ok false := by
    rw [hpn, hbn]
    have := empty_drop_blocked_list kind hkm
    push_cast at this
    exact this
  obtain ⟨dt, -, -, hsp⟩ := spawn_piece_spec
    { wn with game := { wn.game with board := b1 } } (by rw [hln]; exact hlev)
  have hlock : soft_drop wn = .ok (false,
      { game := { ({ wn.game with board := b1 } : Game_State) with
          piece := ⟨wn.rand 0 % 7, 0, WIDTH / 2, 0⟩
          next_drop_time := wn.game.time + dt },
        rand := fun n => wn.rand (n + 1) }) := by
    unfold soft_drop
    dsimp only
    rw [hcn, run_ok_bind, if_pos (show (!false) = true from rfl), hmerge, run_ok_bind]
    rw [hsp, run_ok_bind]
    rfl
  refine ⟨t, resting_row kind, wn, _, ht, rfl, hspawn_valid, hcalls, hbn, hpn,
    ⟨row0, col0, v0, hrow0.1, hrow0.2, hcol0.1, hcol0.2, hv0, hv0z, hfloor⟩, hlock, ?_, ?_⟩
  · intro row col r0 r1 c0 c1 v hv hz
    obtain ⟨-, hlt, -, -⟩ := hall row col r0 r1 c0 c1 v hv hz
    have hlt1 : (resting_row kind : Int) + row < HEIGHT := hlt
    refine ⟨by omega, ?_⟩
    exact hwr row col r0 r1 c0 c1 (Or.inl r1) v hv hz
  · intro R C R0 R1 C0 C1 hfree
    have h := hkeep R C R0 R1 C0 C1 (fun row col r0 r1 c0 c1 _ v hv hz =>
      hfree row col r0 r1 c0 c1 v hv hz)
    rw [hbn, cell_empty_board] at h
    exact h

set_option maxRecDepth 1000000 in
/-- C19, witnessed on the T piece (kind 2), which comes to rest at row offset 19. -/
theorem C19_drop_to_floor_witness :
    (∃ (t : Tetrino) (n : Nat) (wn w1 : World),
      tetrino_at 2 = .ok t ∧ n = resting_row 2 ∧
      check_piece_valid (play_world empty_board ⟨2, 0, WIDTH / 2, 0⟩).game.piece
        (play_world empty_board ⟨2, 0, WIDTH / 2, 0⟩).game.board WIDTH HEIGHT = .ok true ∧
      soft_drop_calls n (play_world empty_board ⟨2, 0, WIDTH / 2, 0⟩) =
        .ok (List.replicate n true, wn) ∧
      wn.game.board = empty_board ∧ wn.game.piece = ⟨2, (n : Int), WIDTH / 2, 0⟩ ∧
      (∃ (row col : Int) (v : Nat), 0 ≤ row ∧ row < t.side ∧ 0 ≤ col ∧ col < t.side ∧
        tetrino_get t row col 0 = .ok v ∧ v ≠ 0 ∧ (n : Int) + row = HEIGHT - 1) ∧
      soft_drop wn = .ok (false, w1) ∧
      (∀ row col : Int, 0 ≤ row → row < t.side → 0 ≤ col → col < t.side →
        ∀ v, tetrino_get t row col 0 = .ok v → v ≠ 0 →
          (n : Int) + row ≤ HEIGHT - 1 ∧
          cell w1.game.board ((n : Int) + row) (WIDTH / 2 + col) = v) ∧
      (∀ R C : Int, 0 ≤ R → R < HEIGHT → 0 ≤ C → C < WIDTH →
        (∀ row col : Int, 0 ≤ row → row < t.side → 0 ≤ col → col < t.side →
          ∀ v, tetrino_get t row col 0 = .ok v → v ≠ 0 →
            ¬ ((n : Int) + row = R ∧ WIDTH / 2 + col = C)) →
        cell w1.game.board R C = 0)) ∧
    (soft_drop_calls 20 (play_world empty_board ⟨2, 0, WIDTH / 2, 0⟩)).map
        (fun r => (r.1, r.2.game.board)) =
      .ok (List.replicate 19 true ++ [false],
        List.replicate 205 0 ++ [3, 3, 3, 0, 0] ++ [0, 0, 0, 0, 0, 0, 3, 0, 0, 0]) :=
  ⟨C19_drop_to_floor (play_world empty_board ⟨2, 0, WIDTH / 2, 0⟩) 2 (by decide) rfl rfl
    (by decide), by decide!⟩

set_option maxRecDepth 100000 in
/-- C20, as stated, fails on the spawned I piece (kind index 0) merged into the empty
board: local cell (1, 0) of the piece is not 0 and covers board cell (1, 5), and the
value stored there is 1, not the kind index 0. -/
theorem C20_kind_index_counterexample :
    (play_world empty_board spawned_piece).game.piece.tetrino_index = 0 ∧
    (tetrino_at 0 >>= fun t => tetrino_get t 1 0 0) = .ok 1 ∧
    (merge_piece (play_world empty_board spawned_piece).game).map
      (fun merged => cell merged.board (0 + 1) (WIDTH / 2 + 0)) = .ok 1 := by
  decide!

/-- C20, amended: for a piece (rotation in 0..3) whose occupied cells lie inside the
board, `merge_piece` returns the game with a new board in which every board cell
covered by a non-zero local cell of the piece holds the value of that local cell, which
is the kind index plus 1 (so 1..7), and every board cell that no non-zero local cell
covers is as before. -/
theorem C20_merge_piece_stores_kind_plus_one (game : Game_State)
    (hb : game.board.length = (WIDTH * HEIGHT).toNat) (h0 : 0 ≤ game.piece.rotation)
    (h1 : game.piece.rotation ≤ 3) (hin : pose_inside game.piece) :
    ∃ (t : Tetrino) (b1 : List Nat), tetrino_at game.piece.tetrino_index = .ok t ∧
      game.piece.tetrino_index < 7 ∧
      merge_piece game = .ok { game with board := b1 } ∧
      b1.length = game.board.length ∧
      (∀ row col : Int, 0 ≤ row → row < t.side → 0 ≤ col → col < t.side →
        ∀ v, tetrino_get t row col game.piece.rotation = .ok v → v ≠ 0 →
          v = game.piece.tetrino_index + 1 ∧
          cell b1 (game.piece.offset_row + row) (game.piece.offset_col + col) =
            game.piece.tetrino_index + 1) ∧
      (∀ R C : Int, 0 ≤ R → R < HEIGHT → 0 ≤ C → C < WIDTH →
        (∀ row col : Int, 0 ≤ row → row < t.side → 0 ≤ col → col < t.side →
          ∀ v, tetrino_get t row col game.piece.rotation = .ok v → v ≠ 0 →
            ¬ (game.piece.offset_row + row = R ∧ game.piece.offset_col + col = C)) →
        cell b1 R C = cell game.board R C) := by
  obtain ⟨t, b1, ht, hmerge, hlen, hwr, hkeep⟩ := merge_piece_spec game hb h0 h1 hin
  obtain ⟨-, hk⟩ := tetrino_at_mem _ _ ht
  refine ⟨t, b1, ht, hk, hmerge, hlen, ?_, ?_⟩
  · intro row col r0 r1 c0 c1 v hv hz
    have hval := tetrino_get_value _ t ht row col _ r0 r1 c0 c1 h0 h1 v hv hz
    refine ⟨hval, ?_⟩
    rw [hwr row col r0 r1 c0 c1 (Or.inl r1) v hv hz, hval]
  · intro R C R0 R1 C0 C1 hfree
    exact hkeep R C R0 R1 C0 C1 (fun row col r0 r1 c0 c1 _ v hv hz =>
      hfree row col r0 r1 c0 c1 v hv hz)

/-- C20 amended, witnessed on the spawned I piece over `one_full_row_board`. -/
theorem C20_merge_piece_stores_kind_plus_one_witness :
    ∃ (t : Tetrino) (b1 : List Nat), tetrino_at 0 = .ok t ∧ (0 : Nat) < 7 ∧
      merge_piece (play_world one_full_row_board spawned_piece).game =
        .ok { (play_world one_full_row_board spawned_piece).game with board := b1 } ∧
      b1.length = one_full_row_board.length ∧
      (∀ row col : Int, 0 ≤ row → row < t.side → 0 ≤ col → col < t.side →
        ∀ v, tetrino_get t row col 0 = .ok v → v ≠ 0 →
          v = 0 + 1 ∧ cell b1 (0 + row) (WIDTH / 2 + col) = 0 + 1) ∧
      (∀ R C : Int, 0 ≤ R → R < HEIGHT → 0 ≤ C → C < WIDTH →
        (∀ row col : Int, 0 ≤ row → row < t.side → 0 ≤ col → col < t.side →
          ∀ v, tetrino_get t row col 0 = .ok v → v ≠ 0 →
            ¬ (0 + row = R ∧ WIDTH / 2 + col = C)) →
        cell b1 R C = cell one_full_row_board R C) :=
  C20_merge_piece_stores_kind_plus_one (play_world one_full_row_board spawned_piece).game
    rfl (by decide) (by decide) (spawn_pose_inside 0 (by decide))

set_option maxRecDepth 100000 in
/-- C21, as stated, fails on `line_world 9 1`, a LINE state whose highlight is over:
the tick sets the phase to PLAY and removes the full bottom row from the board, and
afterwards row 21 is still marked in `lines` and `pending_line_count` is still 1. -/
theorem C21_record_kept_counterexample :
    (line_world 9 1).game.phase = GAME_PHASE_LINE ∧
    (update_game_line (line_world 9 1)).map (fun w1 =>
        (w1.game.phase, w1.game.lines, w1.game.lines.getD 21 0, w1.game.pending_line_count,
          (board_rows w1.game.board).filter row_filled)) =
      .ok (GAME_PHASE_PLAY, List.replicate 21 0 ++ [1], 1, 1, []) := by
  decide!

/-- C21, amended: the LINE tick that leaves the phase (arrays of the declared sizes,
highlight over) returns with the phase PLAY and with `lines` and `pending_line_count`
exactly as they were before it. The record is written next at the end of a PLAY tick:
every PLAY tick from the resulting state that returns (kind and rotation in range,
loop budget of 23 or more) ends with `lines` marking exactly the full rows of the
board it leaves and `pending_line_count` their number. -/
theorem C21_line_tick_keeps_record (w : World) (hb : w.game.board.length = 220)
    (hl : w.game.lines.length = 22) (hk : w.game.piece.tetrino_index < 7)
    (h0 : 0 ≤ w.game.piece.rotation) (h1 : w.game.piece.rotation ≤ 3)
    (hdue : w.game.highlight_end_time ≤ w.game.time) :
    ∃ w1 : World, update_game_line w = .ok w1 ∧ w1.game.phase = GAME_PHASE_PLAY ∧
      w1.game.lines = w.game.lines ∧
      w1.game.pending_line_count = w.game.pending_line_count ∧
      ∀ (fuel : Nat) (input : Input_State) (w2 : World), 23 ≤ fuel →
        update_game_play fuel w1 input = .ok w2 →
        (∀ r : Nat, r < 22 →
          w2.game.lines.getD r 0 = if row_filled (board_row w2.game.board r) then 1 else 0) ∧
        w2.game.pending_line_count = ((board_rows w2.game.board).filter row_filled).length := by
  obtain ⟨board1, hclear, hlen1⟩ := clear_lines_total w.game.board w.game.lines hb hl
  refine ⟨_, update_game_line_due w board1 hclear hdue, rfl, rfl, rfl, ?_⟩
  intro fuel input w2 hf hrun
  rw [update_game_play_eq] at hrun
  obtain ⟨wm, hwm, hfin⟩ := bind_ok_inv _ _ _ hrun
  obtain ⟨hbm, hlm⟩ :=
    (play_moves_basic _ input fuel (by exact ⟨hlen1, hk, h0, h1⟩) hf).2 wm hwm
  obtain ⟨lines, -, hget, hspec⟩ := play_finish_spec wm hbm (by rw [hlm]; exact hl)
  rw [hspec] at hfin
  injection hfin with hfin
  subst hfin
  exact ⟨hget, rfl⟩

set_option maxRecDepth 100000 in
/-- C21 amended, witnessed on `line_world 9 1`. -/
theorem C21_line_tick_keeps_record_witness :
    ∃ w1 : World, update_game_line (line_world 9 1) = .ok w1 ∧
      w1.game.phase = GAME_PHASE_PLAY ∧
      w1.game.lines = (line_world 9 1).game.lines ∧
      w1.game.pending_line_count = (line_world 9 1).game.pending_line_count ∧
      ∀ (fuel : Nat) (input : Input_State) (w2 : World), 23 ≤ fuel →
        update_game_play fuel w1 input = .ok w2 →
        (∀ r : Nat, r < 22 →
          w2.game.lines.getD r 0 = if row_filled (board_row w2.game.board r) then 1 else 0) ∧
        w2.game.pending_line_count = ((board_rows w2.game.board).filter row_filled).length :=
  C21_line_tick_keeps_record (line_world 9 1) rfl rfl (by decide) (by decide) (by decide)
    (by decide!)

set_option maxRecDepth 1000000 in
/-- C22, evaluated where it fails: the board `shaft_board` has no full row and the
upright I piece in column 5 is valid on it. With the down key and the action key both
just pressed, the soft drop locks the piece, which fills rows 18 to 21; the piece
spawned then (`rand()` gives 0, the I piece) is hard-dropped in the same tick into
columns 5 to 8 of row 17, which fills that row too. The tick ends in the LINE phase
with `pending_line_count` 5, for which `compute_points` is 0, and the LINE tick that
follows removes five rows and leaves the points at 0. On `wide_shaft_board`, when
`rand()` gives 1 (the O piece), the same tick ends with `pending_line_count` 6. -/
theorem C22_five_rows_in_one_tick :
    play_ready (play_world shaft_board shaft_piece).game ∧
    (play_world shaft_board shaft_piece).game.phase = GAME_PHASE_PLAY ∧
    (board_rows shaft_board).filter row_filled = [] ∧
    check_piece_valid shaft_piece shaft_board WIDTH HEIGHT = .ok true ∧
    (update_game_play 23 (play_world shaft_board shaft_piece) press_down_action).map
      (fun w => (w.game.pending_line_count, w.game.phase, w.game.lines)) =
      .ok (5, GAME_PHASE_LINE, List.replicate 17 0 ++ [1, 1, 1, 1, 1]) ∧
    compute_points 0 5 = 0 ∧
    (update_game_play 23 (play_world shaft_board shaft_piece) press_down_action >>= fun w =>
      update_game_line { w with game := { w.game with time := 1 } }).map
      (fun w => (w.game.line_count, w.game.points, w.game.board)) =
      .ok (5, 0, empty_board) ∧
    play_ready (play_world wide_shaft_board shaft_piece).game ∧
    (board_rows wide_shaft_board).filter row_filled = [] ∧
    check_piece_valid shaft_piece wide_shaft_board WIDTH HEIGHT = .ok true ∧
    (update_game_play 23 (World.mk (play_world wide_shaft_board shaft_piece).game (fun _ => 1))
      press_down_action).map (fun w => (w.game.pending_line_count, w.game.phase)) =
      .ok (6, GAME_PHASE_LINE) ∧
    compute_points 0 6 = 0 := by
  decide!

/-- C24: for every kind in 0..6 and every rotation `k` in 0..3, sampling cell
`(row, col)` in rotation `(k + 1) % 4` is sampling cell `(side - 1 - col, row)` in
rotation `k`, for every cell, and on the cells of the square both return the same
value; so rotation 2 samples the cell two quarter turns away in rotation 0 (rotation 1
applied twice), four quarter turns bring every cell back to itself, and advancing the
rotation index four times samples as before. -/
theorem C24_rotation_quarter_turns (kind : Nat) (k : Int) (hkind : kind < 7) (h0 : 0 ≤ k)
    (h1 : k ≤ 3) :
    ∃ t, tetrino_at kind = .ok t ∧
      (∀ row col : Int,
        tetrino_get t row col ((k + 1) % 4) = tetrino_get t (t.side - 1 - col) row k) ∧
      (∀ row col : Int, 0 ≤ row → row < t.side → 0 ≤ col → col < t.side →
        ∃ v, tetrino_get t row col ((k + 1) % 4) = .ok v ∧
          tetrino_get t (t.side - 1 - col) row k = .ok v) ∧
      (∀ row col : Int,
        tetrino_get t row col 2 = tetrino_get t (t.side - 1 - col) row 1 ∧
        tetrino_get t (t.side - 1 - col) row 1 =
          tetrino_get t (t.side - 1 - row) (t.side - 1 - col) 0) ∧
      (∀ row col : Int,
        (t.side - 1 - (t.side - 1 - row), t.side - 1 - (t.side - 1 - col)) = (row, col)) ∧
      (∀ row col : Int,
        tetrino_get t row col (((((k + 1) % 4 + 1) % 4 + 1) % 4 + 1) % 4) =
          tetrino_get t row col k) := by
  obtain ⟨t, ht, hmem⟩ := tetrino_at_ok kind hkind
  refine ⟨t, ht, fun row col => tetrino_get_quarter_turn t row col k h0 h1, ?_, ?_, ?_, ?_⟩
  · intro row col r0 r1 c0 c1
    obtain ⟨v, hv⟩ := tetrino_get_total t hmem (t.side - 1 - col) row k (by omega) (by omega)
      r0 r1 h0 h1
    exact ⟨v, by rw [tetrino_get_quarter_turn t row col k h0 h1, hv], hv⟩
  · intro row col
    constructor
    · exact tetrino_get_quarter_turn t row col 1 (by decide) (by decide)
    · have h := tetrino_get_quarter_turn t (t.side - 1 - col) row 0 (by decide) (by decide)
      exact h
  · intro row col
    congr 1 <;> ring
  · intro row col
    have hk : k = 0 ∨ k = 1 ∨ k = 2 ∨ k = 3 := by omega
    rcases hk with rfl | rfl | rfl | rfl <;> rfl

/-- C24, witnessed on the T piece and the step from rotation 3 back to rotation 0. -/
theorem C24_rotation_quarter_turns_witness :
    ∃ t, tetrino_at 2 = .ok t ∧
      (∀ row col : Int,
        tetrino_get t row col ((3 + 1) % 4) = tetrino_get t (t.side - 1 - col) row 3) ∧
      (∀ row col : Int, 0 ≤ row → row < t.side → 0 ≤ col → col < t.side →
        ∃ v, tetrino_get t row col ((3 + 1) % 4) = .ok v ∧
          tetrino_get t (t.side - 1 - col) row 3 = .ok v) ∧
      (∀ row col : Int,
        tetrino_get t row col 2 = tetrino_get t (t.side - 1 - col) row 1 ∧
        tetrino_get t (t.side - 1 - col) row 1 =
          tetrino_get t (t.side - 1 - row) (t.side - 1 - col) 0) ∧
      (∀ row col : Int,
        (t.side - 1 - (t.side - 1 - row), t.side - 1 - (t.side - 1 - col)) = (row, col)) ∧
      (∀ row col : Int,
        tetrino_get t row col (((((3 + 1) % 4 + 1) % 4 + 1) % 4 + 1) % 4) =
          tetrino_get t row col 3) :=
  C24_rotation_quarter_turns 2 3 (by decide) (by decide) (by decide)

end Tetris
